import Mathlib

/-!
Verification development for the schema reconciliation engine
(`re_introspection.rs`) and the column differ (`sql_schema_differ/column.rs`).

The two source files are embedded shallowly.  Types owned by external
library crates (`datamodel`, `sql_schema_describer`, `prisma_value`) are not
part of the sources; they are modelled from the specification, with a doc
comment marking each such definition.
-/

namespace ColumnDiffer

/-- Modelled from the spec: the `prisma_value` crate's value type is not in
the sources.  Only the constructors used by the two embedded files matter:
JSON-typed values, string values, enum values, plus representative scalar
values so that inequality between distinct kinds is expressible. -/
inductive PrismaValue where
  | string (s : String)
  | json (s : String)
  | enum (s : String)
  | int (n : Int)
  | boolean (b : Bool)
deriving DecidableEq, Repr

/-- Modelled from the spec: `sql_schema_describer::DefaultKind`.  The spec's
§4.3 names the four kinds: plain value, now-generated, database-generated
expression (with its SQL text), and sequence-backed. -/
inductive DefaultKind where
  | value (v : PrismaValue)
  | now
  | dbGenerated (s : String)
  | sequence (s : String)
deriving DecidableEq, Repr

/-- Modelled from the spec: a column default as exposed by the schema
describer walker: a kind plus an optional constraint name. -/
structure ColumnDefault where
  kind : DefaultKind
  constraint_name : Option String
deriving DecidableEq, Repr

/-- Modelled from the spec: column arity (nullability / list-ness). -/
inductive ColumnArity where
  | required
  | nullable
  | list
deriving DecidableEq, Repr

/-- Modelled from the spec: the broad class of a column's type; only
JSON-ness is consulted by the embedded code. -/
inductive ColumnTypeFamily where
  | json
  | other (s : String)
deriving DecidableEq, Repr

def ColumnTypeFamily.is_json : ColumnTypeFamily → Bool
  | .json => true
  | .other _ => false

/-- `ColumnTypeChange` from `column.rs`. -/
inductive ColumnTypeChange where
  | safeCast
  | riskyCast
  | notCastable
deriving DecidableEq, Repr

/-- Modelled from the spec: the data of one side of a column pair as read
through `ColumnWalker`: name, arity, type family, autoincrement flag and
optional default. -/
structure Column where
  name : String
  arity : ColumnArity
  tpe : ColumnTypeFamily
  autoincrement : Bool
  default : Option ColumnDefault
deriving DecidableEq, Repr

/-- Modelled from the spec: the per-dialect capability object.  It answers
"should JSON defaults be ignored", "are named constraints active" and
classifies type changes. -/
structure SqlFlavour where
  should_ignore_json_defaults : Bool
  named_constraints : Bool
  column_type_change : Column → Column → Option ColumnTypeChange

/-- `ColumnChange` from `column.rs`. -/
inductive ColumnChange where
  | renaming
  | arity
  | default
  | typeChanged
  | sequence
deriving DecidableEq, Repr

/-- `ColumnChanges` from `column.rs`; the bitset of changes is embedded as
the list of set flags, in the order the source sets them. -/
structure ColumnChanges where
  type_change : Option ColumnTypeChange
  changes : List ColumnChange
deriving Repr

def ColumnChanges.default_changed (c : ColumnChanges) : Bool :=
  c.changes.contains ColumnChange.default

def ColumnChanges.differs_in_something (c : ColumnChanges) : Bool :=
  !c.changes.isEmpty

/-- `json_defaults_match` from `column.rs`.  The JSON parser is the external
`serde_json::from_str`; it is a parameter: any function from text to an
optional parsed value with decidable equality. -/
def json_defaults_match {J : Type} [DecidableEq J] (parse : String → Option J)
    (previous next : String) : Bool :=
  match parse previous, parse next with
  | some p, some n => decide (p = n)
  | _, _ => true

/-- ASCII lowercasing, standing in for Rust's `str::to_lowercase` on the
SQL expression texts compared by the DbGenerated branch. -/
def lowerChar (c : Char) : Char :=
  if c.val ≥ 65 && c.val ≤ 90 then Char.ofNat (c.toNat + 32) else c

def lowerStr (s : String) : String := String.mk (s.data.map lowerChar)

/-- `defaults_match` from `column.rs`, embedded arm for arm in source
order. -/
def defaults_match {J : Type} [DecidableEq J] (parse : String → Option J)
    (flavour : SqlFlavour) (previous next : Column) : Bool :=
  if flavour.should_ignore_json_defaults
      && (previous.tpe.is_json || next.tpe.is_json) then
    true
  else
    let prev := previous.default
    let nxt := next.default
    let names_match :=
      if flavour.named_constraints then
        (prev.bind (·.constraint_name)) == (nxt.bind (·.constraint_name))
      else
        true
    match (prev.map (·.kind) : Option DefaultKind), (nxt.map (·.kind) : Option DefaultKind) with
    | some (.value (.json prev_json)), some (.value (.json next_json)) =>
        json_defaults_match parse prev_json next_json && names_match
    | some (.value (.string prev_json)), some (.value (.json next_json)) =>
        json_defaults_match parse prev_json next_json && names_match
    | some (.value (.json prev_json)), some (.value (.string next_json)) =>
        json_defaults_match parse prev_json next_json && names_match
    | some (.value p), some (.value n) => (p == n) && names_match
    | some (.value _), some .now => false
    | some (.value _), none => false
    | some .now, some .now => true
    | some .now, none => false
    | some .now, some (.value _) => false
    | some (.dbGenerated _), some (.value _) => false
    | some (.dbGenerated _), some .now => false
    | some (.dbGenerated _), none => false
    | some (.sequence _), none => true
    | some (.sequence _), some (.value _) => false
    | some (.sequence _), some .now => false
    | none, none => true
    | none, some (.value _) => false
    | none, some .now => false
    | some (.dbGenerated p), some (.dbGenerated n) =>
        (lowerStr p == lowerStr n) && names_match
    | _, some (.dbGenerated _) => false
    | _, some (.sequence _) => true

/-- `all_changes` from `column.rs`. -/
def all_changes {J : Type} [DecidableEq J] (parse : String → Option J)
    (flavour : SqlFlavour) (previous next : Column) : ColumnChanges :=
  let type_change := flavour.column_type_change previous next
  let changes : List ColumnChange :=
    (if previous.name ≠ next.name then [ColumnChange.renaming] else [])
    ++ (if previous.arity ≠ next.arity then [ColumnChange.arity] else [])
    ++ (if type_change.isSome then [ColumnChange.typeChanged] else [])
    ++ (if !defaults_match parse flavour previous next then [ColumnChange.default] else [])
    ++ (if previous.autoincrement ≠ next.autoincrement then [ColumnChange.sequence] else [])
  { type_change := type_change, changes := changes }

end ColumnDiffer

namespace Reconcile

/-- Modelled from the spec: `datamodel::ValueGenerator`; only the client-side
unique-id generators (`cuid`, `uuid`) are distinguished by the embedded code. -/
inductive ValueGenerator where
  | cuid
  | uuid
  | other (s : String)
deriving DecidableEq, Repr

/-- Modelled from the spec: `prisma_value::PrismaValue` as used by the
reconciliation engine (`DefaultValue::new_single(PrismaValue::Enum(_))`). -/
inductive DmValue where
  | string (s : String)
  | enum (s : String)
  | int (n : Int)
  | boolean (b : Bool)
deriving DecidableEq, Repr

/-- Modelled from the spec: `datamodel::DefaultValue`: a field default is a
single value or a generator expression. -/
inductive DefaultValue where
  | single (v : DmValue)
  | expression (g : ValueGenerator)
deriving DecidableEq, Repr

/-- Modelled from the spec: the type of a scalar field: a base scalar type
(string and timestamp distinguished, the rest opaque) or a reference to an
enum by name. -/
inductive FieldType where
  | string
  | datetime
  | base (s : String)
  | enum (name : String)
deriving DecidableEq, Repr

def FieldType.is_string : FieldType → Bool
  | .string => true
  | _ => false

def FieldType.is_datetime : FieldType → Bool
  | .datetime => true
  | _ => false

/-- Modelled from the spec: field arity; `is_list` drives the
many-to-many test. -/
inductive FieldArity where
  | required
  | optional
  | list
deriving DecidableEq, Repr

/-- Modelled from the spec §3: relation descriptor — target model (the
source names this field `to`, a reserved token here), owning field list,
referenced field list, logical relation name. -/
structure RelationInfo where
  toModel : String
  fields : List String
  references : List String
  name : String
deriving DecidableEq, Repr

/-- Relation-descriptor equality as used by the source's `==` on
`RelationInfo`: per the spec's phase 4, descriptor equality is separate from
relation-name equality, so the logical name is not part of it. -/
def riEq (a b : RelationInfo) : Bool :=
  a.toModel == b.toModel && a.fields == b.fields && a.references == b.references

/-- Modelled from the spec §3: ScalarField. -/
structure ScalarField where
  name : String
  database_name : Option String
  field_type : FieldType
  arity : FieldArity
  default_value : Option DefaultValue
  is_updated_at : Bool
  is_ignored : Bool
  documentation : Option String
deriving DecidableEq, Repr

/-- Modelled from the spec §3: RelationField. -/
structure RelationField where
  name : String
  relation_info : RelationInfo
  arity : FieldArity
  is_ignored : Bool
  documentation : Option String
deriving DecidableEq, Repr

def RelationField.is_list (f : RelationField) : Bool :=
  f.arity == FieldArity.list

/-- Modelled from the spec: a model field is a scalar field or a relation
field. -/
inductive Field where
  | scalar (f : ScalarField)
  | relation (f : RelationField)
deriving DecidableEq, Repr

def Field.name : Field → String
  | .scalar f => f.name
  | .relation f => f.name

def Field.isScalar : Field → Bool
  | .scalar _ => true
  | _ => false

def Field.isRelation : Field → Bool
  | .relation _ => true
  | _ => false

def Field.documentation : Field → Option String
  | .scalar f => f.documentation
  | .relation f => f.documentation

def Field.setDocumentation (d : Option String) : Field → Field
  | .scalar f => .scalar { f with documentation := d }
  | .relation f => .relation { f with documentation := d }

/-- `Ignorable::ignore` on a field. -/
def Field.ignore : Field → Field
  | .scalar f => .scalar { f with is_ignored := true }
  | .relation f => .relation { f with is_ignored := true }

/-- Modelled from the spec §3: Index — optional logical name, optional
database name, field list. -/
structure Index where
  name : Option String
  db_name : Option String
  fields : List String
deriving DecidableEq, Repr

/-- Modelled from the spec §3: PrimaryKey. -/
structure PrimaryKey where
  name : Option String
  db_name : Option String
  fields : List String
deriving DecidableEq, Repr

/-- Modelled from the spec §3: Model. -/
structure Model where
  name : String
  database_name : Option String
  fields : List Field
  indices : List Index
  primary_key : Option PrimaryKey
  is_ignored : Bool
  documentation : Option String
deriving DecidableEq, Repr

/-- Modelled from the spec §3: EnumValue. -/
structure EnumValue where
  name : String
  database_name : Option String
  documentation : Option String
deriving DecidableEq, Repr

/-- Modelled from the spec §3: Enum.  (`DmEnum` because `Enum` would shadow
too easily.) -/
structure DmEnum where
  name : String
  database_name : Option String
  values : List EnumValue
  documentation : Option String
deriving DecidableEq, Repr

/-- Modelled from the spec: the model tree. -/
structure Datamodel where
  models : List Model
  enums : List DmEnum
deriving DecidableEq, Repr

/-- The context consumed by `enrich`: the named-constraints feature flag and
whether the active dialect is MySQL. -/
structure IntrospectionContext where
  named_constraints : Bool
  is_mysql : Bool
deriving DecidableEq, Repr

/-- The resolved database-level name of a model: the explicit mapping if
present, otherwise the logical name (spec §3, "resolved database-level
name"). -/
def Model.resolvedName (m : Model) : String := m.database_name.getD m.name

def ScalarField.resolvedName (f : ScalarField) : String := f.database_name.getD f.name

def DmEnum.resolvedName (e : DmEnum) : String := e.database_name.getD e.name

def EnumValue.resolvedName (v : EnumValue) : String := v.database_name.getD v.name

def Model.scalarFields (m : Model) : List ScalarField :=
  m.fields.filterMap fun f => match f with
    | .scalar s => some s
    | _ => none

def Model.relationFields (m : Model) : List RelationField :=
  m.fields.filterMap fun f => match f with
    | .relation r => some r
    | _ => none

/-- Modelled from the spec: `Datamodel::find_model` — first model with the
given logical name. -/
def findModel (dm : Datamodel) (n : String) : Option Model :=
  dm.models.find? (fun m => m.name == n)

/-- Modelled from the spec: `Datamodel::find_model_db_name` — first model
whose resolved database-level name equals the argument (spec phase 1:
"resolved database-level names are equal"). -/
def findModelDbName (dm : Datamodel) (d : String) : Option Model :=
  dm.models.find? (fun m => m.resolvedName == d)

/-- Modelled from the spec: `Model::find_scalar_field`. -/
def Model.findScalarField (m : Model) (n : String) : Option ScalarField :=
  m.scalarFields.find? (fun f => f.name == n)

/-- Modelled from the spec: `Model::find_scalar_field_db_name` — first
scalar field whose resolved database-level name equals the argument. -/
def Model.findScalarFieldDbName (m : Model) (d : String) : Option ScalarField :=
  m.scalarFields.find? (fun f => f.resolvedName == d)

/-- Modelled from the spec: `Model::find_field` — first field (of either
kind) with the given name. -/
def Model.findField (m : Model) (n : String) : Option Field :=
  m.fields.find? (fun f => f.name == n)

/-- Modelled from the spec: `Datamodel::find_enum`. -/
def findEnum (dm : Datamodel) (n : String) : Option DmEnum :=
  dm.enums.find? (fun e => e.name == n)

/-- Modelled from the spec: `Datamodel::find_enum_db_name`. -/
def findEnumDbName (dm : Datamodel) (d : String) : Option DmEnum :=
  dm.enums.find? (fun e => e.resolvedName == d)

/-- Modelled from the spec: `Enum::find_value`. -/
def DmEnum.findValue (e : DmEnum) (n : String) : Option EnumValue :=
  e.values.find? (fun v => v.name == n)

/-- Modelled from the spec: `Enum::find_value_db_name`. -/
def DmEnum.findValueDbName (e : DmEnum) (d : String) : Option EnumValue :=
  e.values.find? (fun v => v.resolvedName == d)

/-- Modelled from the spec: `Datamodel::find_related_field(_bang)` — the
counterpart (far-side) relation field: the first relation field on the
target model with the same relation name, the field itself excluded (for a
self relation the exclusion is by field name on the same target). -/
def findRelatedField (dm : Datamodel) (rf : RelationField) : Option RelationField :=
  (findModel dm rf.relation_info.toModel).bind (fun m =>
    m.relationFields.find? (fun g =>
      g.relation_info.name == rf.relation_info.name
        && (g.relation_info.toModel != rf.relation_info.toModel || g.name != rf.name)))

/-- Modelled from the spec: `Datamodel::find_relation_fields_for_model` —
every (model name, field name) pair whose relation descriptor targets the
given model (spec phase 1: "every relation descriptor's target model field
across all models"). -/
def findRelationFieldsForModel (dm : Datamodel) (n : String) : List (String × String) :=
  dm.models.flatMap (fun m =>
    m.relationFields.filterMap (fun rf =>
      if rf.relation_info.toModel == n then some (m.name, rf.name) else none))

/-- Modelled from the spec: `Datamodel::find_enum_fields` — every
(model name, field name) pair whose scalar field is typed as the given
enum. -/
def findEnumFields (dm : Datamodel) (ename : String) : List (String × String) :=
  dm.models.flatMap (fun m =>
    m.scalarFields.filterMap (fun f =>
      if f.field_type == FieldType.enum ename then some (m.name, f.name) else none))

/-- Modelled from the spec: `introspection_helpers::replace_field_names` —
rewrite every occurrence of the old name in a field-name list. -/
def replaceFieldNames (l : List String) (old new : String) : List String :=
  l.map (fun s => if s == old then new else s)

end Reconcile

namespace Reconcile

/-- Update the first list element satisfying `p` with the fallible update
`g`; `none` when no element matches (a `find_*_mut` that panics in the
source) or when `g` fails (a nested panic). -/
def updateFirstM {α : Type} (p : α → Bool) (g : α → Option α) : List α → Option (List α)
  | [] => none
  | a :: l =>
    if p a then
      (g a).map (· :: l)
    else
      (updateFirstM p g l).map (a :: ·)

/-- `Datamodel::find_model_mut` followed by a fallible in-place mutation. -/
def updateModelM (dm : Datamodel) (n : String) (g : Model → Option Model) : Option Datamodel :=
  (updateFirstM (fun m => m.name == n) g dm.models).map
    (fun ms => { dm with models := ms })

def updateModel (dm : Datamodel) (n : String) (g : Model → Model) : Option Datamodel :=
  updateModelM dm n (fun m => some (g m))

/-- `Datamodel::find_enum_mut` followed by a fallible mutation. -/
def updateEnumM (dm : Datamodel) (n : String) (g : DmEnum → Option DmEnum) : Option Datamodel :=
  (updateFirstM (fun e => e.name == n) g dm.enums).map
    (fun es => { dm with enums := es })

def updateEnum (dm : Datamodel) (n : String) (g : DmEnum → DmEnum) : Option Datamodel :=
  updateEnumM dm n (fun e => some (g e))

/-- `Datamodel::find_scalar_field_mut`: first scalar field with the name,
inside the first model with the model name. -/
def updateScalarField (dm : Datamodel) (mn fn : String) (g : ScalarField → ScalarField) :
    Option Datamodel :=
  updateModelM dm mn (fun m =>
    (updateFirstM (fun f => f.isScalar && f.name == fn)
        (fun f => match f with
          | .scalar s => some (.scalar (g s))
          | .relation _ => none) m.fields).map
      (fun fs => { m with fields := fs }))

/-- `Datamodel::find_relation_field_mut`. -/
def updateRelationField (dm : Datamodel) (mn fn : String) (g : RelationField → RelationField) :
    Option Datamodel :=
  updateModelM dm mn (fun m =>
    (updateFirstM (fun f => f.isRelation && f.name == fn)
        (fun f => match f with
          | .relation r => some (.relation (g r))
          | .scalar _ => none) m.fields).map
      (fun fs => { m with fields := fs }))

/-- `Datamodel::find_field_mut`. -/
def updateField (dm : Datamodel) (mn fn : String) (g : Field → Field) : Option Datamodel :=
  updateModelM dm mn (fun m =>
    (updateFirstM (fun f => f.name == fn) (fun f => some (g f)) m.fields).map
      (fun fs => { m with fields := fs }))

/-- `Enum::find_value_mut` inside `find_enum_mut`. -/
def updateEnumValue (dm : Datamodel) (en vn : String) (g : EnumValue → EnumValue) :
    Option Datamodel :=
  updateEnumM dm en (fun e =>
    (updateFirstM (fun v => v.name == vn) (fun v => some (g v)) e.values).map
      (fun vs => { e with values := vs }))

/-- A sequential fallible fold: apply `step` for each entry in order,
stopping at the first failure.  Every mutation loop of `enrich` has this
shape. -/
def applyChain {e : Type} (step : e → Datamodel → Option Datamodel) :
    List e → Datamodel → Option Datamodel
  | [], dm => some dm
  | x :: rest, dm => (step x dm).bind (applyChain step rest)

/-! ## Phase 1: `@@map` on models (source lines 14–45) -/

/-- The `changed_model_names` collection loop: pairs of (current new-model
name, adopted old logical name). -/
def modelCollect (old dm : Datamodel) : List (String × String) :=
  dm.models.filterMap (fun m =>
    match findModelDbName old m.resolvedName with
    | some old_model =>
        if (findModel dm old_model.name).isNone then
          some (m.name, old_model.name)
        else
          none
    | none => none)

/-- The "change model names" loop: rename, and set the database-name mapping
when absent. -/
def modelRenameStep (e : String × String) (dm : Datamodel) : Option Datamodel :=
  updateModel dm e.1 (fun m =>
    { m with
      name := e.2
      database_name := if m.database_name.isNone then some e.1 else m.database_name })

def applyModelRenames (es : List (String × String)) (dm : Datamodel) : Option Datamodel :=
  applyChain modelRenameStep es dm

/-- The "change relation types" loop for one entry: every relation field
targeting the entry's old name is retargeted, one `find_relation_field_mut`
at a time. -/
def retargetStep (tgt : String) (p : String × String) (dm : Datamodel) : Option Datamodel :=
  updateRelationField dm p.1 p.2 (fun rf =>
    { rf with relation_info := { rf.relation_info with toModel := tgt } })

def retargetPairs (pairs : List (String × String)) (tgt : String) (dm : Datamodel) :
    Option Datamodel :=
  applyChain (retargetStep tgt) pairs dm

def propagateStep (e : String × String) (dm : Datamodel) : Option Datamodel :=
  retargetPairs (findRelationFieldsForModel dm e.1) e.2 dm

def propagateModelRenames (es : List (String × String)) (dm : Datamodel) : Option Datamodel :=
  applyChain propagateStep es dm

/-- Phase 1 of `enrich`. -/
def phaseModels (old dm : Datamodel) : Option (Datamodel × List (String × String)) :=
  (applyModelRenames (modelCollect old dm) dm).bind (fun dm1 =>
    (propagateModelRenames (modelCollect old dm) dm1).map (fun dm2 =>
      (dm2, modelCollect old dm)))

end Reconcile

namespace Reconcile

/-! ## Phase 2: custom index and primary-key names (source lines 47–107),
gated on the named-constraints preview feature -/

/-- One model's contribution to `changed_index_names`.  Mirrors the source:
a new index is matched by equal `db_name`; when the old index carries a
logical name, the old index's `db_name` is unwrapped — `none` models the
panic on a missing database name. -/
def indexCollectForModel (old_model m : Model) : Option (List ((String × String) × Option String)) :=
  m.indices.foldr
    (fun index acc =>
      acc.bind (fun acc =>
        match old_model.indices.find? (fun o => o.db_name == index.db_name) with
        | some old_index =>
            if old_index.name.isSome then
              match old_index.db_name with
              | some dbn => some (((m.name, dbn), old_index.name) :: acc)
              | none => none
            else
              some acc
        | none => some acc))
    (some [])

def indexCollect (old dm : Datamodel) : Option (List ((String × String) × Option String)) :=
  dm.models.foldr
    (fun m acc =>
      acc.bind (fun acc =>
        match findModel old m.name with
        | some old_model =>
            (indexCollectForModel old_model m).map (fun l => l ++ acc)
        | none => some acc))
    (some [])

/-- The "change index name" loop; the inner `.find(..).unwrap()` on the
model's indices is a fallible lookup. -/
def indexRenameStep (e : (String × String) × Option String) (dm : Datamodel) :
    Option Datamodel :=
  updateModelM dm e.1.1 (fun m =>
    (updateFirstM (fun i => i.db_name == some e.1.2)
        (fun i => some { i with name := e.2 }) m.indices).map
      (fun is => { m with indices := is }))

def applyIndexRenames (es : List ((String × String) × Option String)) (dm : Datamodel) :
    Option Datamodel :=
  applyChain indexRenameStep es dm

/-- `changed_primary_key_names` collection. -/
def pkCollect (old dm : Datamodel) : List (String × Option String) :=
  dm.models.filterMap (fun m =>
    match findModel old m.name with
    | some old_model =>
        match m.primary_key, old_model.primary_key with
        | some pk, some old_pk =>
            if old_pk.fields == pk.fields
                && (old_pk.db_name == pk.db_name || pk.db_name.isNone)
                && old_pk.name.isSome then
              some (m.name, old_pk.name)
            else
              none
        | _, _ => none
    | none => none)

def pkRenameStep (e : String × Option String) (dm : Datamodel) : Option Datamodel :=
  updateModel dm e.1 (fun m =>
    { m with primary_key := m.primary_key.map (fun pk => { pk with name := e.2 }) })

def applyPkRenames (es : List (String × Option String)) (dm : Datamodel) : Option Datamodel :=
  applyChain pkRenameStep es dm

/-- Phase 2 of `enrich`: runs only when the named-constraints feature is
on; returns the two change lists for warning emission. -/
def phaseNamedConstraints (ctx : IntrospectionContext) (old dm : Datamodel) :
    Option (Datamodel × List ((String × String) × Option String) × List (String × Option String)) :=
  if ctx.named_constraints then
    (indexCollect old dm).bind (fun chIdx =>
      (applyIndexRenames chIdx dm).bind (fun dm1 =>
        (applyPkRenames (pkCollect old dm1) dm1).map (fun dm2 =>
          (dm2, chIdx, pkCollect old dm1))))
  else
    some (dm, [], [])

/-! ## Phase 3: `@map` on fields (source lines 109–168) -/

/-- One model's contribution to `changed_scalar_field_names`: scalar fields
matched against the old model by resolved database-level name, skipped when
the old logical name is already taken in the new model. -/
def fieldCollectForModel (old_model m : Model) : List ((String × String) × String) :=
  m.scalarFields.filterMap (fun f =>
    match old_model.findScalarFieldDbName f.resolvedName with
    | some old_field =>
        if (m.findScalarField old_field.name).isNone then
          some ((m.name, f.name), old_field.name)
        else
          none
    | none => none)

def fieldCollect (old dm : Datamodel) : List ((String × String) × String) :=
  dm.models.flatMap (fun m =>
    match findModel old m.name with
    | some old_model => fieldCollectForModel old_model m
    | none => [])

/-- The "change field name" loop. -/
def fieldRenameStep (e : (String × String) × String) (dm : Datamodel) : Option Datamodel :=
  updateScalarField dm e.1.1 e.1.2 (fun f =>
    { f with
      name := e.2
      database_name := if f.database_name.isNone then some e.1.2 else f.database_name })

def applyFieldRenames (es : List ((String × String) × String)) (dm : Datamodel) :
    Option Datamodel :=
  applyChain fieldRenameStep es dm

/-- The `@@id`/`@@index`/`@@unique`/`RelationInfo.fields` usage rewrite for
the changed fields. -/
def fieldUsageStep (e : (String × String) × String) (dm : Datamodel) : Option Datamodel :=
  updateModel dm e.1.1 (fun m =>
    { m with
      primary_key := m.primary_key.map (fun pk =>
        { pk with fields := replaceFieldNames pk.fields e.1.2 e.2 })
      indices := m.indices.map (fun i =>
        { i with fields := replaceFieldNames i.fields e.1.2 e.2 })
      fields := m.fields.map (fun f =>
        match f with
        | .relation r =>
            .relation { r with relation_info :=
              { r.relation_info with
                fields := replaceFieldNames r.relation_info.fields e.1.2 e.2 } }
        | .scalar s => .scalar s) })

def applyFieldUsages (es : List ((String × String) × String)) (dm : Datamodel) :
    Option Datamodel :=
  applyChain fieldUsageStep es dm

/-- Rewrite `RelationInfo.references` for the relation fields targeting one
changed field's model, one `find_relation_field_mut` at a time. -/
def refStep (old_name new_name : String) (p : String × String) (dm : Datamodel) :
    Option Datamodel :=
  updateRelationField dm p.1 p.2 (fun rf =>
    { rf with relation_info :=
      { rf.relation_info with
        references := replaceFieldNames rf.relation_info.references old_name new_name } })

def refPairs (pairs : List (String × String)) (old_name new_name : String) (dm : Datamodel) :
    Option Datamodel :=
  applyChain (refStep old_name new_name) pairs dm

def referencesStep (e : (String × String) × String) (dm : Datamodel) : Option Datamodel :=
  refPairs (findRelationFieldsForModel dm e.1.1) e.1.2 e.2 dm

def applyFieldReferences (es : List ((String × String) × String)) (dm : Datamodel) :
    Option Datamodel :=
  applyChain referencesStep es dm

/-- Phase 3 of `enrich`. -/
def phaseFields (old dm : Datamodel) : Option (Datamodel × List ((String × String) × String)) :=
  (applyFieldRenames (fieldCollect old dm) dm).bind (fun dm1 =>
    (applyFieldUsages (fieldCollect old dm) dm1).bind (fun dm2 =>
      (applyFieldReferences (fieldCollect old dm) dm2).map (fun dm3 =>
        (dm3, fieldCollect old dm))))

end Reconcile

namespace Reconcile

/-! ## Phase 4: old virtual relation-field names (source lines 170–211) -/

/-- The inner loop over one matched old model's relation fields, for one new
relation field.  Both sides' counterparts are obtained through
`find_related_field_bang`; `none` models its panic. -/
def relFieldCollectOld (old dm : Datamodel) (new_model_name : String)
    (new_field : RelationField) :
    List RelationField → Option (List ((String × String) × String))
  | [] => some []
  | old_field :: rest =>
      (relFieldCollectOld old dm new_model_name new_field rest).bind (fun rest_entries =>
        (findRelatedField old old_field).bind (fun old_related =>
          let is_many_to_many := old_field.is_list && old_related.is_list
          let is_self_relation :=
            old_field.relation_info.toModel == old_related.relation_info.toModel
          (findRelatedField dm new_field).map (fun related =>
            let relation_info_partial_eq :=
              riEq old_field.relation_info new_field.relation_info
                && riEq old_related.relation_info related.relation_info
            if relation_info_partial_eq
                && (!is_many_to_many
                  || (old_field.relation_info.name == new_field.relation_info.name
                      && !is_self_relation)) then
              ((new_model_name, new_field.name), old_field.name) :: rest_entries
            else
              rest_entries)))

def relFieldCollectFields (old dm : Datamodel) (new_model_name : String) :
    List RelationField → Option (List ((String × String) × String))
  | [] => some []
  | new_field :: rest =>
      (relFieldCollectFields old dm new_model_name rest).bind (fun rest_entries =>
        match findModel old new_model_name with
        | some old_model =>
            (relFieldCollectOld old dm new_model_name new_field
                old_model.relationFields).map (fun here => here ++ rest_entries)
        | none => some rest_entries)

/-- `changed_relation_field_names` collection. -/
def relFieldCollect (old dm : Datamodel) : Option (List ((String × String) × String)) :=
  dm.models.foldr
    (fun m acc =>
      acc.bind (fun acc =>
        (relFieldCollectFields old dm m.name m.relationFields).map (fun here => here ++ acc)))
    (some [])

def relFieldRenameStep (e : (String × String) × String) (dm : Datamodel) : Option Datamodel :=
  updateRelationField dm e.1.1 e.1.2 (fun rf => { rf with name := e.2 })

def applyRelFieldRenames (es : List ((String × String) × String)) (dm : Datamodel) :
    Option Datamodel :=
  applyChain relFieldRenameStep es dm

/-- Phase 4 of `enrich`. -/
def phaseRelFieldNames (old dm : Datamodel) : Option Datamodel :=
  (relFieldCollect old dm).bind (fun ch => applyRelFieldRenames ch dm)

/-! ## Phase 5: old virtual relation names on non-M:N relations
(source lines 213–249) -/

def relNameCollectOld (old dm : Datamodel) (model_name : String)
    (field : RelationField) :
    List RelationField → Option (List ((String × String) × String))
  | [] => some []
  | old_field :: rest =>
      (relNameCollectOld old dm model_name field rest).bind (fun rest_entries =>
        (findRelatedField dm field).bind (fun related =>
          (findRelatedField old old_field).map (fun old_related =>
            let relation_info_partial_eq :=
              riEq old_field.relation_info field.relation_info
                && riEq old_related.relation_info related.relation_info
            let many_to_many := old_field.is_list && old_related.is_list
            if relation_info_partial_eq && !many_to_many then
              ((model_name, field.name), old_field.relation_info.name)
                :: ((field.relation_info.toModel, related.name), old_field.relation_info.name)
                :: rest_entries
            else
              rest_entries)))

def relNameCollectFields (old dm : Datamodel) (model_name : String) :
    List RelationField → Option (List ((String × String) × String))
  | [] => some []
  | field :: rest =>
      (relNameCollectFields old dm model_name rest).bind (fun rest_entries =>
        match findModel old model_name with
        | some old_model =>
            (relNameCollectOld old dm model_name field
                old_model.relationFields).map (fun here => here ++ rest_entries)
        | none => some rest_entries)

/-- `changed_relation_names` collection. -/
def relNameCollect (old dm : Datamodel) : Option (List ((String × String) × String)) :=
  dm.models.foldr
    (fun m acc =>
      acc.bind (fun acc =>
        (relNameCollectFields old dm m.name m.relationFields).map (fun here => here ++ acc)))
    (some [])

def relNameStep (e : (String × String) × String) (dm : Datamodel) : Option Datamodel :=
  updateRelationField dm e.1.1 e.1.2 (fun rf =>
    { rf with relation_info := { rf.relation_info with name := e.2 } })

def applyRelNames (es : List ((String × String) × String)) (dm : Datamodel) :
    Option Datamodel :=
  applyChain relNameStep es dm

/-- Phase 5 of `enrich`. -/
def phaseRelNames (old dm : Datamodel) : Option Datamodel :=
  (relNameCollect old dm).bind (fun ch => applyRelNames ch dm)

/-! ## Phase 6: `@@map` on enums (source lines 251–277) -/

def enumCollect (old dm : Datamodel) : List (String × String) :=
  dm.enums.filterMap (fun e =>
    match findEnumDbName old e.resolvedName with
    | some old_enum =>
        if (findEnum dm old_enum.name).isNone then
          some (e.name, old_enum.name)
        else
          none
    | none => none)

def enumRenameStep (e : String × String) (dm : Datamodel) : Option Datamodel :=
  updateEnum dm e.1 (fun en =>
    { en with
      name := e.2
      database_name := if en.database_name.isNone then some e.1 else en.database_name })

def applyEnumRenames (es : List (String × String)) (dm : Datamodel) : Option Datamodel :=
  applyChain enumRenameStep es dm

/-- Rewrite the field types that reference a renamed enum, one
`find_scalar_field_mut` at a time. -/
def retypeStep (tgt : String) (p : String × String) (dm : Datamodel) : Option Datamodel :=
  updateScalarField dm p.1 p.2 (fun f => { f with field_type := FieldType.enum tgt })

def retypePairs (pairs : List (String × String)) (tgt : String) (dm : Datamodel) :
    Option Datamodel :=
  applyChain (retypeStep tgt) pairs dm

def enumPropagateStep (e : String × String) (dm : Datamodel) : Option Datamodel :=
  retypePairs (findEnumFields dm e.1) e.2 dm

def propagateEnumRenames (es : List (String × String)) (dm : Datamodel) : Option Datamodel :=
  applyChain enumPropagateStep es dm

/-- Phase 6 of `enrich`. -/
def phaseEnums (old dm : Datamodel) : Option (Datamodel × List (String × String)) :=
  (applyEnumRenames (enumCollect old dm) dm).bind (fun dm1 =>
    (propagateEnumRenames (enumCollect old dm) dm1).map (fun dm2 =>
      (dm2, enumCollect old dm)))

/-! ## Phase 6b: `@map` on enum values (source lines 279–321) -/

def enumValueCollect (old dm : Datamodel) : List ((String × String) × String) :=
  dm.enums.flatMap (fun e =>
    match findEnum old e.name with
    | some old_enum =>
        e.values.filterMap (fun v =>
          match old_enum.findValueDbName v.resolvedName with
          | some old_value =>
              if (e.findValue old_value.name).isNone then
                some ((e.name, v.name), old_value.name)
              else
                none
          | none => none)
    | none => [])

def enumValueRenameStep (e : (String × String) × String) (dm : Datamodel) : Option Datamodel :=
  updateEnumValue dm e.1.1 e.1.2 (fun v =>
    { v with
      name := e.2
      database_name := if v.database_name.isNone then some e.1.2 else v.database_name })

def applyEnumValueRenames (es : List ((String × String) × String)) (dm : Datamodel) :
    Option Datamodel :=
  applyChain enumValueRenameStep es dm

/-- Rewrite the defaults that reference a renamed enum value. -/
def redefaultStep (old_value new_value : String) (p : String × String) (dm : Datamodel) :
    Option Datamodel :=
  updateScalarField dm p.1 p.2 (fun f =>
    if f.default_value == some (DefaultValue.single (DmValue.enum old_value)) then
      { f with default_value := some (DefaultValue.single (DmValue.enum new_value)) }
    else
      f)

def redefaultPairs (pairs : List (String × String)) (old_value new_value : String)
    (dm : Datamodel) : Option Datamodel :=
  applyChain (redefaultStep old_value new_value) pairs dm

def enumValuePropagateStep (e : (String × String) × String) (dm : Datamodel) : Option Datamodel :=
  redefaultPairs (findEnumFields dm e.1.1) e.1.2 e.2 dm

def propagateEnumValueRenames (es : List ((String × String) × String)) (dm : Datamodel) :
    Option Datamodel :=
  applyChain enumValuePropagateStep es dm

/-- Phase 6b of `enrich`. -/
def phaseEnumValues (old dm : Datamodel) :
    Option (Datamodel × List ((String × String) × String)) :=
  (applyEnumValueRenames (enumValueCollect old dm) dm).bind (fun dm1 =>
    (propagateEnumValueRenames (enumValueCollect old dm) dm1).map (fun dm2 =>
      (dm2, enumValueCollect old dm)))

end Reconcile

namespace Reconcile

/-! ## Phase 7: MySQL enum names (source lines 323–362) -/

/-- One step of the `changed_mysql_enum_names` collection: locate the first
field using the enum, read the old field's enum type, unwrap the old enum
(`none` models the panic), compare value sets, and dedup on the old enum
name. -/
def mysqlEnumStep (old dm : Datamodel) (acc : List (String × String × (String × String)))
    (enm : DmEnum) : Option (List (String × String × (String × String))) :=
  match (findEnumFields dm enm.name).head? with
  | some (model_name, field_name) =>
      match findModel old model_name with
      | some old_model =>
          match old_model.findField field_name with
          | some (.scalar old_field) =>
              match old_field.field_type with
              | .enum old_enum_name =>
                  (findEnum old old_enum_name).map (fun old_enum =>
                    if enm.values == old_enum.values
                        && old_enum_name != enm.name
                        && !(acc.any (fun x => x.2.1 == old_enum_name)) then
                      acc ++ [(enm.name, old_enum.name, (model_name, field_name))]
                    else
                      acc)
              | _ => some acc
          | _ => some acc
      | none => some acc
  | none => some acc

def mysqlEnumCollectAux (old dm : Datamodel) :
    List DmEnum → List (String × String × (String × String)) →
    Option (List (String × String × (String × String)))
  | [], acc => some acc
  | e :: rest, acc =>
      (mysqlEnumStep old dm acc e).bind (mysqlEnumCollectAux old dm rest)

def mysqlEnumCollect (old dm : Datamodel) :
    Option (List (String × String × (String × String))) :=
  mysqlEnumCollectAux old dm dm.enums []

def mysqlEnumRenameStep (e : String × String × (String × String)) (dm : Datamodel) :
    Option Datamodel :=
  (updateEnum dm e.1 (fun en => { en with name := e.2.1 })).bind (fun dm1 =>
    updateScalarField dm1 e.2.2.1 e.2.2.2 (fun f =>
      { f with field_type := FieldType.enum e.2.1 }))

def applyMysqlEnumRenames (es : List (String × String × (String × String))) (dm : Datamodel) :
    Option Datamodel :=
  applyChain mysqlEnumRenameStep es dm

/-- Phase 7 of `enrich`: runs only on MySQL. -/
def phaseMysqlEnums (ctx : IntrospectionContext) (old dm : Datamodel) : Option Datamodel :=
  if ctx.is_mysql then
    (mysqlEnumCollect old dm).bind (fun ch => applyMysqlEnumRenames ch dm)
  else
    some dm

/-! ## Phase 8: Prisma-level-only concepts — `@default(cuid())`,
`@default(uuid())`, `@updatedAt` (source lines 364–411) -/

/-- Does the (new field, old field) pair qualify for cuid recovery? -/
def cuidCond (old_model : Model) (f : ScalarField) : Bool :=
  match old_model.findScalarField f.name with
  | some old_field =>
      f.default_value.isNone && f.field_type.is_string
        && old_field.default_value == some (DefaultValue.expression ValueGenerator.cuid)
  | none => false

def uuidCond (old_model : Model) (f : ScalarField) : Bool :=
  match old_model.findScalarField f.name with
  | some old_field =>
      f.default_value.isNone && f.field_type.is_string
        && old_field.default_value == some (DefaultValue.expression ValueGenerator.uuid)
  | none => false

def updatedAtCond (old_model : Model) (f : ScalarField) : Bool :=
  match old_model.findScalarField f.name with
  | some old_field => f.field_type.is_datetime && old_field.is_updated_at
  | none => false

def prismaLevelCollectWith (cond : Model → ScalarField → Bool) (old dm : Datamodel) :
    List (String × String) :=
  dm.models.flatMap (fun m =>
    match findModel old m.name with
    | some old_model =>
        m.scalarFields.filterMap (fun f =>
          if cond old_model f then some (m.name, f.name) else none)
    | none => [])

def defaultStep (d : DefaultValue) (e : String × String) (dm : Datamodel) : Option Datamodel :=
  updateScalarField dm e.1 e.2 (fun f => { f with default_value := some d })

def applyDefaults (d : DefaultValue) (es : List (String × String)) (dm : Datamodel) :
    Option Datamodel :=
  applyChain (defaultStep d) es dm

def updatedAtStep (e : String × String) (dm : Datamodel) : Option Datamodel :=
  updateScalarField dm e.1 e.2 (fun f => { f with is_updated_at := true })

def applyUpdatedAt (es : List (String × String)) (dm : Datamodel) : Option Datamodel :=
  applyChain updatedAtStep es dm

/-- Phase 8 of `enrich`; returns the three recovery lists for warning
emission. -/
def phasePrismaLevel (old dm : Datamodel) :
    Option (Datamodel × List (String × String) × List (String × String) × List (String × String)) :=
  (applyDefaults (DefaultValue.expression ValueGenerator.cuid)
      (prismaLevelCollectWith cuidCond old dm) dm).bind (fun dm1 =>
    (applyDefaults (DefaultValue.expression ValueGenerator.uuid)
        (prismaLevelCollectWith uuidCond old dm) dm1).bind (fun dm2 =>
      (applyUpdatedAt (prismaLevelCollectWith updatedAtCond old dm) dm2).map (fun dm3 =>
        (dm3, prismaLevelCollectWith cuidCond old dm,
          prismaLevelCollectWith uuidCond old dm,
          prismaLevelCollectWith updatedAtCond old dm))))

/-! ## Phase 9: `@@ignore` on models, `@ignore` on fields
(source lines 413–441) -/

def modelIgnoreCollect (old dm : Datamodel) : List String :=
  dm.models.filterMap (fun m =>
    match findModel old m.name with
    | some old_model => if old_model.is_ignored then some m.name else none
    | none => none)

def fieldIgnoreCollect (old dm : Datamodel) : List (String × String) :=
  dm.models.flatMap (fun m =>
    match findModel old m.name with
    | some old_model =>
        m.scalarFields.filterMap (fun f =>
          match old_model.findScalarField f.name with
          | some old_field => if old_field.is_ignored then some (m.name, f.name) else none
          | none => none)
    | none => [])

def modelIgnoreStep (e : String) (dm : Datamodel) : Option Datamodel :=
  updateModel dm e (fun m => { m with is_ignored := true })

def applyModelIgnores (es : List String) (dm : Datamodel) : Option Datamodel :=
  applyChain modelIgnoreStep es dm

def fieldIgnoreStep (e : String × String) (dm : Datamodel) : Option Datamodel :=
  updateField dm e.1 e.2 Field.ignore

def applyFieldIgnores (es : List (String × String)) (dm : Datamodel) : Option Datamodel :=
  applyChain fieldIgnoreStep es dm

/-- Phase 9 of `enrich`. -/
def phaseIgnore (old dm : Datamodel) :
    Option (Datamodel × List String × List (String × String)) :=
  (applyModelIgnores (modelIgnoreCollect old dm) dm).bind (fun dm1 =>
    (applyFieldIgnores (fieldIgnoreCollect old dm) dm1).map (fun dm2 =>
      (dm2, modelIgnoreCollect old dm, fieldIgnoreCollect old dm)))

/-! ## Phase 10: comments (source lines 443–509); generates no warnings -/

/-- `re_introspected_model_comments`: note the source pushes once per field
of the model, so a model with no fields recovers no comment. -/
def modelCommentCollect (old dm : Datamodel) : List (String × Option String) :=
  dm.models.flatMap (fun m =>
    m.fields.filterMap (fun _f =>
      match findModel old m.name with
      | some old_model =>
          if old_model.documentation.isSome then some (m.name, old_model.documentation)
          else none
      | none => none))

def fieldCommentCollect (old dm : Datamodel) : List ((String × String) × Option String) :=
  dm.models.flatMap (fun m =>
    m.fields.filterMap (fun f =>
      match findModel old m.name with
      | some old_model =>
          match old_model.findField f.name with
          | some old_field =>
              if old_field.documentation.isSome then
                some ((m.name, f.name), old_field.documentation)
              else none
          | none => none
      | none => none))

def modelCommentStep (e : String × Option String) (dm : Datamodel) : Option Datamodel :=
  updateModel dm e.1 (fun m => { m with documentation := e.2 })

def applyModelComments (es : List (String × Option String)) (dm : Datamodel) : Option Datamodel :=
  applyChain modelCommentStep es dm

def fieldCommentStep (e : (String × String) × Option String) (dm : Datamodel) : Option Datamodel :=
  updateField dm e.1.1 e.1.2 (Field.setDocumentation e.2)

def applyFieldComments (es : List ((String × String) × Option String)) (dm : Datamodel) :
    Option Datamodel :=
  applyChain fieldCommentStep es dm

/-- `re_introspected_enum_comments`: pushed once per value of the enum. -/
def enumCommentCollect (old dm : Datamodel) : List (String × Option String) :=
  dm.enums.flatMap (fun e =>
    e.values.filterMap (fun _v =>
      match findEnum old e.name with
      | some old_enum =>
          if old_enum.documentation.isSome then some (e.name, old_enum.documentation)
          else none
      | none => none))

def enumValueCommentCollect (old dm : Datamodel) : List ((String × String) × Option String) :=
  dm.enums.flatMap (fun e =>
    e.values.filterMap (fun v =>
      match findEnum old e.name with
      | some old_enum =>
          match old_enum.findValue v.name with
          | some old_value =>
              if old_value.documentation.isSome then
                some ((e.name, v.name), old_value.documentation)
              else none
          | none => none
      | none => none))

def enumCommentStep (e : String × Option String) (dm : Datamodel) : Option Datamodel :=
  updateEnum dm e.1 (fun en => { en with documentation := e.2 })

def applyEnumComments (es : List (String × Option String)) (dm : Datamodel) : Option Datamodel :=
  applyChain enumCommentStep es dm

def enumValueCommentStep (e : (String × String) × Option String) (dm : Datamodel) :
    Option Datamodel :=
  updateEnumValue dm e.1.1 e.1.2 (fun v => { v with documentation := e.2 })

def applyEnumValueComments (es : List ((String × String) × Option String)) (dm : Datamodel) :
    Option Datamodel :=
  applyChain enumValueCommentStep es dm

/-- Phase 10 of `enrich`. -/
def phaseComments (old dm : Datamodel) : Option Datamodel :=
  (applyModelComments (modelCommentCollect old dm) dm).bind (fun dm1 =>
    (applyFieldComments (fieldCommentCollect old dm) dm1).bind (fun dm2 =>
      (applyEnumComments (enumCommentCollect old dm2) dm2).bind (fun dm3 =>
        applyEnumValueComments (enumValueCommentCollect old dm2) dm3)))

end Reconcile

namespace Reconcile

/-! ## Phase 11: order restoration (source lines 511–525) -/

/-- `re_order_putting_new_ones_last`. -/
def reOrder : Option Nat → Option Nat → Ordering
  | none, none => Ordering.eq
  | none, some _ => Ordering.gt
  | some _, none => Ordering.lt
  | some a, some b => compare a b

/-- Stable insertion used by the stable sort below: the element goes in
front of the first position where the order predicate holds. -/
def insertBy {α : Type} (le : α → α → Bool) (a : α) : List α → List α
  | [] => [a]
  | b :: l => if le a b then a :: b :: l else b :: insertBy le a l

/-- A stable sort, modelling Rust's stable `sort_by` for the total preorder
induced by a comparator. -/
def stableSortBy {α : Type} (le : α → α → Bool) : List α → List α
  | [] => []
  | a :: l => insertBy le a (stableSortBy le l)

def modelPosition (old : Datamodel) (n : String) : Option Nat :=
  old.models.findIdx? (fun m => m.name == n)

def enumPosition (old : Datamodel) (n : String) : Option Nat :=
  old.enums.findIdx? (fun e => e.name == n)

def modelLe (old : Datamodel) (a b : Model) : Bool :=
  reOrder (modelPosition old a.name) (modelPosition old b.name) != Ordering.gt

def enumLe (old : Datamodel) (a b : DmEnum) : Bool :=
  reOrder (enumPosition old a.name) (enumPosition old b.name) != Ordering.gt

/-- Phase 11 of `enrich`: restore old model and enum order, new entities
last. -/
def sortPhase (old dm : Datamodel) : Datamodel :=
  { dm with
    models := stableSortBy (modelLe old) dm.models
    enums := stableSortBy (enumLe old) dm.enums }

/-! ## Warning emission (source lines 527–586) -/

/-- Modelled from the spec: the warning structures of `warnings.rs` — one
warning per recovery category carrying the ordered affected-entity list. -/
inductive Warning where
  | mapOnModel (models : List String)
  | customIndexNames (indexes : List (String × String))
  | customPrimaryKeyNames (models : List String)
  | mapOnField (fields : List (String × String))
  | mapOnEnum (enums : List String)
  | mapOnEnumValue (values : List (String × String))
  | cuid (fields : List (String × String))
  | uuid (fields : List (String × String))
  | updatedAt (fields : List (String × String))
  | modelsIgnored (models : List String)
  | fieldsIgnored (fields : List (String × String))
deriving DecidableEq, Repr

def buildWarnings
    (chModels : List (String × String))
    (chIdx : List ((String × String) × Option String))
    (chPk : List (String × Option String))
    (chFields : List ((String × String) × String))
    (chEnums : List (String × String))
    (chEnumValues : List ((String × String) × String))
    (cuids uuids upds : List (String × String))
    (mIgn : List String)
    (fIgn : List (String × String)) : List Warning :=
  (if !chModels.isEmpty then [Warning.mapOnModel (chModels.map (·.2))] else [])
  ++ (if !chIdx.isEmpty then [Warning.customIndexNames (chIdx.map (·.1))] else [])
  ++ (if !chPk.isEmpty then [Warning.customPrimaryKeyNames (chPk.map (·.1))] else [])
  ++ (if !chFields.isEmpty then
        [Warning.mapOnField (chFields.map (fun c => (c.1.1, c.2)))] else [])
  ++ (if !chEnums.isEmpty then [Warning.mapOnEnum (chEnums.map (·.2))] else [])
  ++ (if !chEnumValues.isEmpty then
        [Warning.mapOnEnumValue (chEnumValues.map (fun c => (c.1.1, c.2)))] else [])
  ++ (if !cuids.isEmpty then [Warning.cuid cuids] else [])
  ++ (if !uuids.isEmpty then [Warning.uuid uuids] else [])
  ++ (if !upds.isEmpty then [Warning.updatedAt upds] else [])
  ++ (if !mIgn.isEmpty then [Warning.modelsIgnored mIgn] else [])
  ++ (if !fIgn.isEmpty then [Warning.fieldsIgnored fIgn] else [])

/-! ## The reconciliation entry point -/

/-- `enrich` from `re_introspection.rs`: the whole reconciliation pass.
`none` models a panic (an `unwrap`/`expect`/`find_*_mut` failure somewhere
in the pass); `some (dm, warnings)` is the mutated new tree plus the
warning list. -/
def enrich (old new : Datamodel) (ctx : IntrospectionContext) :
    Option (Datamodel × List Warning) :=
  (phaseModels old new).bind (fun s1 =>
    (phaseNamedConstraints ctx old s1.1).bind (fun s2 =>
      (phaseFields old s2.1).bind (fun s3 =>
        (phaseRelFieldNames old s3.1).bind (fun d4 =>
          (phaseRelNames old d4).bind (fun d5 =>
            (phaseEnums old d5).bind (fun s6 =>
              (phaseEnumValues old s6.1).bind (fun s7 =>
                (phaseMysqlEnums ctx old s7.1).bind (fun d8 =>
                  (phasePrismaLevel old d8).bind (fun s9 =>
                    (phaseIgnore old s9.1).bind (fun s10 =>
                      (phaseComments old s10.1).map (fun d11 =>
                        (sortPhase old d11,
                          buildWarnings s1.2 s2.2.1 s2.2.2 s3.2 s6.2 s7.2
                            s9.2.1 s9.2.2.1 s9.2.2.2 s10.2.1 s10.2.2))))))))))))

/-- The pipeline state just before order restoration; `enrich` is this
followed by the stable sort and warning assembly. -/
def enrichPresort (old new : Datamodel) (ctx : IntrospectionContext) : Option Datamodel :=
  (phaseModels old new).bind (fun s1 =>
    (phaseNamedConstraints ctx old s1.1).bind (fun s2 =>
      (phaseFields old s2.1).bind (fun s3 =>
        (phaseRelFieldNames old s3.1).bind (fun d4 =>
          (phaseRelNames old d4).bind (fun d5 =>
            (phaseEnums old d5).bind (fun s6 =>
              (phaseEnumValues old s6.1).bind (fun s7 =>
                (phaseMysqlEnums ctx old s7.1).bind (fun d8 =>
                  (phasePrismaLevel old d8).bind (fun s9 =>
                    (phaseIgnore old s9.1).bind (fun s10 =>
                      phaseComments old s10.1))))))))))

end Reconcile

namespace Reconcile

/-! ## Concrete-instance builders used by witnesses and counterexamples -/

def mkModel (n : String) (db : Option String) (fs : List Field) : Model :=
  { name := n, database_name := db, fields := fs, indices := [], primary_key := none,
    is_ignored := false, documentation := none }

def mkScalar (n : String) (db : Option String) (t : FieldType) : Field :=
  .scalar { name := n, database_name := db, field_type := t, arity := .required,
            default_value := none, is_updated_at := false, is_ignored := false,
            documentation := none }

def mkScalarD (n : String) (t : FieldType) (d : Option DefaultValue) (upd : Bool) : Field :=
  .scalar { name := n, database_name := none, field_type := t, arity := .required,
            default_value := d, is_updated_at := upd, is_ignored := false,
            documentation := none }

def mkRel (n : String) (ri : RelationInfo) (ar : FieldArity) : Field :=
  .relation { name := n, relation_info := ri, arity := ar, is_ignored := false,
              documentation := none }

def ctxPlain : IntrospectionContext := { named_constraints := false, is_mysql := false }

def ctxNC : IntrospectionContext := { named_constraints := true, is_mysql := false }

end Reconcile

namespace ColumnDiffer

/-- The names-gate of `defaults_match`: under named constraints the two
constraint names must be equal; otherwise always passing. -/
def namesGate (fl : SqlFlavour) (previous next : Column) : Bool :=
  if fl.named_constraints then
    (previous.default.bind (·.constraint_name)) == (next.default.bind (·.constraint_name))
  else
    true

/-- The JSON-unreliable override at the top of `defaults_match`. -/
def jsonOverride (fl : SqlFlavour) (previous next : Column) : Bool :=
  fl.should_ignore_json_defaults && (previous.tpe.is_json || next.tpe.is_json)

/-- The kind view of a column's default, the scrutinee of the decision
table. -/
def defKind (c : Column) : Option DefaultKind := c.default.map (·.kind)

/-- Replace the constraint name on a column's default, leaving the kind
untouched; used to state that constraint names are irrelevant when the
named-constraints feature is off. -/
def setConstraintName (c : Column) (cn : Option String) : Column :=
  { c with default := c.default.map (fun d => { d with constraint_name := cn }) }

/-- A plain non-JSON column with the given default, for concrete tables. -/
def mkCol (d : Option ColumnDefault) : Column :=
  { name := "c", arity := .required, tpe := .other "int", autoincrement := false, default := d }

/-- A flavour with named constraints enabled and no JSON override. -/
def flavourNC : SqlFlavour :=
  { should_ignore_json_defaults := false, named_constraints := true,
    column_type_change := fun _ _ => none }

/-- A flavour with named constraints disabled and no JSON override. -/
def flavourPlain : SqlFlavour :=
  { should_ignore_json_defaults := false, named_constraints := false,
    column_type_change := fun _ _ => none }

/-- A concrete stand-in JSON parser that identifies the two spellings of
the array 1,2 and rejects everything else. -/
def toyParse : String → Option Nat :=
  fun s => if s == "[1, 2]" || s == "[1,2]" then some 0 else none

end ColumnDiffer

namespace ColumnDiffer

/-- The decision table of `defaults_match` below the JSON-unreliable
override, as a function of the names-gate and the two default kinds; used
to state and prove facts about the predicate. -/
def dmTable {J : Type} [DecidableEq J] (parse : String → Option J) (gate : Bool) :
    Option DefaultKind → Option DefaultKind → Bool
  | some (.value (.json prev_json)), some (.value (.json next_json)) =>
      json_defaults_match parse prev_json next_json && gate
  | some (.value (.string prev_json)), some (.value (.json next_json)) =>
      json_defaults_match parse prev_json next_json && gate
  | some (.value (.json prev_json)), some (.value (.string next_json)) =>
      json_defaults_match parse prev_json next_json && gate
  | some (.value p), some (.value n) => (p == n) && gate
  | some (.value _), some .now => false
  | some (.value _), none => false
  | some .now, some .now => true
  | some .now, none => false
  | some .now, some (.value _) => false
  | some (.dbGenerated _), some (.value _) => false
  | some (.dbGenerated _), some .now => false
  | some (.dbGenerated _), none => false
  | some (.sequence _), none => true
  | some (.sequence _), some (.value _) => false
  | some (.sequence _), some .now => false
  | none, none => true
  | none, some (.value _) => false
  | none, some .now => false
  | some (.dbGenerated p), some (.dbGenerated n) =>
      (lowerStr p == lowerStr n) && gate
  | _, some (.dbGenerated _) => false
  | _, some (.sequence _) => true

end ColumnDiffer

namespace Reconcile

/-- C9 failing input, old tree: a model `A` whose single index carries a
logical name but no database name. -/
def c9Old : Datamodel :=
  { models := [{ mkModel "A" none [] with
      indices := [{ name := some "custom", db_name := none, fields := [] }] }],
    enums := [] }

/-- C9 failing input, new tree: the same model `A` with an anonymous index
(no logical name, no database name), which matches the old index by equal
(absent) database name. -/
def c9New : Datamodel :=
  { models := [{ mkModel "A" none [] with
      indices := [{ name := none, db_name := none, fields := [] }] }],
    enums := [] }

end Reconcile

namespace ColumnDiffer

end ColumnDiffer

namespace Reconcile

/-- Field-level preservation: a scalar field keeps its resolved database
name with a monotone explicit mapping; a relation field keeps its target
model. -/
def FPres : Field → Field → Prop
  | .scalar s, .scalar s2 =>
      s2.resolvedName = s.resolvedName
        ∧ (s2.database_name = s.database_name
            ∨ (s.database_name = none ∧ s2.database_name = some s.name))
  | .relation r, .relation r2 => r2.relation_info.toModel = r.relation_info.toModel
  | _, _ => False

/-- Model-level preservation for the phases after model identity recovery:
logical name and database mapping unchanged, fields pointwise `FPres`. -/
def Pres (m m2 : Model) : Prop :=
  m2.name = m.name ∧ m2.database_name = m.database_name
    ∧ List.Forall₂ FPres m.fields m2.fields

/-- Scalar-part of `FPres`, with the relation part dropped: phase 1
retargets relation descriptors, so across the whole pipeline only this much
is invariant. -/
def FPres1 : Field → Field → Prop
  | .scalar s, .scalar s2 =>
      s2.resolvedName = s.resolvedName
        ∧ (s2.database_name = s.database_name
            ∨ (s.database_name = none ∧ s2.database_name = some s.name))
  | .relation _, .relation _ => True
  | _, _ => False

/-- Model-level preservation across the whole pipeline, model renames
included: resolved database name unchanged, mapping only ever added. -/
def Pres1 (m m2 : Model) : Prop :=
  m2.resolvedName = m.resolvedName
    ∧ (m2.database_name = m.database_name
        ∨ (m.database_name = none ∧ m2.database_name = some m.name))
    ∧ List.Forall₂ FPres1 m.fields m2.fields

/-- The rename applied to a matched model in phase 1. -/
def renModel (e : String × String) (m : Model) : Model :=
  { m with
    name := e.2
    database_name := if m.database_name.isNone then some e.1 else m.database_name }

/-- Loose effect of a retarget pass: names and mappings untouched, relation
targets either kept or set to the new target. -/
def RetF (tgt : String) : Field → Field → Prop
  | .scalar s, .scalar s2 => s2 = s
  | .relation r, .relation r2 =>
      r2.name = r.name
        ∧ (r2.relation_info = r.relation_info
            ∨ r2.relation_info = { r.relation_info with toModel := tgt })
  | _, _ => False

def RetM (tgt : String) (m m2 : Model) : Prop :=
  m2.name = m.name ∧ m2.database_name = m.database_name
    ∧ m2.fields.length = m.fields.length ∧ List.Forall₂ (RetF tgt) m.fields m2.fields

/-- No relation field of the datamodel points at the given model name. -/
def noTargets (bad : String) (dm : Datamodel) : Prop :=
  ∀ m ∈ dm.models, ∀ r : RelationField, Field.relation r ∈ m.fields →
    r.relation_info.toModel ≠ bad

/-- One field of a retarget pass relative to the pass's starting tree:
either untouched, or it targeted the cleared name and now carries the new
target. -/
def PartialF (n tgt : String) (f f2 : Field) : Prop :=
  f2 = f ∨ (∃ r : RelationField, f = Field.relation r
    ∧ r.relation_info.toModel = n
    ∧ f2 = Field.relation
        { r with relation_info := { r.relation_info with toModel := tgt } })

def PModel (n tgt : String) (m0 m2 : Model) : Prop :=
  m2.name = m0.name ∧ m2.database_name = m0.database_name
    ∧ List.Forall₂ (PartialF n tgt) m0.fields m2.fields

/-- Model-level wrapper for a field-to-field relation: name preserved,
fields pointwise related. -/
def MF (P : Field → Field → Prop) (m m2 : Model) : Prop :=
  m2.name = m.name ∧ List.Forall₂ P m.fields m2.fields

/-- A relation field's target survives a whole propagate run when no rename
key equals it. -/
def KeepT (tgt : String) (f f2 : Field) : Prop :=
  ∀ r : RelationField, f = Field.relation r → r.relation_info.toModel = tgt →
    ∃ r2 : RelationField, f2 = Field.relation r2 ∧ r2.relation_info.toModel = tgt

/-- A relation field that targeted the renamed-away name now targets the
adopted name. -/
def FlipT (bad tgt : String) (f f2 : Field) : Prop :=
  ∀ r : RelationField, f = Field.relation r → r.relation_info.toModel = bad →
    ∃ r2 : RelationField, f2 = Field.relation r2 ∧ r2.relation_info.toModel = tgt

/-- Fields-only pointwise wrapper (model names change across phase 1). -/
def MFields (P : Field → Field → Prop) (m m2 : Model) : Prop :=
  List.Forall₂ P m.fields m2.fields

/-- C1 counterexample input, old tree: one model `A`, no mapping, so its
resolved database name is `A`. -/
def c1Old : Datamodel := { models := [mkModel "A" none []], enums := [] }

/-- C1 counterexample input, new tree: one model `A`, no mapping — it
matches the old model by resolved database name, and no *other* new model
carries the old logical name. -/
def c1New : Datamodel := { models := [mkModel "A" none []], enums := [] }

/-- C1 witness input, old tree: model `B` mapped to database name `D`. -/
def c1wOld : Datamodel := { models := [mkModel "B" (some "D") []], enums := [] }

/-- C1 witness input, new tree: model `D` (no mapping) with a
self-referencing relation field targeting `D`. -/
def c1wNew : Datamodel :=
  { models := [mkModel "D" none
      [mkRel "r" { toModel := "D", fields := [], references := [], name := "rel" } .list]],
    enums := [] }

/-- The reconciled output for the C1 witness input: logical name `B`
adopted, mapping `@@map("D")` added, relation target flipped to `B`. -/
def c1wRes : Datamodel :=
  { models := [mkModel "B" (some "D")
      [mkRel "r" { toModel := "B", fields := [], references := [], name := "rel" } .list]],
    enums := [] }

/-- C7 counterexample input, old tree: an ignored model `A`. -/
def c7Old : Datamodel :=
  { models := [{ mkModel "A" none [mkScalar "f" none FieldType.string] with
      is_ignored := true }],
    enums := [] }

/-- C7 counterexample input, new tree: the same model `A`, not ignored. -/
def c7New : Datamodel :=
  { models := [mkModel "A" none [mkScalar "f" none FieldType.string]], enums := [] }

/-- The first run's output on the C7 counterexample input: the ignore flag
is carried forward. -/
def c7Res : Datamodel :=
  { models := [{ mkModel "A" none [mkScalar "f" none FieldType.string] with
      is_ignored := true }],
    enums := [] }

/-- Loose effect of one scalar-field mutation pass with update `g`: scalars
kept or rewritten by `g`, relation fields untouched. -/
def SF (g : ScalarField → ScalarField) : Field → Field → Prop
  | .scalar s, .scalar s2 => s2 = s ∨ s2 = g s
  | .relation r, .relation r2 => r2 = r
  | _, _ => False

def SModel (g : ScalarField → ScalarField) (m m2 : Model) : Prop :=
  m2.name = m.name ∧ m2.database_name = m.database_name
    ∧ List.Forall₂ (SF g) m.fields m2.fields

/-- C6 counterexample input, old tree: model `A` with a timestamp field `t`
carrying the auto-update flag. -/
def c6Old : Datamodel :=
  { models := [mkModel "A" none [mkScalarD "t" FieldType.datetime none true]], enums := [] }

/-- C6 counterexample input, new tree: the same field `t` with an explicit
default. -/
def c6New : Datamodel :=
  { models := [mkModel "A" none
      [mkScalarD "t" FieldType.datetime
        (some (DefaultValue.single (DmValue.string "now"))) false]],
    enums := [] }

/-- The reconciled output on the C6 counterexample input: the auto-update
flag is restored onto the field although it kept its explicit default. -/
def c6Res : Datamodel :=
  { models := [mkModel "A" none
      [mkScalarD "t" FieldType.datetime
        (some (DefaultValue.single (DmValue.string "now"))) true]],
    enums := [] }

/-- The descriptor of the C5 self-relation (no name-relevant parts differ
between the two sides). -/
def c5ri0 : RelationInfo := { toModel := "A", fields := [], references := [], name := "r" }

/-- The counterpart descriptor in the C5 counterexample (distinct
references, so each new field matches exactly one old candidate). -/
def c5ri1 : RelationInfo := { toModel := "A", fields := [], references := ["id"], name := "r" }

def c5x : RelationField :=
  { name := "x", relation_info := c5ri0, arity := .list, is_ignored := false,
    documentation := none }

def c5y : RelationField :=
  { name := "y", relation_info := c5ri1, arity := .list, is_ignored := false,
    documentation := none }

/-- C5 counterexample input, new tree: a self-referencing many-to-many
relation on model `A` (both fields are lists, both descriptors target
`A`). -/
def c5New : Datamodel :=
  { models := [mkModel "A" none [Field.relation c5x, Field.relation c5y]], enums := [] }

/-- C5 counterexample input, old tree: the same descriptors on non-list
(one-to-one) fields, so the old candidates are not many-to-many. -/
def c5Old : Datamodel :=
  { models := [mkModel "A" none [mkRel "ox" c5ri0 .required, mkRel "oy" c5ri1 .required]],
    enums := [] }

/-- The reconciled output on the C5 counterexample input: both new fields
lost their display names to the old candidates'. -/
def c5Res : Datamodel :=
  { models := [mkModel "A" none [mkRel "ox" c5ri0 .list, mkRel "oy" c5ri1 .list]],
    enums := [] }

/-- C5 witness input, old tree: a genuine self-referencing many-to-many
pair. -/
def c5wOld : Datamodel :=
  { models := [mkModel "A" none [mkRel "oa" c5ri0 .list, mkRel "ob" c5ri0 .list]],
    enums := [] }

/-- C5 witness input, new tree: the same descriptors on a new
self-referencing many-to-many pair with different display names. -/
def c5wNew : Datamodel :=
  { models := [mkModel "A" none
      [Field.relation { c5x with relation_info := c5ri0 },
        Field.relation { c5y with relation_info := c5ri0 }]],
    enums := [] }

/-- The value of the last assignment to a key in a sequentially applied
change list. -/
def lastAssign (es : List ((String × String) × String)) (p : String × String) :
    Option String :=
  (es.reverse.find? (fun e => e.1 == p)).map Prod.snd

/-- C8 input, new tree: one non-M:N self relation pair on `A` with relation
name `r`; the two sides are told apart by their `references`. -/
def c8New : Datamodel :=
  { models := [mkModel "A" none
      [mkRel "x" { toModel := "A", fields := [], references := [], name := "r" } .required,
       mkRel "y" { toModel := "A", fields := [], references := ["id"], name := "r" }
         .required]],
    enums := [] }

/-- C8 input, old tree: two old candidate relations (`r1` first, `r2`
second in iteration order), each with descriptors equal to the new pair's
up to the relation name. -/
def c8Old : Datamodel :=
  { models := [mkModel "A" none
      [mkRel "oa" { toModel := "A", fields := [], references := [], name := "r1" } .required,
       mkRel "ob" { toModel := "A", fields := [], references := ["id"], name := "r1" }
         .required,
       mkRel "oc" { toModel := "A", fields := [], references := [], name := "r2" } .required,
       mkRel "od" { toModel := "A", fields := [], references := ["id"], name := "r2" }
         .required]],
    enums := [] }

/-- The phase-5 output on the C8 input: both fields carry the SECOND old
candidate's relation name. -/
def c8Res : Datamodel :=
  { models := [mkModel "A" none
      [mkRel "x" { toModel := "A", fields := [], references := [], name := "r2" } .required,
       mkRel "y" { toModel := "A", fields := [], references := ["id"], name := "r2" }
         .required]],
    enums := [] }

end Reconcile

namespace ColumnDiffer

theorem defaults_match_eq_table {J : Type} [DecidableEq J] (parse : String → Option J)
    (fl : SqlFlavour) (p n : Column) (hov : jsonOverride fl p n = false) :
    defaults_match parse fl p n = dmTable parse (namesGate fl p n) (defKind p) (defKind n) := by
  unfold defaults_match jsonOverride at *
  rw [hov]
  unfold namesGate dmTable defKind
  rfl

theorem defaults_match_of_override {J : Type} [DecidableEq J] (parse : String → Option J)
    (fl : SqlFlavour) (p n : Column) (hov : jsonOverride fl p n = true) :
    defaults_match parse fl p n = true := by
  unfold defaults_match jsonOverride at *
  rw [hov]
  rfl

theorem jdm_self {J : Type} [DecidableEq J] (parse : String → Option J) (s : String) :
    json_defaults_match parse s s = true := by
  unfold json_defaults_match
  cases parse s <;> simp

theorem default_changed_eq {J : Type} [DecidableEq J] (parse : String → Option J)
    (fl : SqlFlavour) (p n : Column) :
    (all_changes parse fl p n).default_changed = !defaults_match parse fl p n := by
  unfold all_changes ColumnChanges.default_changed
  cases h : defaults_match parse fl p n <;>
    simp only [List.contains, Bool.not_true, Bool.not_false] <;>
    rw [List.elem_eq_mem] <;> simp

/-- Claim C2, counterexample.  As stated, the claim says "Value versus equal
Value is equivalent" with no proviso; under the named-constraints feature,
two equal plain values whose constraint names differ are reported as
different, so the claim as stated is false. -/
theorem claim_C2_counterexample :
    defKind (mkCol (some ⟨.value (.int 1), some "a"⟩)) = some (.value (.int 1))
    ∧ defKind (mkCol (some ⟨.value (.int 1), some "b"⟩)) = some (.value (.int 1))
    ∧ @defaults_match Unit _ (fun _ => none) flavourNC
        (mkCol (some ⟨.value (.int 1), some "a"⟩))
        (mkCol (some ⟨.value (.int 1), some "b"⟩)) = false := by
  decide

/-- Claim C2, amended: the default-value equivalence table is exactly
directional as claimed, provided the constraint-name gate passes (names
equal, or the named-constraints feature off) and the JSON-unreliable
override is not in effect: Now/Now is equivalent; Value/Value with equal
values is equivalent; DbGenerated/DbGenerated with case-insensitively equal
text is equivalent; Value/absent, absent/Now, Now/Value and Now/absent are
different and set the Default change flag; Sequence/absent is equivalent
and does not set the Default change flag. -/
theorem claim_C2_amended {J : Type} [DecidableEq J] (parse : String → Option J)
    (fl : SqlFlavour) (p n : Column)
    (hgate : namesGate fl p n = true)
    (hov : jsonOverride fl p n = false) :
    (defKind p = some .now → defKind n = some .now →
        defaults_match parse fl p n = true)
    ∧ (∀ v : PrismaValue, defKind p = some (.value v) → defKind n = some (.value v) →
        defaults_match parse fl p n = true)
    ∧ (∀ s t : String, defKind p = some (.dbGenerated s) → defKind n = some (.dbGenerated t) →
        lowerStr s = lowerStr t → defaults_match parse fl p n = true)
    ∧ (∀ v : PrismaValue, defKind p = some (.value v) → defKind n = none →
        defaults_match parse fl p n = false
          ∧ (all_changes parse fl p n).default_changed = true)
    ∧ (defKind p = none → defKind n = some .now →
        defaults_match parse fl p n = false
          ∧ (all_changes parse fl p n).default_changed = true)
    ∧ (∀ v : PrismaValue, defKind p = some .now → defKind n = some (.value v) →
        defaults_match parse fl p n = false
          ∧ (all_changes parse fl p n).default_changed = true)
    ∧ (defKind p = some .now → defKind n = none →
        defaults_match parse fl p n = false
          ∧ (all_changes parse fl p n).default_changed = true)
    ∧ (∀ s : String, defKind p = some (.sequence s) → defKind n = none →
        defaults_match parse fl p n = true
          ∧ (all_changes parse fl p n).default_changed = false) := by
  have htab := defaults_match_eq_table parse fl p n hov
  have hflag := default_changed_eq parse fl p n
  rw [htab] at hflag ⊢
  rw [hgate] at hflag ⊢
  refine ⟨?_, ?_, ?_, ?_, ?_, ?_, ?_, ?_⟩
  · intro h1 h2; rw [h1, h2]; rfl
  · intro v h1 h2; rw [h1, h2]
    rcases v <;> simp [dmTable, jdm_self]
  · intro s t h1 h2 h3; rw [h1, h2]; simp [dmTable, h3]
  · intro v h1 h2
    rw [h1, h2] at hflag ⊢
    refine ⟨by rcases v <;> rfl, ?_⟩
    rw [hflag]
    rcases v <;> rfl
  · intro h1 h2
    rw [h1, h2] at hflag ⊢
    exact ⟨rfl, by rw [hflag]; rfl⟩
  · intro v h1 h2
    rw [h1, h2] at hflag ⊢
    exact ⟨rfl, by rw [hflag]; rfl⟩
  · intro h1 h2
    rw [h1, h2] at hflag ⊢
    exact ⟨rfl, by rw [hflag]; rfl⟩
  · intro s h1 h2
    rw [h1, h2] at hflag ⊢
    exact ⟨rfl, by rw [hflag]; rfl⟩

/-- Witness for the amended C2: at a concrete Now/absent column pair (with
the gate passing and no override) the predicate reports a difference and
the Default flag is set; dually the concrete Sequence/absent pair leaves the
flag unset. -/
theorem claim_C2_witness :
    @defaults_match Unit _ (fun _ => none) flavourPlain
        (mkCol (some ⟨.now, none⟩)) (mkCol none) = false
    ∧ (@all_changes Unit _ (fun _ => none) flavourPlain
        (mkCol (some ⟨.now, none⟩)) (mkCol none)).default_changed = true
    ∧ @defaults_match Unit _ (fun _ => none) flavourPlain
        (mkCol (some ⟨.sequence "s", none⟩)) (mkCol none) = true := by
  have h1 := claim_C2_amended (J := Unit) (fun _ => none) flavourPlain
    (mkCol (some ⟨.now, none⟩)) (mkCol none) (by decide) (by decide)
  have h2 := claim_C2_amended (J := Unit) (fun _ => none) flavourPlain
    (mkCol (some ⟨.sequence "s", none⟩)) (mkCol none) (by decide) (by decide)
  refine ⟨?_, ?_, ?_⟩
  · exact (h1.2.2.2.2.2.2.1 (by decide) (by decide)).1
  · exact (h1.2.2.2.2.2.2.1 (by decide) (by decide)).2
  · exact (h2.2.2.2.2.2.2.2 "s" (by decide) (by decide)).1

theorem defKind_setConstraintName (c : Column) (cn : Option String) :
    defKind (setConstraintName c cn) = defKind c := by
  unfold defKind setConstraintName
  cases c.default <;> rfl

/-- Claim C3, counterexample.  The claim says that with named constraints
enabled, every branch below the JSON override yields "equivalent" only if
the constraint names match exactly; but the Now/Now branch returns
equivalent without consulting the names, so two now-defaults with distinct
constraint names are still equivalent. -/
theorem claim_C3_counterexample :
    flavourNC.named_constraints = true
    ∧ ((mkCol (some ⟨.now, some "a"⟩)).default.bind (·.constraint_name)
        ≠ (mkCol (some ⟨.now, some "b"⟩)).default.bind (·.constraint_name))
    ∧ @defaults_match Unit _ (fun _ => none) flavourNC
        (mkCol (some ⟨.now, some "a"⟩)) (mkCol (some ⟨.now, some "b"⟩)) = true := by
  decide

/-- Claim C3, amended: with named constraints enabled, a constraint-name
mismatch disqualifies equivalence exactly in the value-comparing branches —
Value/Value (including the JSON patterns) and DbGenerated/DbGenerated;
Now/Now, Sequence/absent, absent/absent and every next-side-Sequence branch
return their verdict regardless of constraint names.  With the feature
disabled, constraint names never affect the predicate at all. -/
theorem claim_C3_amended {J : Type} [DecidableEq J] (parse : String → Option J)
    (fl : SqlFlavour) (p n : Column) :
    (fl.named_constraints = true → namesGate fl p n = false → jsonOverride fl p n = false →
      (∀ pv nv : PrismaValue, defKind p = some (.value pv) → defKind n = some (.value nv) →
        defaults_match parse fl p n = false)
      ∧ (∀ s t : String, defKind p = some (.dbGenerated s) → defKind n = some (.dbGenerated t) →
        defaults_match parse fl p n = false))
    ∧ (defKind p = some .now → defKind n = some .now → defaults_match parse fl p n = true)
    ∧ (∀ s : String, defKind p = some (.sequence s) → defKind n = none →
        defaults_match parse fl p n = true)
    ∧ (defKind p = none → defKind n = none → defaults_match parse fl p n = true)
    ∧ (∀ s : String, defKind n = some (.sequence s) → defaults_match parse fl p n = true)
    ∧ (fl.named_constraints = false → ∀ a b : Option String,
        defaults_match parse fl (setConstraintName p a) (setConstraintName n b)
          = defaults_match parse fl p n) := by
  refine ⟨?_, ?_, ?_, ?_, ?_, ?_⟩
  · intro _hnc hgf hov
    rw [defaults_match_eq_table parse fl p n hov, hgf]
    constructor
    · intro pv nv h1 h2
      rw [h1, h2]
      rcases pv <;> rcases nv <;> simp [dmTable]
    · intro s t h1 h2
      rw [h1, h2]
      simp [dmTable]
  · intro h1 h2
    by_cases hov : jsonOverride fl p n = true
    · exact defaults_match_of_override parse fl p n hov
    · rw [defaults_match_eq_table parse fl p n (by simpa using hov), h1, h2]
      rfl
  · intro s h1 h2
    by_cases hov : jsonOverride fl p n = true
    · exact defaults_match_of_override parse fl p n hov
    · rw [defaults_match_eq_table parse fl p n (by simpa using hov), h1, h2]
      rfl
  · intro h1 h2
    by_cases hov : jsonOverride fl p n = true
    · exact defaults_match_of_override parse fl p n hov
    · rw [defaults_match_eq_table parse fl p n (by simpa using hov), h1, h2]
      rfl
  · intro s h2
    by_cases hov : jsonOverride fl p n = true
    · exact defaults_match_of_override parse fl p n hov
    · rw [defaults_match_eq_table parse fl p n (by simpa using hov), h2]
      generalize defKind p = k
      rcases k with _ | k
      · rfl
      · rcases k with v | _ | s2 | s2 <;> try rfl
        rcases v <;> rfl
  · intro hoff a b
    have hkind : ∀ (c : Column) (cn : Option String),
        Option.map (fun d : ColumnDefault => d.kind) (setConstraintName c cn).default
          = Option.map (fun d : ColumnDefault => d.kind) c.default := by
      intro c cn
      unfold setConstraintName
      cases c.default <;> rfl
    unfold defaults_match
    rw [hoff]
    simp only [hkind]
    rfl

/-- Witness for the amended C3: with named constraints on and differing
constraint names, a concrete equal-value pair is reported different, while
the same pair with the feature off is unaffected by its names. -/
theorem claim_C3_witness :
    @defaults_match Unit _ (fun _ => none) flavourNC
        (mkCol (some ⟨.value (.int 1), some "a"⟩))
        (mkCol (some ⟨.value (.int 1), some "b"⟩)) = false
    ∧ @defaults_match Unit _ (fun _ => none) flavourPlain
        (setConstraintName (mkCol (some ⟨.value (.int 1), none⟩)) (some "a"))
        (setConstraintName (mkCol (some ⟨.value (.int 1), none⟩)) (some "b"))
      = @defaults_match Unit _ (fun _ => none) flavourPlain
        (mkCol (some ⟨.value (.int 1), none⟩))
        (mkCol (some ⟨.value (.int 1), none⟩)) := by
  have h1 := claim_C3_amended (J := Unit) (fun _ => none) flavourNC
    (mkCol (some ⟨.value (.int 1), some "a"⟩)) (mkCol (some ⟨.value (.int 1), some "b"⟩))
  have h2 := claim_C3_amended (J := Unit) (fun _ => none) flavourPlain
    (mkCol (some ⟨.value (.int 1), none⟩)) (mkCol (some ⟨.value (.int 1), none⟩))
  refine ⟨?_, ?_⟩
  · exact (h1.1 (by decide) (by decide) (by decide)).1 (.int 1) (.int 1) (by decide) (by decide)
  · exact h2.2.2.2.2.2 (by decide) (some "a") (some "b")

/-- Claim C4, counterexample.  The claim says that whenever both defaults
are plain values and at least one side is JSON-typed or a JSON string, the
texts are compared by parsed structural equality with parse failures
treated as equivalent.  Two string-kind values holding structurally equal
JSON texts (a parser identifying both spellings is supplied) are
nevertheless compared by exact text equality and reported different. -/
theorem claim_C4_counterexample :
    toyParse "[1, 2]" = toyParse "[1,2]"
    ∧ (toyParse "[1, 2]").isSome = true
    ∧ defaults_match toyParse flavourPlain
        (mkCol (some ⟨.value (.string "[1, 2]"), none⟩))
        (mkCol (some ⟨.value (.string "[1,2]"), none⟩)) = false := by
  decide

/-- Claim C4, amended: the parsed-JSON comparison applies exactly to the
three kind patterns the source matches — Json/Json, String/Json and
Json/String value pairs (two string-kind texts are compared by exact
equality even if both hold JSON); in those branches, below the override and
with the names-gate passing, the predicate equals `json_defaults_match`,
which is fail-open: if either side fails to parse the verdict is
"equivalent", and if both parse it is parsed structural equality. -/
theorem claim_C4_amended {J : Type} [DecidableEq J] (parse : String → Option J)
    (fl : SqlFlavour) (p n : Column)
    (hov : jsonOverride fl p n = false) (hgate : namesGate fl p n = true) :
    (∀ a b : String, defKind p = some (.value (.json a)) → defKind n = some (.value (.json b)) →
      defaults_match parse fl p n = json_defaults_match parse a b)
    ∧ (∀ a b : String, defKind p = some (.value (.string a)) → defKind n = some (.value (.json b)) →
      defaults_match parse fl p n = json_defaults_match parse a b)
    ∧ (∀ a b : String, defKind p = some (.value (.json a)) → defKind n = some (.value (.string b)) →
      defaults_match parse fl p n = json_defaults_match parse a b)
    ∧ (∀ a b : String, defKind p = some (.value (.string a)) → defKind n = some (.value (.string b)) →
      defaults_match parse fl p n = decide (a = b))
    ∧ (∀ a b : String, parse a = none ∨ parse b = none → json_defaults_match parse a b = true)
    ∧ (∀ (a b : String) (x y : J), parse a = some x → parse b = some y →
      json_defaults_match parse a b = decide (x = y)) := by
  refine ⟨?_, ?_, ?_, ?_, ?_, ?_⟩
  · intro a b h1 h2
    rw [defaults_match_eq_table parse fl p n hov, hgate, h1, h2]
    simp [dmTable]
  · intro a b h1 h2
    rw [defaults_match_eq_table parse fl p n hov, hgate, h1, h2]
    simp [dmTable]
  · intro a b h1 h2
    rw [defaults_match_eq_table parse fl p n hov, hgate, h1, h2]
    simp [dmTable]
  · intro a b h1 h2
    rw [defaults_match_eq_table parse fl p n hov, hgate, h1, h2]
    rcases eq_or_ne a b with h | h <;> simp [dmTable, h]
  · intro a b h
    unfold json_defaults_match
    rcases h with h | h
    · rw [h]
    · rw [h]
      cases parse a <;> rfl
  · intro a b x y h1 h2
    unfold json_defaults_match
    rw [h1, h2]

/-- Witness for the amended C4: with the toy parser, the two structurally
equal spellings of the array 1,2 as Json-kind values are equivalent
(fail-open comparison both parsing to the same value), and an unparsable
side makes any Json/Json pair equivalent. -/
theorem claim_C4_witness :
    defaults_match toyParse flavourPlain
        (mkCol (some ⟨.value (.json "[1, 2]"), none⟩))
        (mkCol (some ⟨.value (.json "[1,2]"), none⟩)) = true
    ∧ defaults_match toyParse flavourPlain
        (mkCol (some ⟨.value (.json "junk"), none⟩))
        (mkCol (some ⟨.value (.json "[1,2]"), none⟩)) = true := by
  have h1 := claim_C4_amended toyParse flavourPlain
    (mkCol (some ⟨.value (.json "[1, 2]"), none⟩))
    (mkCol (some ⟨.value (.json "[1,2]"), none⟩)) (by decide) (by decide)
  have h2 := claim_C4_amended toyParse flavourPlain
    (mkCol (some ⟨.value (.json "junk"), none⟩))
    (mkCol (some ⟨.value (.json "[1,2]"), none⟩)) (by decide) (by decide)
  constructor
  · rw [h1.1 "[1, 2]" "[1,2]" (by decide) (by decide)]
    decide
  · rw [h2.1 "junk" "[1,2]" (by decide) (by decide)]
    rw [h2.2.2.2.2.1 "junk" "[1,2]" (by decide)]

end ColumnDiffer

namespace Reconcile

/-- Claim C9: the spec says reconciliation never fails, but with the
named-constraints feature enabled the constraint-name recovery phase
unwraps the old index's database name under a guard that only checks the
old index's logical name; on this structurally valid input the unwrap hits
`None` and `enrich` panics (modelled as `none`).  With the feature
disabled the same input reconciles fine. -/
theorem claim_C9_bug :
    enrich c9Old c9New ctxNC = none
    ∧ (enrich c9Old c9New ctxPlain).isSome = true := by
  decide

end Reconcile

namespace Reconcile

/-! ## Generic machinery: pointwise relations through the mutation loops -/

theorem forall2_trans {α : Type} {R : α → α → Prop}
    (ht : ∀ a b c, R a b → R b c → R a c) :
    ∀ {l1 l2 l3 : List α}, List.Forall₂ R l1 l2 → List.Forall₂ R l2 l3 → List.Forall₂ R l1 l3
  | [], [], [], _, _ => List.Forall₂.nil
  | _ :: _, _ :: _, _ :: _, List.Forall₂.cons h12 t12, List.Forall₂.cons h23 t23 =>
      List.Forall₂.cons (ht _ _ _ h12 h23) (forall2_trans ht t12 t23)

theorem forall2_refl {α : Type} {R : α → α → Prop} (hr : ∀ a, R a a) :
    ∀ l : List α, List.Forall₂ R l l
  | [] => List.Forall₂.nil
  | _ :: t => List.Forall₂.cons (hr _) (forall2_refl hr t)

theorem forall2_mem_right {α : Type} {R : α → α → Prop} :
    ∀ {l l2 : List α}, List.Forall₂ R l l2 → ∀ b ∈ l2, ∃ a ∈ l, R a b
  | _, _, List.Forall₂.cons h t, b, hb => by
      rcases List.mem_cons.1 hb with rfl | hb
      · exact ⟨_, List.mem_cons_self _ _, h⟩
      · rcases forall2_mem_right t b hb with ⟨a, ha, hab⟩
        exact ⟨a, List.mem_cons_of_mem _ ha, hab⟩

theorem forall2_mem_left {α : Type} {R : α → α → Prop} :
    ∀ {l l2 : List α}, List.Forall₂ R l l2 → ∀ a ∈ l, ∃ b ∈ l2, R a b
  | _, _, List.Forall₂.cons h t, a, ha => by
      rcases List.mem_cons.1 ha with rfl | ha
      · exact ⟨_, List.mem_cons_self _ _, h⟩
      · rcases forall2_mem_left t a ha with ⟨b, hb, hab⟩
        exact ⟨b, List.mem_cons_of_mem _ hb, hab⟩

theorem forall2_map_self {α : Type} {R : α → α → Prop} {h : α → α} :
    ∀ {l : List α}, (∀ a ∈ l, R a (h a)) → List.Forall₂ R l (l.map h)
  | [], _ => List.Forall₂.nil
  | a :: t, hl =>
      List.Forall₂.cons (hl a (List.mem_cons_self _ _))
        (forall2_map_self (fun x hx => hl x (List.mem_cons_of_mem _ hx)))

/-- The effect of `updateFirstM`: every element is either untouched or the
image under the (guarded) update. -/
theorem updateFirstM_forall2 {α : Type} {p : α → Bool} {g : α → Option α}
    {R : α → α → Prop} (hr : ∀ a, R a a)
    (hg : ∀ a a2, p a = true → g a = some a2 → R a a2) :
    ∀ {l l2 : List α}, updateFirstM p g l = some l2 → List.Forall₂ R l l2 := by
  intro l
  induction l with
  | nil => intro l2 h; simp [updateFirstM] at h
  | cons a t ih =>
      intro l2 h
      unfold updateFirstM at h
      by_cases hp : p a = true
      · rw [if_pos hp, Option.map_eq_some'] at h
        obtain ⟨a2, hga, hcons⟩ := h
        subst hcons
        exact List.Forall₂.cons (hg a a2 hp hga) (forall2_refl hr t)
      · rw [if_neg hp, Option.map_eq_some'] at h
        obtain ⟨t2, ht, hcons⟩ := h
        subst hcons
        exact List.Forall₂.cons (hr a) (ih ht)

/-- Lift an element relation through `updateModelM`. -/
theorem updateModelM_forall2 {R : Model → Model → Prop} (hr : ∀ m, R m m)
    {dm : Datamodel} {n : String} {g : Model → Option Model} {dm2 : Datamodel}
    (hg : ∀ m m2, m.name = n → g m = some m2 → R m m2)
    (h : updateModelM dm n g = some dm2) :
    List.Forall₂ R dm.models dm2.models ∧ dm2.enums = dm.enums := by
  unfold updateModelM at h
  rw [Option.map_eq_some'] at h
  obtain ⟨ms, hup, hdm⟩ := h
  subst hdm
  refine ⟨?_, rfl⟩
  exact updateFirstM_forall2 hr
    (fun m m2 hp hgm => hg m m2 (by simpa using hp) hgm) hup

/-- `updateEnumM` leaves the model list untouched. -/
theorem updateEnumM_models {dm : Datamodel} {n : String} {g : DmEnum → Option DmEnum}
    {dm2 : Datamodel} (h : updateEnumM dm n g = some dm2) : dm2.models = dm.models := by
  unfold updateEnumM at h
  rw [Option.map_eq_some'] at h
  obtain ⟨es, _, hdm⟩ := h
  subst hdm
  rfl

/-- Chain a transitive pointwise model relation through `applyChain`. -/
theorem applyChain_forall2 {e : Type} {step : e → Datamodel → Option Datamodel}
    {R : Model → Model → Prop} (hr : ∀ m, R m m)
    (ht : ∀ a b c, R a b → R b c → R a c)
    (hstep : ∀ x dm dm2, step x dm = some dm2 → List.Forall₂ R dm.models dm2.models) :
    ∀ {es : List e} {dm dm2 : Datamodel},
      applyChain step es dm = some dm2 → List.Forall₂ R dm.models dm2.models := by
  intro es
  induction es with
  | nil =>
      intro dm dm2 h
      unfold applyChain at h
      cases h
      exact forall2_refl hr _
  | cons x rest ih =>
      intro dm dm2 h
      unfold applyChain at h
      rw [Option.bind_eq_some] at h
      obtain ⟨dm1, hx, hrest⟩ := h
      exact forall2_trans ht (hstep x dm dm1 hx) (ih hrest)

end Reconcile

namespace Reconcile

theorem FPres1_refl : ∀ f, FPres1 f f := by
  intro f
  cases f <;> simp [FPres1]

theorem FPres_to_FPres1 : ∀ a b, FPres a b → FPres1 a b := by
  intro a b h
  cases a <;> cases b <;> simp [FPres, FPres1] at h ⊢ <;> exact h

theorem FPres1_trans : ∀ a b c, FPres1 a b → FPres1 b c → FPres1 a c := by
  intro a b c hab hbc
  rcases a with sa | ra <;> rcases b with sb | rb <;> simp [FPres1] at hab <;>
    rcases c with sc | rc <;> simp [FPres1] at hbc ⊢
  obtain ⟨hr1, hm1⟩ := hab
  obtain ⟨hr2, hm2⟩ := hbc
  refine ⟨hr2.trans hr1, ?_⟩
  rcases hm1 with hm1 | ⟨hn1, hs1⟩
  · rcases hm2 with hm2 | ⟨hn2, hs2⟩
    · exact Or.inl (hm2.trans hm1)
    · have hna : sa.database_name = none := hm1.symm.trans hn2
      refine Or.inr ⟨hna, ?_⟩
      rw [hs2]
      have hname : sb.name = sa.name := by
        unfold ScalarField.resolvedName at hr1
        rw [hn2, hna] at hr1
        simpa using hr1
      rw [hname]
  · rcases hm2 with hm2 | ⟨hn2, hs2⟩
    · exact Or.inr ⟨hn1, hm2.trans hs1⟩
    · rw [hs1] at hn2
      cases hn2

theorem FPres_refl : ∀ f, FPres f f := by
  intro f
  cases f <;> simp [FPres]

theorem FPres_trans : ∀ a b c, FPres a b → FPres b c → FPres a c := by
  intro a b c hab hbc
  rcases a with sa | ra <;> rcases b with sb | rb <;> simp [FPres] at hab <;>
    rcases c with sc | rc <;> simp [FPres] at hbc ⊢
  · obtain ⟨hr1, hm1⟩ := hab
    obtain ⟨hr2, hm2⟩ := hbc
    refine ⟨hr2.trans hr1, ?_⟩
    rcases hm1 with hm1 | ⟨hn1, hs1⟩
    · rcases hm2 with hm2 | ⟨hn2, hs2⟩
      · exact Or.inl (hm2.trans hm1)
      · have hna : sa.database_name = none := (hm1.symm.trans hn2 :)
        refine Or.inr ⟨hna, ?_⟩
        rw [hs2]
        have hname : sb.name = sa.name := by
          unfold ScalarField.resolvedName at hr1
          rw [hn2, hna] at hr1
          simpa using hr1
        rw [hname]
    · rcases hm2 with hm2 | ⟨hn2, hs2⟩
      · exact Or.inr ⟨hn1, hm2.trans hs1⟩
      · rw [hs1] at hn2
        cases hn2
  · exact hbc.trans hab

theorem Pres_refl : ∀ m, Pres m m := by
  intro m
  exact ⟨rfl, rfl, forall2_refl FPres_refl _⟩

theorem Pres_trans : ∀ a b c, Pres a b → Pres b c → Pres a c := by
  intro a b c h g
  obtain ⟨h1, h2, h3⟩ := h
  obtain ⟨g1, g2, g3⟩ := g
  exact ⟨g1.trans h1, g2.trans h2, forall2_trans FPres_trans h3 g3⟩

theorem Pres_to_Pres1 : ∀ a b, Pres a b → Pres1 a b := by
  intro a b h
  obtain ⟨h1, h2, h3⟩ := h
  unfold Pres1 Model.resolvedName
  rw [h1, h2]
  exact ⟨rfl, Or.inl rfl, h3.imp FPres_to_FPres1⟩

theorem Pres1_refl : ∀ m, Pres1 m m := fun m => Pres_to_Pres1 m m (Pres_refl m)

theorem Pres1_trans : ∀ a b c, Pres1 a b → Pres1 b c → Pres1 a c := by
  intro a b c h g
  obtain ⟨h1, h2, h3⟩ := h
  obtain ⟨g1, g2, g3⟩ := g
  refine ⟨g1.trans h1, ?_, forall2_trans FPres1_trans h3 g3⟩
  rcases h2 with h2 | ⟨hn1, hs1⟩
  · rcases g2 with g2 | ⟨gn, gs⟩
    · exact Or.inl (g2.trans h2)
    · have hna : a.database_name = none := (h2.symm.trans gn :)
      refine Or.inr ⟨hna, ?_⟩
      rw [gs]
      have hname : b.name = a.name := by
        unfold Model.resolvedName at h1
        rw [gn, hna] at h1
        simpa using h1
      rw [hname]
  · rcases g2 with g2 | ⟨gn, gs⟩
    · exact Or.inr ⟨hn1, g2.trans hs1⟩
    · rw [hs1] at gn
      cases gn

/-- The shape of every scalar-field mutation step: the hit model keeps its
name and mapping, its fields are pointwise related. -/
theorem updateScalarField_forall2 {F : Field → Field → Prop} (hFr : ∀ f, F f f)
    {dm : Datamodel} {mn fn : String} {g : ScalarField → ScalarField} {dm2 : Datamodel}
    (hg : ∀ s : ScalarField, s.name = fn → F (.scalar s) (.scalar (g s)))
    (h : updateScalarField dm mn fn g = some dm2) :
    List.Forall₂ (fun m m2 => m2.name = m.name ∧ m2.database_name = m.database_name
      ∧ List.Forall₂ F m.fields m2.fields) dm.models dm2.models := by
  unfold updateScalarField at h
  refine (updateModelM_forall2 (fun m => ⟨rfl, rfl, forall2_refl hFr _⟩) ?_ h).1
  intro m m2 _ hgm
  rw [Option.map_eq_some'] at hgm
  obtain ⟨fs, hup, hm2⟩ := hgm
  subst hm2
  refine ⟨rfl, rfl, ?_⟩
  refine updateFirstM_forall2 hFr ?_ hup
  intro f f2 hp hf
  rcases f with s | r
  · simp only [Option.some.injEq] at hf
    subst hf
    simp [Field.isScalar, Field.name] at hp
    exact hg s hp
  · simp [Field.isScalar] at hp

theorem updateRelationField_forall2 {F : Field → Field → Prop} (hFr : ∀ f, F f f)
    {dm : Datamodel} {mn fn : String} {g : RelationField → RelationField} {dm2 : Datamodel}
    (hg : ∀ r : RelationField, r.name = fn → F (.relation r) (.relation (g r)))
    (h : updateRelationField dm mn fn g = some dm2) :
    List.Forall₂ (fun m m2 => m2.name = m.name ∧ m2.database_name = m.database_name
      ∧ List.Forall₂ F m.fields m2.fields) dm.models dm2.models := by
  unfold updateRelationField at h
  refine (updateModelM_forall2 (fun m => ⟨rfl, rfl, forall2_refl hFr _⟩) ?_ h).1
  intro m m2 _ hgm
  rw [Option.map_eq_some'] at hgm
  obtain ⟨fs, hup, hm2⟩ := hgm
  subst hm2
  refine ⟨rfl, rfl, ?_⟩
  refine updateFirstM_forall2 hFr ?_ hup
  intro f f2 hp hf
  rcases f with s | r
  · simp [Field.isRelation] at hp
  · simp only [Option.some.injEq] at hf
    subst hf
    simp [Field.isRelation, Field.name] at hp
    exact hg r hp

theorem updateField_forall2 {F : Field → Field → Prop} (hFr : ∀ f, F f f)
    {dm : Datamodel} {mn fn : String} {g : Field → Field} {dm2 : Datamodel}
    (hg : ∀ f : Field, f.name = fn → F f (g f))
    (h : updateField dm mn fn g = some dm2) :
    List.Forall₂ (fun m m2 => m2.name = m.name ∧ m2.database_name = m.database_name
      ∧ List.Forall₂ F m.fields m2.fields) dm.models dm2.models := by
  unfold updateField at h
  refine (updateModelM_forall2 (fun m => ⟨rfl, rfl, forall2_refl hFr _⟩) ?_ h).1
  intro m m2 _ hgm
  rw [Option.map_eq_some'] at hgm
  obtain ⟨fs, hup, hm2⟩ := hgm
  subst hm2
  refine ⟨rfl, rfl, ?_⟩
  refine updateFirstM_forall2 hFr ?_ hup
  intro f f2 hp hf
  simp only [Option.some.injEq] at hf
  subst hf
  exact hg f (by simpa using hp)

theorem updateModel_forall2 {R : Model → Model → Prop} (hr : ∀ m, R m m)
    {dm : Datamodel} {n : String} {g : Model → Model} {dm2 : Datamodel}
    (hg : ∀ m, m.name = n → R m (g m))
    (h : updateModel dm n g = some dm2) :
    List.Forall₂ R dm.models dm2.models := by
  unfold updateModel at h
  refine (updateModelM_forall2 hr ?_ h).1
  intro m m2 hn hgm
  simp only [Option.some.injEq] at hgm
  subst hgm
  exact hg m hn

theorem updateEnum_models {dm : Datamodel} {n : String} {g : DmEnum → DmEnum}
    {dm2 : Datamodel} (h : updateEnum dm n g = some dm2) : dm2.models = dm.models := by
  unfold updateEnum at h
  exact updateEnumM_models h

theorem updateEnumValue_models {dm : Datamodel} {en vn : String} {g : EnumValue → EnumValue}
    {dm2 : Datamodel} (h : updateEnumValue dm en vn g = some dm2) : dm2.models = dm.models := by
  unfold updateEnumValue at h
  exact updateEnumM_models h

theorem forall2_imp {α : Type} {R S : α → α → Prop} (h : ∀ a b, R a b → S a b) :
    ∀ {l l2 : List α}, List.Forall₂ R l l2 → List.Forall₂ S l l2 := by
  intro l l2 hl
  exact hl.imp h

/-- A `Pres`-shaped Forall₂ is literally `Pres`. -/
theorem forall2_shape_pres {dm dm2 : Datamodel}
    (h : List.Forall₂ (fun m m2 => m2.name = m.name ∧ m2.database_name = m.database_name
      ∧ List.Forall₂ FPres m.fields m2.fields) dm.models dm2.models) :
    List.Forall₂ Pres dm.models dm2.models := h

theorem fieldRenameStep_pres {e : (String × String) × String} {dm dm2 : Datamodel}
    (h : fieldRenameStep e dm = some dm2) : List.Forall₂ Pres dm.models dm2.models := by
  unfold fieldRenameStep at h
  refine forall2_shape_pres (updateScalarField_forall2 FPres_refl ?_ h)
  intro s hs
  simp only [FPres]
  constructor
  · unfold ScalarField.resolvedName
    cases hdb : s.database_name <;> simp [hdb, hs]
  · cases hdb : s.database_name <;> simp [hdb, hs]

theorem fieldUsageStep_pres {e : (String × String) × String} {dm dm2 : Datamodel}
    (h : fieldUsageStep e dm = some dm2) : List.Forall₂ Pres dm.models dm2.models := by
  unfold fieldUsageStep at h
  refine updateModel_forall2 Pres_refl ?_ h
  intro m _
  refine ⟨rfl, rfl, forall2_map_self ?_⟩
  intro f _
  cases f <;> simp [FPres]

theorem refStep_pres {a b : String} {p : String × String} {dm dm2 : Datamodel}
    (h : refStep a b p dm = some dm2) : List.Forall₂ Pres dm.models dm2.models := by
  unfold refStep at h
  refine forall2_shape_pres (updateRelationField_forall2 FPres_refl ?_ h)
  intro r _
  simp [FPres]

theorem referencesStep_pres {e : (String × String) × String} {dm dm2 : Datamodel}
    (h : referencesStep e dm = some dm2) : List.Forall₂ Pres dm.models dm2.models := by
  unfold referencesStep refPairs at h
  exact applyChain_forall2 Pres_refl Pres_trans (fun x d d2 hx => refStep_pres hx) h

theorem phaseFields_pres {old dm : Datamodel} {dm2 : Datamodel}
    {ch : List ((String × String) × String)}
    (h : phaseFields old dm = some (dm2, ch)) : List.Forall₂ Pres dm.models dm2.models := by
  unfold phaseFields at h
  rw [Option.bind_eq_some] at h
  obtain ⟨d1, h1, h⟩ := h
  rw [Option.bind_eq_some] at h
  obtain ⟨d2, h2, h⟩ := h
  rw [Option.map_eq_some'] at h
  obtain ⟨d3, h3, hpair⟩ := h
  rw [Prod.mk.injEq] at hpair
  obtain ⟨hd, _⟩ := hpair
  subst hd
  have p1 : List.Forall₂ Pres dm.models d1.models := by
    unfold applyFieldRenames at h1
    exact applyChain_forall2 Pres_refl Pres_trans (fun x d d2 hx => fieldRenameStep_pres hx) h1
  have p2 : List.Forall₂ Pres d1.models d2.models := by
    unfold applyFieldUsages at h2
    exact applyChain_forall2 Pres_refl Pres_trans (fun x d d2 hx => fieldUsageStep_pres hx) h2
  have p3 : List.Forall₂ Pres d2.models d3.models := by
    unfold applyFieldReferences at h3
    exact applyChain_forall2 Pres_refl Pres_trans (fun x d d2 hx => referencesStep_pres hx) h3
  exact forall2_trans Pres_trans p1 (forall2_trans Pres_trans p2 p3)

theorem models_eq_pres {dm dm2 : Datamodel} (h : dm2.models = dm.models) :
    List.Forall₂ Pres dm.models dm2.models := by
  rw [h]
  exact forall2_refl Pres_refl _

theorem indexRenameStep_pres {e : (String × String) × Option String} {dm dm2 : Datamodel}
    (h : indexRenameStep e dm = some dm2) : List.Forall₂ Pres dm.models dm2.models := by
  unfold indexRenameStep at h
  refine (updateModelM_forall2 Pres_refl ?_ h).1
  intro m m2 _ hgm
  rw [Option.map_eq_some'] at hgm
  obtain ⟨is, _, hm2⟩ := hgm
  subst hm2
  exact ⟨rfl, rfl, forall2_refl FPres_refl _⟩

theorem pkRenameStep_pres {e : String × Option String} {dm dm2 : Datamodel}
    (h : pkRenameStep e dm = some dm2) : List.Forall₂ Pres dm.models dm2.models := by
  unfold pkRenameStep at h
  refine updateModel_forall2 Pres_refl ?_ h
  intro m _
  exact ⟨rfl, rfl, forall2_refl FPres_refl _⟩

theorem phaseNamedConstraints_pres {ctx : IntrospectionContext} {old dm dm2 : Datamodel}
    {a : List ((String × String) × Option String)} {b : List (String × Option String)}
    (h : phaseNamedConstraints ctx old dm = some (dm2, a, b)) :
    List.Forall₂ Pres dm.models dm2.models := by
  unfold phaseNamedConstraints at h
  by_cases hc : ctx.named_constraints = true
  · rw [if_pos hc] at h
    rw [Option.bind_eq_some] at h
    obtain ⟨chIdx, _, h⟩ := h
    rw [Option.bind_eq_some] at h
    obtain ⟨d1, h1, h⟩ := h
    rw [Option.map_eq_some'] at h
    obtain ⟨d2, h2, hpair⟩ := h
    rw [Prod.mk.injEq] at hpair
    obtain ⟨hd, _⟩ := hpair
    subst hd
    have p1 : List.Forall₂ Pres dm.models d1.models := by
      unfold applyIndexRenames at h1
      exact applyChain_forall2 Pres_refl Pres_trans (fun x d d2 hx => indexRenameStep_pres hx) h1
    have p2 : List.Forall₂ Pres d1.models d2.models := by
      unfold applyPkRenames at h2
      exact applyChain_forall2 Pres_refl Pres_trans (fun x d d2 hx => pkRenameStep_pres hx) h2
    exact forall2_trans Pres_trans p1 p2
  · rw [if_neg hc] at h
    rw [Option.some.injEq, Prod.mk.injEq] at h
    obtain ⟨hd, _⟩ := h
    subst hd
    exact forall2_refl Pres_refl _

theorem relFieldRenameStep_pres {e : (String × String) × String} {dm dm2 : Datamodel}
    (h : relFieldRenameStep e dm = some dm2) : List.Forall₂ Pres dm.models dm2.models := by
  unfold relFieldRenameStep at h
  refine forall2_shape_pres (updateRelationField_forall2 FPres_refl ?_ h)
  intro r _
  simp [FPres]

theorem phaseRelFieldNames_pres {old dm dm2 : Datamodel}
    (h : phaseRelFieldNames old dm = some dm2) : List.Forall₂ Pres dm.models dm2.models := by
  unfold phaseRelFieldNames at h
  rw [Option.bind_eq_some] at h
  obtain ⟨ch, _, h⟩ := h
  unfold applyRelFieldRenames at h
  exact applyChain_forall2 Pres_refl Pres_trans (fun x d d2 hx => relFieldRenameStep_pres hx) h

theorem relNameStep_pres {e : (String × String) × String} {dm dm2 : Datamodel}
    (h : relNameStep e dm = some dm2) : List.Forall₂ Pres dm.models dm2.models := by
  unfold relNameStep at h
  refine forall2_shape_pres (updateRelationField_forall2 FPres_refl ?_ h)
  intro r _
  simp [FPres]

theorem phaseRelNames_pres {old dm dm2 : Datamodel}
    (h : phaseRelNames old dm = some dm2) : List.Forall₂ Pres dm.models dm2.models := by
  unfold phaseRelNames at h
  rw [Option.bind_eq_some] at h
  obtain ⟨ch, _, h⟩ := h
  unfold applyRelNames at h
  exact applyChain_forall2 Pres_refl Pres_trans (fun x d d2 hx => relNameStep_pres hx) h

theorem enumRenameStep_pres {e : String × String} {dm dm2 : Datamodel}
    (h : enumRenameStep e dm = some dm2) : List.Forall₂ Pres dm.models dm2.models := by
  unfold enumRenameStep at h
  exact models_eq_pres (updateEnum_models h)

theorem retypeStep_pres {tgt : String} {p : String × String} {dm dm2 : Datamodel}
    (h : retypeStep tgt p dm = some dm2) : List.Forall₂ Pres dm.models dm2.models := by
  unfold retypeStep at h
  refine forall2_shape_pres (updateScalarField_forall2 FPres_refl ?_ h)
  intro s _
  simp [FPres, ScalarField.resolvedName]

theorem enumPropagateStep_pres {e : String × String} {dm dm2 : Datamodel}
    (h : enumPropagateStep e dm = some dm2) : List.Forall₂ Pres dm.models dm2.models := by
  unfold enumPropagateStep retypePairs at h
  exact applyChain_forall2 Pres_refl Pres_trans (fun x d d2 hx => retypeStep_pres hx) h

theorem phaseEnums_pres {old dm dm2 : Datamodel} {ch : List (String × String)}
    (h : phaseEnums old dm = some (dm2, ch)) : List.Forall₂ Pres dm.models dm2.models := by
  unfold phaseEnums at h
  rw [Option.bind_eq_some] at h
  obtain ⟨d1, h1, h⟩ := h
  rw [Option.map_eq_some'] at h
  obtain ⟨d2, h2, hpair⟩ := h
  rw [Prod.mk.injEq] at hpair
  obtain ⟨hd, _⟩ := hpair
  subst hd
  have p1 : List.Forall₂ Pres dm.models d1.models := by
    unfold applyEnumRenames at h1
    exact applyChain_forall2 Pres_refl Pres_trans (fun x d d2 hx => enumRenameStep_pres hx) h1
  have p2 : List.Forall₂ Pres d1.models d2.models := by
    unfold propagateEnumRenames at h2
    exact applyChain_forall2 Pres_refl Pres_trans (fun x d d2 hx => enumPropagateStep_pres hx) h2
  exact forall2_trans Pres_trans p1 p2

theorem enumValueRenameStep_pres {e : (String × String) × String} {dm dm2 : Datamodel}
    (h : enumValueRenameStep e dm = some dm2) : List.Forall₂ Pres dm.models dm2.models := by
  unfold enumValueRenameStep at h
  exact models_eq_pres (updateEnumValue_models h)

theorem redefaultStep_pres {a b : String} {p : String × String} {dm dm2 : Datamodel}
    (h : redefaultStep a b p dm = some dm2) : List.Forall₂ Pres dm.models dm2.models := by
  unfold redefaultStep at h
  refine forall2_shape_pres (updateScalarField_forall2 FPres_refl ?_ h)
  intro s _
  by_cases hdf : (s.default_value == some (DefaultValue.single (DmValue.enum a))) = true <;>
    simp [FPres, ScalarField.resolvedName, hdf]

theorem enumValuePropagateStep_pres {e : (String × String) × String} {dm dm2 : Datamodel}
    (h : enumValuePropagateStep e dm = some dm2) : List.Forall₂ Pres dm.models dm2.models := by
  unfold enumValuePropagateStep redefaultPairs at h
  exact applyChain_forall2 Pres_refl Pres_trans (fun x d d2 hx => redefaultStep_pres hx) h

theorem phaseEnumValues_pres {old dm dm2 : Datamodel} {ch : List ((String × String) × String)}
    (h : phaseEnumValues old dm = some (dm2, ch)) : List.Forall₂ Pres dm.models dm2.models := by
  unfold phaseEnumValues at h
  rw [Option.bind_eq_some] at h
  obtain ⟨d1, h1, h⟩ := h
  rw [Option.map_eq_some'] at h
  obtain ⟨d2, h2, hpair⟩ := h
  rw [Prod.mk.injEq] at hpair
  obtain ⟨hd, _⟩ := hpair
  subst hd
  have p1 : List.Forall₂ Pres dm.models d1.models := by
    unfold applyEnumValueRenames at h1
    exact applyChain_forall2 Pres_refl Pres_trans
      (fun x d d2 hx => enumValueRenameStep_pres hx) h1
  have p2 : List.Forall₂ Pres d1.models d2.models := by
    unfold propagateEnumValueRenames at h2
    exact applyChain_forall2 Pres_refl Pres_trans
      (fun x d d2 hx => enumValuePropagateStep_pres hx) h2
  exact forall2_trans Pres_trans p1 p2

theorem mysqlEnumRenameStep_pres {e : String × String × (String × String)} {dm dm2 : Datamodel}
    (h : mysqlEnumRenameStep e dm = some dm2) : List.Forall₂ Pres dm.models dm2.models := by
  unfold mysqlEnumRenameStep at h
  rw [Option.bind_eq_some] at h
  obtain ⟨d1, h1, h2⟩ := h
  refine forall2_trans Pres_trans (models_eq_pres (updateEnum_models h1)) ?_
  refine forall2_shape_pres (updateScalarField_forall2 FPres_refl ?_ h2)
  intro s _
  simp [FPres, ScalarField.resolvedName]

theorem phaseMysqlEnums_pres {ctx : IntrospectionContext} {old dm dm2 : Datamodel}
    (h : phaseMysqlEnums ctx old dm = some dm2) : List.Forall₂ Pres dm.models dm2.models := by
  unfold phaseMysqlEnums at h
  by_cases hc : ctx.is_mysql = true
  · rw [if_pos hc] at h
    rw [Option.bind_eq_some] at h
    obtain ⟨ch, _, h⟩ := h
    unfold applyMysqlEnumRenames at h
    exact applyChain_forall2 Pres_refl Pres_trans
      (fun x d d2 hx => mysqlEnumRenameStep_pres hx) h
  · rw [if_neg hc] at h
    cases h
    exact forall2_refl Pres_refl _

theorem defaultStep_pres {d : DefaultValue} {e : String × String} {dm dm2 : Datamodel}
    (h : defaultStep d e dm = some dm2) : List.Forall₂ Pres dm.models dm2.models := by
  unfold defaultStep at h
  refine forall2_shape_pres (updateScalarField_forall2 FPres_refl ?_ h)
  intro s _
  simp [FPres, ScalarField.resolvedName]

theorem updatedAtStep_pres {e : String × String} {dm dm2 : Datamodel}
    (h : updatedAtStep e dm = some dm2) : List.Forall₂ Pres dm.models dm2.models := by
  unfold updatedAtStep at h
  refine forall2_shape_pres (updateScalarField_forall2 FPres_refl ?_ h)
  intro s _
  simp [FPres, ScalarField.resolvedName]

theorem phasePrismaLevel_pres {old dm dm2 : Datamodel}
    {a b c : List (String × String)}
    (h : phasePrismaLevel old dm = some (dm2, a, b, c)) :
    List.Forall₂ Pres dm.models dm2.models := by
  unfold phasePrismaLevel at h
  rw [Option.bind_eq_some] at h
  obtain ⟨d1, h1, h⟩ := h
  rw [Option.bind_eq_some] at h
  obtain ⟨d2, h2, h⟩ := h
  rw [Option.map_eq_some'] at h
  obtain ⟨d3, h3, hpair⟩ := h
  rw [Prod.mk.injEq] at hpair
  obtain ⟨hd, _⟩ := hpair
  subst hd
  have p1 : List.Forall₂ Pres dm.models d1.models := by
    unfold applyDefaults at h1
    exact applyChain_forall2 Pres_refl Pres_trans (fun x d d2 hx => defaultStep_pres hx) h1
  have p2 : List.Forall₂ Pres d1.models d2.models := by
    unfold applyDefaults at h2
    exact applyChain_forall2 Pres_refl Pres_trans (fun x d d2 hx => defaultStep_pres hx) h2
  have p3 : List.Forall₂ Pres d2.models d3.models := by
    unfold applyUpdatedAt at h3
    exact applyChain_forall2 Pres_refl Pres_trans (fun x d d2 hx => updatedAtStep_pres hx) h3
  exact forall2_trans Pres_trans p1 (forall2_trans Pres_trans p2 p3)

theorem modelIgnoreStep_pres {e : String} {dm dm2 : Datamodel}
    (h : modelIgnoreStep e dm = some dm2) : List.Forall₂ Pres dm.models dm2.models := by
  unfold modelIgnoreStep at h
  refine updateModel_forall2 Pres_refl ?_ h
  intro m _
  exact ⟨rfl, rfl, forall2_refl FPres_refl _⟩

theorem fieldIgnoreStep_pres {e : String × String} {dm dm2 : Datamodel}
    (h : fieldIgnoreStep e dm = some dm2) : List.Forall₂ Pres dm.models dm2.models := by
  unfold fieldIgnoreStep at h
  refine forall2_shape_pres (updateField_forall2 FPres_refl ?_ h)
  intro f _
  cases f <;> simp [FPres, Field.ignore, ScalarField.resolvedName]

theorem phaseIgnore_pres {old dm dm2 : Datamodel} {a : List String} {b : List (String × String)}
    (h : phaseIgnore old dm = some (dm2, a, b)) : List.Forall₂ Pres dm.models dm2.models := by
  unfold phaseIgnore at h
  rw [Option.bind_eq_some] at h
  obtain ⟨d1, h1, h⟩ := h
  rw [Option.map_eq_some'] at h
  obtain ⟨d2, h2, hpair⟩ := h
  rw [Prod.mk.injEq] at hpair
  obtain ⟨hd, _⟩ := hpair
  subst hd
  have p1 : List.Forall₂ Pres dm.models d1.models := by
    unfold applyModelIgnores at h1
    exact applyChain_forall2 Pres_refl Pres_trans (fun x d d2 hx => modelIgnoreStep_pres hx) h1
  have p2 : List.Forall₂ Pres d1.models d2.models := by
    unfold applyFieldIgnores at h2
    exact applyChain_forall2 Pres_refl Pres_trans (fun x d d2 hx => fieldIgnoreStep_pres hx) h2
  exact forall2_trans Pres_trans p1 p2

theorem modelCommentStep_pres {e : String × Option String} {dm dm2 : Datamodel}
    (h : modelCommentStep e dm = some dm2) : List.Forall₂ Pres dm.models dm2.models := by
  unfold modelCommentStep at h
  refine updateModel_forall2 Pres_refl ?_ h
  intro m _
  exact ⟨rfl, rfl, forall2_refl FPres_refl _⟩

theorem fieldCommentStep_pres {e : (String × String) × Option String} {dm dm2 : Datamodel}
    (h : fieldCommentStep e dm = some dm2) : List.Forall₂ Pres dm.models dm2.models := by
  unfold fieldCommentStep at h
  refine forall2_shape_pres (updateField_forall2 FPres_refl ?_ h)
  intro f _
  cases f <;> simp [FPres, Field.setDocumentation, ScalarField.resolvedName]

theorem phaseComments_pres {old dm dm2 : Datamodel}
    (h : phaseComments old dm = some dm2) : List.Forall₂ Pres dm.models dm2.models := by
  unfold phaseComments at h
  rw [Option.bind_eq_some] at h
  obtain ⟨d1, h1, h⟩ := h
  rw [Option.bind_eq_some] at h
  obtain ⟨d2, h2, h⟩ := h
  rw [Option.bind_eq_some] at h
  obtain ⟨d3, h3, h4⟩ := h
  have p1 : List.Forall₂ Pres dm.models d1.models := by
    unfold applyModelComments at h1
    exact applyChain_forall2 Pres_refl Pres_trans (fun x d d2 hx => modelCommentStep_pres hx) h1
  have p2 : List.Forall₂ Pres d1.models d2.models := by
    unfold applyFieldComments at h2
    exact applyChain_forall2 Pres_refl Pres_trans (fun x d d2 hx => fieldCommentStep_pres hx) h2
  have p3 : List.Forall₂ Pres d2.models d3.models := by
    unfold applyEnumComments at h3
    exact applyChain_forall2 Pres_refl Pres_trans
      (fun x d d2 hx => models_eq_pres (updateEnum_models hx)) h3
  have p4 : List.Forall₂ Pres d3.models dm2.models := by
    unfold applyEnumValueComments at h4
    exact applyChain_forall2 Pres_refl Pres_trans
      (fun x d d2 hx => models_eq_pres (updateEnumValue_models hx)) h4
  exact forall2_trans Pres_trans p1
    (forall2_trans Pres_trans p2 (forall2_trans Pres_trans p3 p4))

theorem forall2_shape_pres1 {dm dm2 : Datamodel}
    (h : List.Forall₂ (fun m m2 => m2.name = m.name ∧ m2.database_name = m.database_name
      ∧ List.Forall₂ FPres1 m.fields m2.fields) dm.models dm2.models) :
    List.Forall₂ Pres1 dm.models dm2.models := by
  refine h.imp ?_
  intro m m2 hm
  obtain ⟨h1, h2, h3⟩ := hm
  unfold Pres1 Model.resolvedName
  rw [h1, h2]
  exact ⟨rfl, Or.inl rfl, h3⟩

theorem modelRenameStep_pres1 {e : String × String} {dm dm2 : Datamodel}
    (h : modelRenameStep e dm = some dm2) : List.Forall₂ Pres1 dm.models dm2.models := by
  unfold modelRenameStep at h
  refine updateModel_forall2 Pres1_refl ?_ h
  intro m hm
  refine ⟨?_, ?_, forall2_refl FPres1_refl _⟩
  · unfold Model.resolvedName
    cases hdb : m.database_name <;> simp [hdb, hm]
  · cases hdb : m.database_name <;> simp [hdb, hm]

theorem retargetStep_pres1 {tgt : String} {p : String × String} {dm dm2 : Datamodel}
    (h : retargetStep tgt p dm = some dm2) : List.Forall₂ Pres1 dm.models dm2.models := by
  unfold retargetStep at h
  refine forall2_shape_pres1 (updateRelationField_forall2 FPres1_refl ?_ h)
  intro r _
  simp [FPres1]

theorem propagateStep_pres1 {e : String × String} {dm dm2 : Datamodel}
    (h : propagateStep e dm = some dm2) : List.Forall₂ Pres1 dm.models dm2.models := by
  unfold propagateStep retargetPairs at h
  exact applyChain_forall2 Pres1_refl Pres1_trans (fun x d d2 hx => retargetStep_pres1 hx) h

theorem phaseModels_pres1 {old dm dm2 : Datamodel} {ch : List (String × String)}
    (h : phaseModels old dm = some (dm2, ch)) : List.Forall₂ Pres1 dm.models dm2.models := by
  unfold phaseModels at h
  rw [Option.bind_eq_some] at h
  obtain ⟨d1, h1, h⟩ := h
  rw [Option.map_eq_some'] at h
  obtain ⟨d2, h2, hpair⟩ := h
  rw [Prod.mk.injEq] at hpair
  obtain ⟨hd, _⟩ := hpair
  subst hd
  have p1 : List.Forall₂ Pres1 dm.models d1.models := by
    unfold applyModelRenames at h1
    exact applyChain_forall2 Pres1_refl Pres1_trans
      (fun x d d2 hx => modelRenameStep_pres1 hx) h1
  have p2 : List.Forall₂ Pres1 d1.models d2.models := by
    unfold propagateModelRenames at h2
    exact applyChain_forall2 Pres1_refl Pres1_trans (fun x d d2 hx => propagateStep_pres1 hx) h2
  exact forall2_trans Pres1_trans p1 p2

theorem insertBy_perm {α : Type} (le : α → α → Bool) (a : α) :
    ∀ l : List α, (insertBy le a l).Perm (a :: l) := by
  intro l
  induction l with
  | nil => exact List.Perm.refl _
  | cons b t ih =>
      unfold insertBy
      by_cases hle : le a b = true
      · rw [if_pos hle]
      · rw [if_neg hle]
        exact (ih.cons b).trans (List.Perm.swap a b t)

theorem stableSortBy_perm {α : Type} (le : α → α → Bool) :
    ∀ l : List α, (stableSortBy le l).Perm l := by
  intro l
  induction l with
  | nil => exact List.Perm.refl _
  | cons a t ih =>
      unfold stableSortBy
      exact (insertBy_perm le a _).trans (ih.cons a)

theorem sortPhase_models_perm (old dm : Datamodel) :
    (sortPhase old dm).models.Perm dm.models := by
  unfold sortPhase
  exact stableSortBy_perm _ _

/-- Unfolding the `enrich` pipeline into its phase equations. -/
theorem enrich_decomp {old new : Datamodel} {ctx : IntrospectionContext}
    {dm : Datamodel} {w : List Warning} (h : enrich old new ctx = some (dm, w)) :
    ∃ s1 s2 s3 d4 d5 s6 s7 d8 s9 s10 d11,
      phaseModels old new = some s1
      ∧ phaseNamedConstraints ctx old s1.1 = some s2
      ∧ phaseFields old s2.1 = some s3
      ∧ phaseRelFieldNames old s3.1 = some d4
      ∧ phaseRelNames old d4 = some d5
      ∧ phaseEnums old d5 = some s6
      ∧ phaseEnumValues old s6.1 = some s7
      ∧ phaseMysqlEnums ctx old s7.1 = some d8
      ∧ phasePrismaLevel old d8 = some s9
      ∧ phaseIgnore old s9.1 = some s10
      ∧ phaseComments old s10.1 = some d11
      ∧ dm = sortPhase old d11
      ∧ w = buildWarnings s1.2 s2.2.1 s2.2.2 s3.2 s6.2 s7.2
          s9.2.1 s9.2.2.1 s9.2.2.2 s10.2.1 s10.2.2 := by
  unfold enrich at h
  rw [Option.bind_eq_some] at h
  obtain ⟨s1, h1, h⟩ := h
  rw [Option.bind_eq_some] at h
  obtain ⟨s2, h2, h⟩ := h
  rw [Option.bind_eq_some] at h
  obtain ⟨s3, h3, h⟩ := h
  rw [Option.bind_eq_some] at h
  obtain ⟨d4, h4, h⟩ := h
  rw [Option.bind_eq_some] at h
  obtain ⟨d5, h5, h⟩ := h
  rw [Option.bind_eq_some] at h
  obtain ⟨s6, h6, h⟩ := h
  rw [Option.bind_eq_some] at h
  obtain ⟨s7, h7, h⟩ := h
  rw [Option.bind_eq_some] at h
  obtain ⟨d8, h8, h⟩ := h
  rw [Option.bind_eq_some] at h
  obtain ⟨s9, h9, h⟩ := h
  rw [Option.bind_eq_some] at h
  obtain ⟨s10, h10, h⟩ := h
  rw [Option.map_eq_some'] at h
  obtain ⟨d11, h11, hpair⟩ := h
  rw [Prod.mk.injEq] at hpair
  obtain ⟨hdm, hw⟩ := hpair
  exact ⟨s1, s2, s3, d4, d5, s6, s7, d8, s9, s10, d11, h1, h2, h3, h4, h5, h6, h7,
    h8, h9, h10, h11, hdm.symm, hw.symm⟩

/-- Claim C10: reconciliation preserves resolved database-level identity.
For every successful run, the pre-sort tree is pointwise related to the
input new tree by `Pres1`: each model keeps its resolved database name,
its explicit mapping is only ever added when absent (set to the previously
inferred name), never modified or removed, and inside each model every
scalar field likewise keeps its resolved database name with a monotone
mapping; the final tree is a permutation (the order restoration) of the
pre-sort tree, so every output model arises from an input model this way. -/
theorem claim_C10 {old new : Datamodel} {ctx : IntrospectionContext}
    {dm : Datamodel} {w : List Warning} (h : enrich old new ctx = some (dm, w)) :
    ∃ pre : Datamodel, enrichPresort old new ctx = some pre
      ∧ List.Forall₂ Pres1 new.models pre.models
      ∧ dm.models.Perm pre.models
      ∧ ∀ m2 ∈ dm.models, ∃ m ∈ new.models, Pres1 m m2 := by
  obtain ⟨s1, s2, s3, d4, d5, s6, s7, d8, s9, s10, d11, h1, h2, h3, h4, h5, h6, h7,
    h8, h9, h10, h11, hdm, _⟩ := enrich_decomp h
  rcases s1 with ⟨dm1, ch1⟩
  rcases s2 with ⟨dm2, ch2a, ch2b⟩
  rcases s3 with ⟨dm3, ch3⟩
  rcases s6 with ⟨dm6, ch6⟩
  rcases s7 with ⟨dm7, ch7⟩
  rcases s9 with ⟨dm9, ch9a, ch9b, ch9c⟩
  rcases s10 with ⟨dm10, ch10a, ch10b⟩
  have hpre : enrichPresort old new ctx = some d11 := by
    unfold enrichPresort
    rw [h1]
    simp only [Option.some_bind]
    rw [h2]
    simp only [Option.some_bind]
    rw [h3]
    simp only [Option.some_bind]
    rw [h4]
    simp only [Option.some_bind]
    rw [h5]
    simp only [Option.some_bind]
    rw [h6]
    simp only [Option.some_bind]
    rw [h7]
    simp only [Option.some_bind]
    rw [h8]
    simp only [Option.some_bind]
    rw [h9]
    simp only [Option.some_bind]
    rw [h10]
    simp only [Option.some_bind]
    exact h11
  have q1 := phaseModels_pres1 h1
  have q2 := (phaseNamedConstraints_pres h2).imp Pres_to_Pres1
  have q3 := (phaseFields_pres h3).imp Pres_to_Pres1
  have q4 := (phaseRelFieldNames_pres h4).imp Pres_to_Pres1
  have q5 := (phaseRelNames_pres h5).imp Pres_to_Pres1
  have q6 := (phaseEnums_pres h6).imp Pres_to_Pres1
  have q7 := (phaseEnumValues_pres h7).imp Pres_to_Pres1
  have q8 := (phaseMysqlEnums_pres h8).imp Pres_to_Pres1
  have q9 := (phasePrismaLevel_pres h9).imp Pres_to_Pres1
  have q10 := (phaseIgnore_pres h10).imp Pres_to_Pres1
  have q11 := (phaseComments_pres h11).imp Pres_to_Pres1
  have hall : List.Forall₂ Pres1 new.models d11.models := by
    refine forall2_trans Pres1_trans q1 ?_
    refine forall2_trans Pres1_trans q2 ?_
    refine forall2_trans Pres1_trans q3 ?_
    refine forall2_trans Pres1_trans q4 ?_
    refine forall2_trans Pres1_trans q5 ?_
    refine forall2_trans Pres1_trans q6 ?_
    refine forall2_trans Pres1_trans q7 ?_
    refine forall2_trans Pres1_trans q8 ?_
    refine forall2_trans Pres1_trans q9 ?_
    exact forall2_trans Pres1_trans q10 q11
  have hperm : dm.models.Perm d11.models := by
    rw [hdm]
    exact sortPhase_models_perm old d11
  refine ⟨d11, hpre, hall, hperm, ?_⟩
  intro m2 hm2
  exact forall2_mem_right hall m2 (hperm.mem_iff.1 hm2)

end Reconcile

namespace Reconcile

/-- Witness for C10 at a concrete input: the run succeeds and the
preservation facts hold for it. -/
theorem claim_C10_witness :
    ∃ dmw : Datamodel × List Warning, enrich c9Old c9New ctxPlain = some dmw ∧
      ∃ pre : Datamodel, enrichPresort c9Old c9New ctxPlain = some pre
        ∧ List.Forall₂ Pres1 c9New.models pre.models
        ∧ dmw.1.models.Perm pre.models := by
  rcases hr : enrich c9Old c9New ctxPlain with _ | dmw
  · exact absurd hr (by decide)
  · obtain ⟨pre, hp, hf, hperm, _⟩ := @claim_C10 c9Old c9New ctxPlain dmw.1 dmw.2 (by rw [hr])
    exact ⟨dmw, rfl, pre, hp, hf, hperm⟩

end Reconcile

namespace Reconcile

/-- Full characterization of `updateFirstM`: the list splits at the first
matching element, which is replaced by its update. -/
theorem updateFirstM_char {α : Type} {p : α → Bool} {g : α → Option α} :
    ∀ {l l2 : List α}, updateFirstM p g l = some l2 →
      ∃ (l1 : List α) (a a2 : α) (l3 : List α),
        l = l1 ++ a :: l3 ∧ l2 = l1 ++ a2 :: l3 ∧ p a = true ∧ g a = some a2
          ∧ ∀ x ∈ l1, p x = false := by
  intro l
  induction l with
  | nil => intro l2 h; simp [updateFirstM] at h
  | cons a t ih =>
      intro l2 h
      unfold updateFirstM at h
      by_cases hp : p a = true
      · rw [if_pos hp, Option.map_eq_some'] at h
        obtain ⟨a2, hga, hcons⟩ := h
        exact ⟨[], a, a2, t, rfl, hcons.symm, hp, hga, by simp⟩
      · rw [if_neg hp, Option.map_eq_some'] at h
        obtain ⟨t2, ht, hcons⟩ := h
        obtain ⟨l1, b, b2, l3, hl, hl2, hpb, hgb, hl1⟩ := ih ht
        refine ⟨a :: l1, b, b2, l3, by simp [hl], by simp [← hcons, hl2], hpb, hgb, ?_⟩
        intro x hx
        rcases List.mem_cons.1 hx with rfl | hx
        · simpa using hp
        · exact hl1 x hx

theorem forall2_comp {α : Type} {R S : α → α → Prop} :
    ∀ {l1 l2 l3 : List α}, List.Forall₂ R l1 l2 → List.Forall₂ S l2 l3 →
      List.Forall₂ (fun a c => ∃ b, R a b ∧ S b c) l1 l3
  | [], [], [], _, _ => List.Forall₂.nil
  | _ :: _, _ :: _, _ :: _, List.Forall₂.cons h12 t12, List.Forall₂.cons h23 t23 =>
      List.Forall₂.cons ⟨_, h12, h23⟩ (forall2_comp t12 t23)

theorem forall2_append {α : Type} {R : α → α → Prop} :
    ∀ {l1 l2 l3 l4 : List α}, List.Forall₂ R l1 l2 → List.Forall₂ R l3 l4 →
      List.Forall₂ R (l1 ++ l3) (l2 ++ l4)
  | [], [], _, _, _, h => h
  | _ :: _, _ :: _, _, _, List.Forall₂.cons h12 t12, h => by
      exact List.Forall₂.cons h12 (forall2_append t12 h)

theorem nodup_split_facts {l1 l3 : List Model} {m0 : Model}
    (h : ((l1 ++ m0 :: l3).map Model.name).Nodup) :
    m0.name ∉ l1.map Model.name ∧ m0.name ∉ l3.map Model.name := by
  rw [List.map_append, List.map_cons, List.nodup_append] at h
  obtain ⟨_, h2, h3⟩ := h
  rw [List.nodup_cons] at h2
  exact ⟨fun hmem => h3 hmem (List.mem_cons_self _ _), h2.1⟩

theorem nodup_split_replace {l1 l3 : List Model} {m0 m02 : Model}
    (h : ((l1 ++ m0 :: l3).map Model.name).Nodup)
    (hfresh : ∀ m ∈ l1 ++ m0 :: l3, m.name ≠ m02.name) :
    ((l1 ++ m02 :: l3).map Model.name).Nodup := by
  rw [List.map_append, List.map_cons, List.nodup_append] at h ⊢
  obtain ⟨h1, h2, h3⟩ := h
  rw [List.nodup_cons] at h2
  refine ⟨h1, ?_, ?_⟩
  · rw [List.nodup_cons]
    refine ⟨?_, h2.2⟩
    intro hmem
    rcases List.mem_map.1 hmem with ⟨x, hx, hxn⟩
    exact hfresh x (List.mem_append_right _ (List.mem_cons_of_mem _ hx)) hxn
  · intro a ha hb
    rcases List.mem_cons.1 hb with rfl | hb
    · rcases List.mem_map.1 ha with ⟨x, hx, hxn⟩
      exact hfresh x (List.mem_append_left _ hx) hxn
    · exact h3 ha (List.mem_cons_of_mem _ hb)

theorem applyModelRenames_char :
    ∀ {ch : List (String × String)} {dm dm2 : Datamodel},
      applyModelRenames ch dm = some dm2 →
      (dm.models.map Model.name).Nodup →
      (ch.map Prod.fst).Nodup →
      (∀ e ∈ ch, ∃ m ∈ dm.models, m.name = e.1) →
      (∀ e ∈ ch, ∀ m ∈ dm.models, m.name ≠ e.2) →
      (ch.map Prod.snd).Nodup →
      List.Forall₂ (fun m m2 =>
        (m2 = m ∧ ∀ e ∈ ch, e.1 ≠ m.name)
        ∨ (∃ e ∈ ch, e.1 = m.name ∧ m2 = renModel e m)) dm.models dm2.models
      ∧ (dm2.models.map Model.name).Nodup := by
  intro ch
  induction ch with
  | nil =>
      intro dm dm2 h hnn _ _ _ _
      unfold applyModelRenames applyChain at h
      cases h
      refine ⟨forall2_refl ?_ _, hnn⟩
      intro m
      exact Or.inl ⟨rfl, by simp⟩
  | cons e0 rest ih =>
      intro dm dm2 h hnn hknd hkeys hfresh htnd
      unfold applyModelRenames applyChain at h
      rw [Option.bind_eq_some] at h
      obtain ⟨dm1, hstep, hrest⟩ := h
      unfold modelRenameStep updateModel updateModelM at hstep
      rw [Option.map_eq_some'] at hstep
      obtain ⟨ms1, hup, hdm1⟩ := hstep
      obtain ⟨l1, m0, m02, l3, hsplit, hsplit2, hp0, hg0, hl1⟩ := updateFirstM_char hup
      have hm0name : m0.name = e0.1 := by simpa using hp0
      have hm02 : m02 = renModel e0 m0 := by
        simp only [Option.some.injEq] at hg0
        rw [← hg0]
        rfl
      have hm02name : m02.name = e0.2 := by rw [hm02]; rfl
      have hfresh0 : ∀ m ∈ dm.models, m.name ≠ e0.2 :=
        hfresh e0 (List.mem_cons_self _ _)
      have hnnsplit : ((l1 ++ m0 :: l3).map Model.name).Nodup := by
        rw [← hsplit]
        exact hnn
      have hl3name : ∀ x ∈ l3, x.name ≠ e0.1 := by
        intro x hx hxe
        exact (nodup_split_facts hnnsplit).2
          (hm0name ▸ hxe ▸ List.mem_map_of_mem Model.name hx)
      have hmodels1 : dm1.models = l1 ++ m02 :: l3 := by rw [← hdm1, hsplit2]
      have hnn1 : (dm1.models.map Model.name).Nodup := by
        rw [hmodels1]
        refine nodup_split_replace hnnsplit ?_
        intro m hm
        rw [hm02name]
        exact hfresh0 m (by rw [hsplit]; exact hm)
      have hkeys1 : ∀ e ∈ rest, ∃ m ∈ dm1.models, m.name = e.1 := by
        intro e he
        obtain ⟨m, hm, hmn⟩ := hkeys e (List.mem_cons_of_mem _ he)
        have hne : e.1 ≠ e0.1 := by
          intro hcontra
          rw [List.map_cons, List.nodup_cons] at hknd
          exact hknd.1 (hcontra ▸ List.mem_map_of_mem Prod.fst he)
        rw [hsplit] at hm
        rcases List.mem_append.1 hm with hm | hm
        · exact ⟨m, by rw [hmodels1]; exact List.mem_append_left _ hm, hmn⟩
        · rcases List.mem_cons.1 hm with rfl | hm
          · exact absurd (hmn.symm.trans hm0name) hne
          · exact ⟨m, by
              rw [hmodels1]
              exact List.mem_append_right _ (List.mem_cons_of_mem _ hm), hmn⟩
      have hfresh1 : ∀ e ∈ rest, ∀ m ∈ dm1.models, m.name ≠ e.2 := by
        intro e he m hm
        rw [hmodels1] at hm
        rcases List.mem_append.1 hm with hm | hm
        · exact hfresh e (List.mem_cons_of_mem _ he) m
            (by rw [hsplit]; exact List.mem_append_left _ hm)
        · rcases List.mem_cons.1 hm with rfl | hm
          · rw [hm02name]
            intro hcontra
            rw [List.map_cons, List.nodup_cons] at htnd
            exact htnd.1 (hcontra ▸ List.mem_map_of_mem Prod.snd he)
          · exact hfresh e (List.mem_cons_of_mem _ he) m
              (by rw [hsplit]; exact List.mem_append_right _ (List.mem_cons_of_mem _ hm))
      have hrest2 := ih hrest hnn1
        (by rw [List.map_cons, List.nodup_cons] at hknd; exact hknd.2)
        hkeys1 hfresh1
        (by rw [List.map_cons, List.nodup_cons] at htnd; exact htnd.2)
      have hstepRel : List.Forall₂ (fun m y =>
          (y = m ∧ m.name ≠ e0.1) ∨ (m.name = e0.1 ∧ y = renModel e0 m))
          dm.models dm1.models := by
        rw [hsplit, hmodels1]
        refine forall2_append ?_ (List.Forall₂.cons ?_ ?_)
        · rw [List.forall₂_same]
          intro x hx
          exact Or.inl ⟨rfl, ne_of_beq_false (hl1 x hx)⟩
        · exact Or.inr ⟨hm0name, hm02⟩
        · rw [List.forall₂_same]
          intro x hx
          exact Or.inl ⟨rfl, hl3name x hx⟩
      refine ⟨(forall2_comp hstepRel hrest2.1).imp ?_, hrest2.2⟩
      intro m m2 hcomp
      obtain ⟨y, hsr, hrr⟩ := hcomp
      rcases hsr with ⟨rfl, hne⟩ | ⟨hname, rfl⟩
      · rcases hrr with ⟨rfl, hall⟩ | ⟨e, he, hkey, hren⟩
        · refine Or.inl ⟨rfl, ?_⟩
          intro e he
          rcases List.mem_cons.1 he with rfl | he
          · exact hne.symm
          · exact hall e he
        · exact Or.inr ⟨e, List.mem_cons_of_mem _ he, hkey, hren⟩
      · rcases hrr with ⟨rfl, _⟩ | ⟨e, he, hkey, _⟩
        · exact Or.inr ⟨e0, List.mem_cons_self _ _, hname.symm, rfl⟩
        · exfalso
          have hyname : (renModel e0 m).name = e0.2 := rfl
          rw [hyname] at hkey
          obtain ⟨mm, hmm, hmmn⟩ := hkeys e (List.mem_cons_of_mem _ he)
          exact hfresh0 mm hmm (by rw [hmmn, ← hkey])

theorem RetF_refl (tgt : String) : ∀ f, RetF tgt f f := by
  intro f
  cases f <;> simp [RetF]

theorem RetF_trans (tgt : String) : ∀ a b c, RetF tgt a b → RetF tgt b c → RetF tgt a c := by
  intro a b c hab hbc
  rcases a with sa | ra <;> rcases b with sb | rb <;> simp [RetF] at hab <;>
    rcases c with sc | rc <;> simp [RetF] at hbc ⊢
  · exact hbc.trans hab
  · obtain ⟨hn1, hi1⟩ := hab
    obtain ⟨hn2, hi2⟩ := hbc
    refine ⟨hn2.trans hn1, ?_⟩
    rcases hi1 with hi1 | hi1 <;> rcases hi2 with hi2 | hi2 <;> rw [hi2, hi1] <;> simp

theorem RetM_refl (tgt : String) : ∀ m, RetM tgt m m := by
  intro m
  exact ⟨rfl, rfl, rfl, forall2_refl (RetF_refl tgt) _⟩

theorem RetM_trans (tgt : String) : ∀ a b c, RetM tgt a b → RetM tgt b c → RetM tgt a c := by
  intro a b c hab hbc
  obtain ⟨h1, h2, h3, h4⟩ := hab
  obtain ⟨g1, g2, g3, g4⟩ := hbc
  exact ⟨g1.trans h1, g2.trans h2, g3.trans h3, forall2_trans (RetF_trans tgt) h4 g4⟩

theorem retargetPairs_loose {pairs : List (String × String)} {tgt : String}
    {dm dm2 : Datamodel} (h : retargetPairs pairs tgt dm = some dm2) :
    List.Forall₂ (RetM tgt) dm.models dm2.models := by
  unfold retargetPairs at h
  refine applyChain_forall2 (RetM_refl tgt) (RetM_trans tgt) ?_ h
  intro x d d2 hx
  unfold retargetStep at hx
  refine (updateRelationField_forall2 (RetF_refl tgt) ?_ hx).imp ?_
  · intro r _
    simp [RetF]
  · intro m m2 hm
    obtain ⟨h1, h2, h3⟩ := hm
    exact ⟨h1, h2, (h3.length_eq).symm ▸ h3.length_eq, h3⟩

theorem forall2_map_eq {A B : Type} {R : A → A → Prop} {f : A → B}
    (hf : ∀ a b, R a b → f b = f a) :
    ∀ {l l2 : List A}, List.Forall₂ R l l2 → l2.map f = l.map f := by
  intro l l2 h
  induction h with
  | nil => rfl
  | cons hab _ ih => simp [List.map_cons, ih, hf _ _ hab]

theorem RetF_name_eq {tgt : String} : ∀ a b, RetF tgt a b → Field.name b = Field.name a := by
  intro a b hab
  rcases a with s | r <;> rcases b with s2 | r2 <;> simp [RetF] at hab <;> simp [Field.name]
  · rw [hab]
  · exact hab.1

/-- Names are unchanged by a retarget pass. -/
theorem RetM_name_facts {tgt : String} {m m2 : Model} (h : RetM tgt m m2) :
    m2.name = m.name ∧ m2.fields.map Field.name = m.fields.map Field.name :=
  ⟨h.1, forall2_map_eq RetF_name_eq h.2.2.2⟩

/-- After a single retarget step, in the (unique) model named by the pair,
any relation field bearing the pair's field name points to the new target. -/
theorem retargetStep_fact {tgt : String} {p : String × String} {dm dm1 : Datamodel}
    (hnn : (dm.models.map Model.name).Nodup)
    (hfn : ∀ m ∈ dm.models, (m.fields.map Field.name).Nodup)
    (h : retargetStep tgt p dm = some dm1) :
    ∀ m1 ∈ dm1.models, m1.name = p.1 → ∀ r1 : RelationField,
      Field.relation r1 ∈ m1.fields → r1.name = p.2 →
      r1.relation_info.toModel = tgt := by
  unfold retargetStep updateRelationField updateModelM at h
  rw [Option.map_eq_some'] at h
  obtain ⟨ms, hup, hdm1⟩ := h
  obtain ⟨l1, m0, m2, l3, hl, hl2, hpm, hgm, hl1⟩ := updateFirstM_char hup
  have hm0name : m0.name = p.1 := by simpa using hpm
  rw [Option.map_eq_some'] at hgm
  obtain ⟨fs, hfup, hm2⟩ := hgm
  obtain ⟨fl1, f0, f2, fl3, hfl, hfl2, hpf, hgf, hfl1⟩ := updateFirstM_char hfup
  have hf0rel : f0.isRelation = true ∧ f0.name = p.2 := by
    have := hpf
    simp [Bool.and_eq_true] at this
    exact ⟨this.1, this.2⟩
  obtain ⟨r0, hr0⟩ : ∃ r0, f0 = Field.relation r0 := by
    rcases f0 with s | r
    · simp [Field.isRelation] at hf0rel
    · exact ⟨r, rfl⟩
  subst hr0
  have hf2 : f2 = Field.relation
      { r0 with relation_info := { r0.relation_info with toModel := tgt } } := by
    simpa using hgf.symm
  have hm0mem : m0 ∈ dm.models := by rw [hl]; simp
  have hfnod : (m0.fields.map Field.name).Nodup := hfn m0 hm0mem
  intro m1 hm1 hm1name r1 hr1 hr1name
  rw [← hdm1] at hm1
  simp only at hm1
  rw [hl2] at hm1
  rcases List.mem_append.1 hm1 with hin1 | hin23
  · exact absurd hm1name (ne_of_beq_false (hl1 m1 hin1))
  · rcases List.mem_cons.1 hin23 with rfl | hin3
    · -- m1 is the updated model; its fields are fl1 ++ f2 :: fl3
      rw [← hm2] at hr1
      simp only at hr1
      rw [hfl2] at hr1
      have hnodsplit := hfl ▸ hfnod
      rw [List.map_append, List.map_cons, List.nodup_append] at hnodsplit
      have hr0name : r0.name = p.2 := by simpa [Field.name] using hf0rel.2
      have hname_eq : r1.name = r0.name := by rw [hr1name, hr0name]
      have hnotin1 : r1.name ∉ List.map Field.name fl1 := by
        intro hmem
        refine hnodsplit.2.2 hmem ?_
        rw [hname_eq]
        exact List.mem_cons_self _ _
      have hnotin3 : r1.name ∉ List.map Field.name fl3 := by
        intro hmem
        have hni := (List.nodup_cons.1 hnodsplit.2.1).1
        rw [hname_eq] at hmem
        exact hni hmem
      rcases List.mem_append.1 hr1 with hin | hin
      · exact absurd (List.mem_map_of_mem Field.name hin) hnotin1
      · rcases List.mem_cons.1 hin with heq | hin
        · rw [hf2] at heq
          cases heq
          rfl
        · exact absurd (List.mem_map_of_mem Field.name hin) hnotin3
    · -- m1 further right would duplicate the model name
      rw [hl] at hnn
      rw [List.map_append, List.map_cons, List.nodup_append] at hnn
      have hni := (List.nodup_cons.1 hnn.2.1).1
      have hmem : m1.name ∈ List.map Model.name l3 := List.mem_map_of_mem Model.name hin3
      rw [hm1name, ← hm0name] at hmem
      exact absurd hmem hni

theorem retargetStep_loose {tgt : String} {p : String × String} {dm dm1 : Datamodel}
    (h : retargetStep tgt p dm = some dm1) :
    List.Forall₂ (RetM tgt) dm.models dm1.models := by
  unfold retargetStep at h
  refine (updateRelationField_forall2 (RetF_refl tgt) ?_ h).imp ?_
  · intro r _
    simp [RetF]
  · intro m m2 hm
    obtain ⟨h1, h2, h3⟩ := hm
    exact ⟨h1, h2, (h3.length_eq).symm ▸ h3.length_eq, h3⟩

theorem RetM_nodup_facts {tgt : String} {dm dm1 : Datamodel}
    (h2 : List.Forall₂ (RetM tgt) dm.models dm1.models)
    (hnn : (dm.models.map Model.name).Nodup)
    (hfn : ∀ m ∈ dm.models, (m.fields.map Field.name).Nodup) :
    (dm1.models.map Model.name).Nodup
      ∧ ∀ m1 ∈ dm1.models, (m1.fields.map Field.name).Nodup := by
  constructor
  · rw [forall2_map_eq (R := RetM tgt) (f := Model.name)
      (fun a b hab => (RetM_name_facts hab).1) h2]
    exact hnn
  · intro m1 hm1
    obtain ⟨m, hm, hr⟩ := forall2_mem_right h2 m1 hm1
    rw [(RetM_name_facts hr).2]
    exact hfn m hm

/-- A retarget pass whose pair list covers every relation field pointing at
`n` leaves no relation field pointing at `n` (the new target differing
from `n`). -/
theorem retargetPairs_cover :
    ∀ {pairs : List (String × String)} {dm dm2 : Datamodel} {n tgt : String},
      retargetPairs pairs tgt dm = some dm2 →
      tgt ≠ n →
      (dm.models.map Model.name).Nodup →
      (∀ m ∈ dm.models, (m.fields.map Field.name).Nodup) →
      (∀ m ∈ dm.models, ∀ r : RelationField, Field.relation r ∈ m.fields →
        r.relation_info.toModel = n → (m.name, r.name) ∈ pairs) →
      ∀ m2 ∈ dm2.models, ∀ r2 : RelationField, Field.relation r2 ∈ m2.fields →
        r2.relation_info.toModel ≠ n := by
  intro pairs
  induction pairs with
  | nil =>
      intro dm dm2 n tgt h _ _ _ hcov m2 hm2 r2 hr2 hto
      unfold retargetPairs applyChain at h
      cases h
      exact absurd (hcov m2 hm2 r2 hr2 hto) (List.not_mem_nil _)
  | cons p rest ih =>
      intro dm dm2 n tgt h htn hnn hfn hcov
      unfold retargetPairs applyChain at h
      rw [Option.bind_eq_some] at h
      obtain ⟨dm1, hstep, hrest⟩ := h
      have hloose := retargetStep_loose hstep
      have hnod1 := RetM_nodup_facts hloose hnn hfn
      have hfact := retargetStep_fact hnn hfn hstep
      refine ih hrest htn hnod1.1 hnod1.2 ?_
      intro m1 hm1 r1 hr1 hto1
      obtain ⟨m, hm, hrm⟩ := forall2_mem_right hloose m1 hm1
      obtain ⟨f, hf, hrf⟩ := forall2_mem_right hrm.2.2.2 (Field.relation r1) hr1
      rcases f with sf | rf
      · simp [RetF] at hrf
      · simp only [RetF] at hrf
        obtain ⟨hfname, hfi⟩ := hrf
        rcases hfi with hfi | hfi
        · have hrto : rf.relation_info.toModel = n := by rw [← hfi, hto1]
          have hmemcov := hcov m hm rf hf hrto
          rcases List.mem_cons.1 hmemcov with heqp | hmem
          · exfalso
            have h1name : m1.name = p.1 := by
              rw [hrm.1]
              exact congrArg Prod.fst heqp
            have h1fname : r1.name = p.2 := by
              rw [hfname]
              exact congrArg Prod.snd heqp
            have := hfact m1 hm1 h1name r1 hr1 h1fname
            rw [this] at hto1
            exact htn hto1
          · rw [hrm.1, hfname]
            exact hmem
        · exfalso
          rw [hfi] at hto1
          exact htn hto1

theorem RetM_noTargets {tgt bad : String} {dm dm1 : Datamodel} (hne : tgt ≠ bad)
    (h2 : List.Forall₂ (RetM tgt) dm.models dm1.models)
    (h : noTargets bad dm) : noTargets bad dm1 := by
  intro m1 hm1 r1 hr1
  obtain ⟨m, hm, hrm⟩ := forall2_mem_right h2 m1 hm1
  obtain ⟨f, hf, hrf⟩ := forall2_mem_right hrm.2.2.2 (Field.relation r1) hr1
  rcases f with sf | rf
  · simp [RetF] at hrf
  · simp only [RetF] at hrf
    rcases hrf.2 with hfi | hfi
    · rw [hfi]
      exact h m hm rf hf
    · rw [hfi]
      exact hne

theorem propagate_pres_noTargets :
    ∀ {es : List (String × String)} {dm dm2 : Datamodel} {bad : String},
      propagateModelRenames es dm = some dm2 →
      (∀ e ∈ es, e.2 ≠ bad) →
      noTargets bad dm → noTargets bad dm2 := by
  intro es
  induction es with
  | nil =>
      intro dm dm2 bad h _ hn
      unfold propagateModelRenames applyChain at h
      cases h
      exact hn
  | cons e0 rest ih =>
      intro dm dm2 bad h hts hn
      unfold propagateModelRenames applyChain at h
      rw [Option.bind_eq_some] at h
      obtain ⟨dm1, hstep, hrest⟩ := h
      unfold propagateStep at hstep
      have hloose := retargetPairs_loose hstep
      refine ih hrest (fun e he => hts e (List.mem_cons_of_mem _ he)) ?_
      exact RetM_noTargets (hts e0 (List.mem_cons_self _ _)) hloose hn

theorem findRelationFieldsForModel_cov {dm : Datamodel} {n : String} :
    ∀ m ∈ dm.models, ∀ r : RelationField, Field.relation r ∈ m.fields →
      r.relation_info.toModel = n →
      (m.name, r.name) ∈ findRelationFieldsForModel dm n := by
  intro m hm r hr hto
  unfold findRelationFieldsForModel
  refine List.mem_flatMap.2 ⟨m, hm, ?_⟩
  refine List.mem_filterMap.2 ⟨r, ?_, by simp [hto]⟩
  unfold Model.relationFields
  exact List.mem_filterMap.2 ⟨Field.relation r, hr, rfl⟩

theorem propagateStep_clear {e : String × String} {dm dm1 : Datamodel}
    (hne : e.2 ≠ e.1)
    (hnn : (dm.models.map Model.name).Nodup)
    (hfn : ∀ m ∈ dm.models, (m.fields.map Field.name).Nodup)
    (h : propagateStep e dm = some dm1) : noTargets e.1 dm1 := by
  unfold propagateStep at h
  intro m1 hm1 r1 hr1
  exact retargetPairs_cover h hne hnn hfn
    (fun m hm r hr hto => findRelationFieldsForModel_cov m hm r hr hto) m1 hm1 r1 hr1

/-- Propagating the collected renames clears every relation target equal to a
renamed-away model name, provided no entry reintroduces it as a target. -/
theorem propagateModelRenames_clear :
    ∀ {es : List (String × String)} {dm dm2 : Datamodel} {bad : String},
      propagateModelRenames es dm = some dm2 →
      (dm.models.map Model.name).Nodup →
      (∀ m ∈ dm.models, (m.fields.map Field.name).Nodup) →
      (∀ e ∈ es, e.2 ≠ bad) →
      (∃ e ∈ es, e.1 = bad) →
      noTargets bad dm2 := by
  intro es
  induction es with
  | nil =>
      intro dm dm2 bad _ _ _ _ hex
      obtain ⟨e, he, _⟩ := hex
      exact absurd he (List.not_mem_nil _)
  | cons e0 rest ih =>
      intro dm dm2 bad h hnn hfn hts hex
      unfold propagateModelRenames applyChain at h
      rw [Option.bind_eq_some] at h
      obtain ⟨dm1, hstep, hrest⟩ := h
      have hloose : List.Forall₂ (RetM e0.2) dm.models dm1.models := by
        unfold propagateStep at hstep
        exact retargetPairs_loose hstep
      have hnod1 := RetM_nodup_facts hloose hnn hfn
      by_cases he0 : e0.1 = bad
      · have hclear : noTargets bad dm1 := by
          rw [← he0]
          exact propagateStep_clear
            (by rw [he0]; exact hts e0 (List.mem_cons_self _ _)) hnn hfn hstep
        exact propagate_pres_noTargets hrest
          (fun e he => hts e (List.mem_cons_of_mem _ he)) hclear
      · obtain ⟨e, he, he1⟩ := hex
        rcases List.mem_cons.1 he with rfl | he
        · exact absurd he1 he0
        · exact ih hrest hnod1.1 hnod1.2
            (fun e2 he2 => hts e2 (List.mem_cons_of_mem _ he2)) ⟨e, he, he1⟩

/-- Membership in the phase-1 collection, unfolded to the three conditions
of the source loop. -/
theorem modelCollect_mem {old dm : Datamodel} {e : String × String} :
    e ∈ modelCollect old dm ↔
      ∃ m ∈ dm.models, m.name = e.1
        ∧ ∃ M, findModelDbName old m.resolvedName = some M
          ∧ M.name = e.2 ∧ findModel dm M.name = none := by
  unfold modelCollect
  rw [List.mem_filterMap]
  constructor
  · rintro ⟨m, hm, hf⟩
    rcases hM : findModelDbName old m.resolvedName with _ | M
    · rw [hM] at hf
      simp at hf
    · rw [hM] at hf
      simp only at hf
      by_cases hfind : (findModel dm M.name).isNone = true
      · rw [if_pos hfind, Option.some.injEq] at hf
        subst hf
        exact ⟨m, hm, rfl, M, hM, rfl, Option.isNone_iff_eq_none.1 hfind⟩
      · rw [if_neg hfind] at hf
        exact absurd hf (by simp)
  · rintro ⟨m, hm, hname, M, hM, hMname, hfind⟩
    refine ⟨m, hm, ?_⟩
    rw [hM]
    simp only
    rw [if_pos (by rw [hfind]; rfl), hname, hMname]

theorem filterMap_fst_sublist {A B C : Type} {f : A → Option (B × C)} {g : A → B}
    (hf : ∀ a p, f a = some p → p.1 = g a) :
    ∀ l : List A, ((l.filterMap f).map Prod.fst).Sublist (l.map g) := by
  intro l
  induction l with
  | nil => simp
  | cons a t ih =>
      rcases hfa : f a with _ | p
      · rw [List.filterMap_cons_none hfa, List.map_cons]
        exact ih.cons _
      · rw [List.filterMap_cons_some hfa, List.map_cons, List.map_cons, hf a p hfa]
        exact ih.cons₂ _

/-- The keys of the phase-1 collection are drawn (in order, without
repetition of position) from the new datamodel's model names. -/
theorem modelCollect_keys_sublist {old dm : Datamodel} :
    ((modelCollect old dm).map Prod.fst).Sublist (dm.models.map Model.name) := by
  unfold modelCollect
  refine filterMap_fst_sublist ?_ dm.models
  intro m p hp
  rcases hM : findModelDbName old m.resolvedName with _ | M
  · rw [hM] at hp
    simp at hp
  · rw [hM] at hp
    simp only at hp
    by_cases hfind : (findModel dm M.name).isNone = true
    · rw [if_pos hfind, Option.some.injEq] at hp
      rw [← hp]
    · rw [if_neg hfind] at hp
      exact absurd hp (by simp)

theorem findModelDbName_spec {dm : Datamodel} {d : String} {M : Model}
    (h : findModelDbName dm d = some M) : M ∈ dm.models ∧ M.resolvedName = d := by
  unfold findModelDbName at h
  exact ⟨List.mem_of_find?_eq_some h, by simpa using List.find?_some h⟩

/-- Adopted old names in the phase-1 collection are pairwise distinct when
the new resolved names and the old logical names are each duplicate-free. -/
theorem modelCollect_targets_nodup {old dm : Datamodel}
    (hres : (dm.models.map Model.resolvedName).Nodup)
    (hold : (old.models.map Model.name).Nodup) :
    ((modelCollect old dm).map Prod.snd).Nodup := by
  rw [List.Nodup, List.pairwise_map]
  unfold modelCollect
  rw [List.pairwise_filterMap]
  have hpw : List.Pairwise (fun m m2 : Model => m.resolvedName ≠ m2.resolvedName)
      dm.models := by
    rw [List.Nodup, List.pairwise_map] at hres
    exact hres
  refine hpw.imp_of_mem ?_
  intro m m2 hm hm2 hne p hp p2 hp2
  rcases hM : findModelDbName old m.resolvedName with _ | M
  · rw [hM] at hp
    simp at hp
  rcases hM2 : findModelDbName old m2.resolvedName with _ | M2
  · rw [hM2] at hp2
    simp at hp2
  rw [hM] at hp
  rw [hM2] at hp2
  simp only at hp hp2
  by_cases hf1 : (findModel dm M.name).isNone = true
  · by_cases hf2 : (findModel dm M2.name).isNone = true
    · rw [if_pos hf1, Option.mem_def, Option.some.injEq] at hp
      rw [if_pos hf2, Option.mem_def, Option.some.injEq] at hp2
      rw [← hp, ← hp2]
      simp only
      intro hMeq
      have hs1 := findModelDbName_spec hM
      have hs2 := findModelDbName_spec hM2
      have hMM : M = M2 := List.inj_on_of_nodup_map hold hs1.1 hs2.1 hMeq
      rw [hMM] at hs1
      exact hne (hs1.2 ▸ hs2.2 ▸ rfl)
    · rw [if_neg hf2] at hp2
      exact absurd hp2 (by simp)
  · rw [if_neg hf1] at hp
    exact absurd hp (by simp)

theorem findModel_none {dm : Datamodel} {n : String} (h : findModel dm n = none) :
    ∀ m ∈ dm.models, m.name ≠ n := by
  unfold findModel at h
  intro m hm
  have := List.find?_eq_none.1 h m hm
  simpa using this

theorem propagate_pres_model {es : List (String × String)} {dm dm2 : Datamodel}
    (h : propagateModelRenames es dm = some dm2) :
    List.Forall₂ (fun m m2 => m2.name = m.name ∧ m2.database_name = m.database_name)
      dm.models dm2.models := by
  unfold propagateModelRenames at h
  refine applyChain_forall2
    (R := fun m m2 => m2.name = m.name ∧ m2.database_name = m.database_name)
    (fun m => ⟨rfl, rfl⟩) ?_ ?_ h
  · intro a b c hab hbc
    exact ⟨hbc.1.trans hab.1, hbc.2.trans hab.2⟩
  · intro e d d2 hx
    unfold propagateStep at hx
    exact (retargetPairs_loose hx).imp (fun a b hm => ⟨hm.1, hm.2.1⟩)

theorem forall2_split_right {α : Type} {R : α → α → Prop} :
    ∀ {l1 : List α} {b : α} {l3 a : List α}, List.Forall₂ R a (l1 ++ b :: l3) →
      ∃ a1 a0 a3, a = a1 ++ a0 :: a3 ∧ List.Forall₂ R a1 l1 ∧ R a0 b
        ∧ List.Forall₂ R a3 l3 := by
  intro l1
  induction l1 with
  | nil =>
      intro b l3 a h
      cases h with
      | cons hr ht => exact ⟨[], _, _, rfl, List.Forall₂.nil, hr, ht⟩
  | cons c l1t ih =>
      intro b l3 a h
      cases h with
      | cons hr ht =>
          obtain ⟨a1, a0, a3, rfl, h1, h0, h3⟩ := ih ht
          exact ⟨_ :: a1, a0, a3, rfl, List.Forall₂.cons hr h1, h0, h3⟩

theorem forall2_mem_imp {α β : Type} {R S : α → β → Prop} :
    ∀ {l : List α} {l2 : List β}, List.Forall₂ R l l2 →
      (∀ a b, a ∈ l → b ∈ l2 → R a b → S a b) → List.Forall₂ S l l2 := by
  intro l l2 h
  induction h with
  | nil => intro _; exact List.Forall₂.nil
  | cons hr ht ih =>
      intro hs
      refine List.Forall₂.cons
        (hs _ _ (List.mem_cons_self _ _) (List.mem_cons_self _ _) hr) ?_
      exact ih (fun a b ha hb => hs a b (List.mem_cons_of_mem _ ha) (List.mem_cons_of_mem _ hb))

theorem PModel_refl (n tgt : String) : ∀ m, PModel n tgt m m :=
  fun m => ⟨rfl, rfl, forall2_refl (R := PartialF n tgt) (fun f => Or.inl rfl) m.fields⟩

/-- A retarget pass after the fact: provided every pair of the list resolves
(in the pass's starting tree) to a relation field that targeted the cleared
name, every field is either untouched or flipped from the cleared name to
the new target. -/
theorem retargetPairs_flip :
    ∀ {pairs : List (String × String)} {dm0 dm dm2 : Datamodel} {n tgt : String},
      retargetPairs pairs tgt dm = some dm2 →
      (∀ p ∈ pairs, ∀ m0 ∈ dm0.models, m0.name = p.1 →
        ∀ r0 : RelationField, Field.relation r0 ∈ m0.fields → r0.name = p.2 →
          r0.relation_info.toModel = n) →
      List.Forall₂ (PModel n tgt) dm0.models dm.models →
      List.Forall₂ (PModel n tgt) dm0.models dm2.models := by
  intro pairs
  induction pairs with
  | nil =>
      intro dm0 dm dm2 n tgt h _ hinv
      unfold retargetPairs applyChain at h
      cases h
      exact hinv
  | cons p rest ih =>
      intro dm0 dm dm2 n tgt h hV hinv
      unfold retargetPairs applyChain at h
      rw [Option.bind_eq_some] at h
      obtain ⟨dm1, hstep, hrest⟩ := h
      refine ih hrest (fun q hq => hV q (List.mem_cons_of_mem _ hq)) ?_
      unfold retargetStep updateRelationField updateModelM at hstep
      rw [Option.map_eq_some'] at hstep
      obtain ⟨ms, hup, hdm1⟩ := hstep
      obtain ⟨L1, mA, mB, L3, hdmsplit, hmssplit, hpm, hgm, _⟩ := updateFirstM_char hup
      have hmAname : mA.name = p.1 := by simpa using hpm
      rw [Option.map_eq_some'] at hgm
      obtain ⟨fs, hfup, hmB⟩ := hgm
      obtain ⟨F1, fA, fB, F3, hfsplit, hfssplit, hpf, hgf, _⟩ := updateFirstM_char hfup
      have hfArel : fA.isRelation = true ∧ fA.name = p.2 := by
        have := hpf
        simp [Bool.and_eq_true] at this
        exact ⟨this.1, this.2⟩
      obtain ⟨rA, hrA⟩ : ∃ rA, fA = Field.relation rA := by
        rcases fA with s | r
        · simp [Field.isRelation] at hfArel
        · exact ⟨r, rfl⟩
      subst hrA
      have hfB : fB = Field.relation
          { rA with relation_info := { rA.relation_info with toModel := tgt } } := by
        simpa using hgf.symm
      rw [hdmsplit] at hinv
      obtain ⟨A1, a0, A3, hA, hA1, hA0, hA3⟩ := forall2_split_right hinv
      have ha0mem : a0 ∈ dm0.models := by
        rw [hA]
        simp
      obtain ⟨hA0n, hA0d, hA0f⟩ := hA0
      rw [hfsplit] at hA0f
      obtain ⟨B1, b0, B3, hB, hB1, hB0, hB3⟩ := forall2_split_right hA0f
      have hB0new : PartialF n tgt b0 fB := by
        rcases hB0 with hB0 | ⟨r, hb0r, hton, hflip⟩
        · -- untouched so far: b0 is the relation field `rA` of the start tree
          have hb0mem2 : Field.relation rA ∈ a0.fields := by
            rw [hB, ← hB0]
            simp
          have hton : rA.relation_info.toModel = n := by
            refine hV p (List.mem_cons_self _ _) a0 ha0mem ?_ rA hb0mem2 hfArel.2
            rw [← hA0n, hmAname]
          exact Or.inr ⟨rA, hB0.symm, hton, hfB⟩
        · -- already flipped: flipping again is the identity
          have hrAval : rA = { r with relation_info :=
              { r.relation_info with toModel := tgt } } := by
            injection hflip
          refine Or.inr ⟨r, hb0r, hton, ?_⟩
          rw [hfB, hrAval]
      rw [← hdm1, hmssplit, hA]
      simp only
      refine forall2_append hA1 (List.Forall₂.cons ?_ hA3)
      refine ⟨?_, ?_, ?_⟩
      · rw [← hmB]
        simp only
        exact hA0n
      · rw [← hmB]
        simp only
        exact hA0d
      · rw [← hmB]
        simp only
        rw [hfssplit, hB]
        exact forall2_append hB1 (List.Forall₂.cons hB0new hB3)

/-- Under duplicate-free model and field names, a collected pair resolves
uniquely: any relation field carrying the pair's names targets the cleared
model. -/
theorem pairs_V {dm : Datamodel} {n : String}
    (hnn : (dm.models.map Model.name).Nodup)
    (hfn : ∀ m ∈ dm.models, (m.fields.map Field.name).Nodup) :
    ∀ p ∈ findRelationFieldsForModel dm n, ∀ m0 ∈ dm.models, m0.name = p.1 →
      ∀ r0 : RelationField, Field.relation r0 ∈ m0.fields → r0.name = p.2 →
        r0.relation_info.toModel = n := by
  intro p hp m0 hm0 hm0n r0 hr0 hr0n
  unfold findRelationFieldsForModel at hp
  obtain ⟨m, hm, hpin⟩ := List.mem_flatMap.1 hp
  obtain ⟨rf, hrf, hcond⟩ := List.mem_filterMap.1 hpin
  have hto : rf.relation_info.toModel = n ∧ p = (m.name, rf.name) := by
    by_cases hc : (rf.relation_info.toModel == n) = true
    · rw [if_pos hc, Option.some.injEq] at hcond
      exact ⟨by simpa using hc, hcond.symm⟩
    · rw [if_neg hc] at hcond
      exact absurd hcond (by simp)
  have hmm : m0 = m := by
    refine List.inj_on_of_nodup_map hnn hm0 hm ?_
    rw [hm0n, hto.2]
  have hrfmem : Field.relation rf ∈ m.fields := by
    unfold Model.relationFields at hrf
    obtain ⟨f, hf, hfr⟩ := List.mem_filterMap.1 hrf
    rcases f with s | r
    · simp at hfr
    · simp only [Option.some.injEq] at hfr
      rw [← hfr]
      exact hf
  have hr0rf : Field.relation r0 = Field.relation rf := by
    have hnod := hfn m hm
    rw [hmm] at hr0
    refine List.inj_on_of_nodup_map hnod hr0 hrfmem ?_
    show r0.name = rf.name
    rw [hr0n, hto.2]
  have : r0 = rf := by injection hr0rf
  rw [this]
  exact hto.1

theorem MF_comp {P Q : Field → Field → Prop} {l1 l2 l3 : List Model}
    (h12 : List.Forall₂ (MF P) l1 l2) (h23 : List.Forall₂ (MF Q) l2 l3) :
    List.Forall₂ (MF (fun a c => ∃ b, P a b ∧ Q b c)) l1 l3 := by
  refine (forall2_comp h12 h23).imp ?_
  intro a c hac
  obtain ⟨b, hab, hbc⟩ := hac
  exact ⟨hbc.1.trans hab.1, forall2_comp hab.2 hbc.2⟩

theorem propagateStep_PModel {e : String × String} {dm dm1 : Datamodel}
    (hnn : (dm.models.map Model.name).Nodup)
    (hfn : ∀ m ∈ dm.models, (m.fields.map Field.name).Nodup)
    (h : propagateStep e dm = some dm1) :
    List.Forall₂ (PModel e.1 e.2) dm.models dm1.models := by
  unfold propagateStep at h
  exact retargetPairs_flip h (pairs_V hnn hfn)
    (forall2_refl (PModel_refl e.1 e.2) dm.models)

theorem PModel_keep {n tgt kept : String} (hne : n ≠ kept) {m m2 : Model}
    (h : PModel n tgt m m2) : MF (KeepT kept) m m2 := by
  refine ⟨h.1, h.2.2.imp ?_⟩
  intro f f2 hf r hfr hto
  rcases hf with hf | ⟨r0, hr0, hton, hflip⟩
  · exact ⟨r, by rw [hf, hfr], hto⟩
  · exfalso
    rw [hfr] at hr0
    have : r = r0 := by injection hr0
    rw [this, hton] at hto
    exact hne hto

/-- Across a whole propagate run, a target equal to no rename key is kept,
positionally, in every field. -/
theorem propagate_keep :
    ∀ {es : List (String × String)} {dm dm2 : Datamodel} {kept : String},
      propagateModelRenames es dm = some dm2 →
      (dm.models.map Model.name).Nodup →
      (∀ m ∈ dm.models, (m.fields.map Field.name).Nodup) →
      (∀ e ∈ es, e.1 ≠ kept) →
      List.Forall₂ (MF (KeepT kept)) dm.models dm2.models := by
  intro es
  induction es with
  | nil =>
      intro dm dm2 kept h _ _ _
      unfold propagateModelRenames applyChain at h
      cases h
      refine forall2_refl ?_ dm.models
      intro m
      exact ⟨rfl, forall2_refl (R := KeepT kept)
        (fun f r hfr hto => ⟨r, hfr, hto⟩) m.fields⟩
  | cons e0 rest ih =>
      intro dm dm2 kept h hnn hfn hks
      unfold propagateModelRenames applyChain at h
      rw [Option.bind_eq_some] at h
      obtain ⟨dm1, hstep, hrest⟩ := h
      have hp := propagateStep_PModel hnn hfn hstep
      have hloose : List.Forall₂ (RetM e0.2) dm.models dm1.models := by
        unfold propagateStep at hstep
        exact retargetPairs_loose hstep
      have hnod1 := RetM_nodup_facts hloose hnn hfn
      have h1 : List.Forall₂ (MF (KeepT kept)) dm.models dm1.models :=
        hp.imp (fun a b hab => PModel_keep (hks e0 (List.mem_cons_self _ _)) hab)
      have h2 := ih hrest hnod1.1 hnod1.2
        (fun e he => hks e (List.mem_cons_of_mem _ he))
      refine (MF_comp h1 h2).imp ?_
      intro a c hac
      refine ⟨hac.1, hac.2.imp ?_⟩
      intro f f2 hf r hfr hto
      obtain ⟨g, hfg, hgf2⟩ := hf
      obtain ⟨r1, hg1, hto1⟩ := hfg r hfr hto
      exact hgf2 r1 hg1 hto1

/-- Across a whole propagate run containing the entry `(bad, tgt)`: every
field that targeted `bad` ends up targeting `tgt`, provided keys are
duplicate-free, no entry re-introduces `bad` as a target
(targets are old names), and no key equals `tgt` (the adopted name is
fresh). -/
theorem propagate_flip_one :
    ∀ {es : List (String × String)} {dm dm2 : Datamodel} {bad tgt : String},
      propagateModelRenames es dm = some dm2 →
      (dm.models.map Model.name).Nodup →
      (∀ m ∈ dm.models, (m.fields.map Field.name).Nodup) →
      (es.map Prod.fst).Nodup →
      (bad, tgt) ∈ es →
      tgt ≠ bad →
      (∀ e ∈ es, e.1 ≠ tgt) →
      List.Forall₂ (MF (FlipT bad tgt)) dm.models dm2.models := by
  intro es
  induction es with
  | nil =>
      intro dm dm2 bad tgt _ _ _ _ hmem _ _
      exact absurd hmem (List.not_mem_nil _)
  | cons e0 rest ih =>
      intro dm dm2 bad tgt h hnn hfn hknd hmem htb hkt
      unfold propagateModelRenames applyChain at h
      rw [Option.bind_eq_some] at h
      obtain ⟨dm1, hstep, hrest⟩ := h
      have hp := propagateStep_PModel hnn hfn hstep
      have hloose : List.Forall₂ (RetM e0.2) dm.models dm1.models := by
        unfold propagateStep at hstep
        exact retargetPairs_loose hstep
      have hnod1 := RetM_nodup_facts hloose hnn hfn
      rcases List.mem_cons.1 hmem with heq | hmem
      · -- this pass performs the flip; the rest keeps it
        have hclear : noTargets e0.1 dm1 :=
          propagateStep_clear (by rw [← heq]; exact htb) hnn hfn hstep
        have hflip : List.Forall₂ (MF (FlipT bad tgt)) dm.models dm1.models := by
          refine forall2_mem_imp hp ?_
          intro m m1 hm hm1 hpm
          refine ⟨hpm.1, forall2_mem_imp hpm.2.2 ?_⟩
          intro f f1 hfm hf1m hpf r hfr hto
          rcases hpf with hpf | ⟨r0, hr0, hton, hfl⟩
          · exfalso
            rw [hpf, hfr] at hf1m
            refine hclear m1 hm1 r hf1m ?_
            rw [hto, ← heq]
          · rw [hfr] at hr0
            have hrr0 : r = r0 := by injection hr0
            refine ⟨{ r0 with relation_info :=
              { r0.relation_info with toModel := e0.2 } }, hfl, ?_⟩
            rw [← heq]
        have hkeep : List.Forall₂ (MF (KeepT tgt)) dm1.models dm2.models :=
          propagate_keep hrest hnod1.1 hnod1.2
            (fun e he => hkt e (List.mem_cons_of_mem _ he))
        refine (MF_comp hflip hkeep).imp ?_
        intro a c hac
        refine ⟨hac.1, hac.2.imp ?_⟩
        intro f f2 hf r hfr hto
        obtain ⟨g, hfg, hgf2⟩ := hf
        obtain ⟨r1, hg1, hto1⟩ := hfg r hfr hto
        exact hgf2 r1 hg1 hto1
      · -- the flip happens later; this pass leaves `bad`-targeting fields alone
        have hne : e0.1 ≠ bad := by
          rw [List.map_cons, List.nodup_cons] at hknd
          intro hcontra
          refine hknd.1 ?_
          rw [hcontra]
          exact List.mem_map_of_mem Prod.fst hmem
        have hkeepbad : List.Forall₂ (MF (KeepT bad)) dm.models dm1.models :=
          hp.imp (fun a b hab => PModel_keep hne hab)
        have h2 := ih hrest hnod1.1 hnod1.2
          (by rw [List.map_cons, List.nodup_cons] at hknd; exact hknd.2)
          hmem htb (fun e he => hkt e (List.mem_cons_of_mem _ he))
        refine (MF_comp hkeepbad h2).imp ?_
        intro a c hac
        refine ⟨hac.1, hac.2.imp ?_⟩
        intro f f2 hf r hfr hto
        obtain ⟨g, hfg, hgf2⟩ := hf
        obtain ⟨r1, hg1, hto1⟩ := hfg r hfr hto
        exact hgf2 r1 hg1 hto1

theorem MFields_comp {P Q : Field → Field → Prop} {l1 l2 l3 : List Model}
    (h12 : List.Forall₂ (MFields P) l1 l2) (h23 : List.Forall₂ (MFields Q) l2 l3) :
    List.Forall₂ (MFields (fun a c => ∃ b, P a b ∧ Q b c)) l1 l3 := by
  refine (forall2_comp h12 h23).imp ?_
  intro a c hac
  obtain ⟨b, hab, hbc⟩ := hac
  exact forall2_comp hab hbc

/-- Phase 1 on a well-formed pair of trees: the matched new model adopts the
old logical name and gains the database mapping, afterwards no relation
descriptor still targets the new model's pre-rename name, and every field
that targeted the pre-rename name now targets the adopted one. -/
theorem phaseModels_adopt {old new : Datamodel} {s1 : Datamodel × List (String × String)}
    {X M : Model} {D : String}
    (h : phaseModels old new = some s1)
    (hX : X ∈ new.models) (hXres : X.resolvedName = D)
    (hM : findModelDbName old D = some M)
    (hfresh : findModel new M.name = none)
    (hold5 : ∀ o ∈ old.models, o.name ≠ X.name)
    (h6 : (new.models.map Model.name).Nodup)
    (h7 : ∀ m ∈ new.models, (m.fields.map Field.name).Nodup)
    (h8 : (new.models.map Model.resolvedName).Nodup)
    (h9 : (old.models.map Model.name).Nodup) :
    (∃ m2 ∈ s1.1.models, m2.name = M.name ∧ m2.database_name = some D)
      ∧ noTargets X.name s1.1
      ∧ List.Forall₂ (MFields (FlipT X.name M.name)) new.models s1.1.models := by
  unfold phaseModels at h
  rw [Option.bind_eq_some] at h
  obtain ⟨dm1, h1, h⟩ := h
  rw [Option.map_eq_some'] at h
  obtain ⟨dm2, h2, hp⟩ := h
  have heX : (X.name, M.name) ∈ modelCollect old new :=
    modelCollect_mem.2 ⟨X, hX, rfl, M, by rw [hXres]; exact hM, rfl, hfresh⟩
  have hkeys : ∀ e ∈ modelCollect old new, ∃ m ∈ new.models, m.name = e.1 := by
    intro e he
    obtain ⟨m, hm, hname, _⟩ := modelCollect_mem.1 he
    exact ⟨m, hm, hname⟩
  have hfresh2 : ∀ e ∈ modelCollect old new, ∀ m ∈ new.models, m.name ≠ e.2 := by
    intro e he m hm
    obtain ⟨m0, _, _, M0, _, hM0name, hf0⟩ := modelCollect_mem.1 he
    rw [← hM0name]
    exact findModel_none hf0 m hm
  have hknd : ((modelCollect old new).map Prod.fst).Nodup :=
    modelCollect_keys_sublist.nodup h6
  have htnd := modelCollect_targets_nodup h8 h9
  have hchar := applyModelRenames_char h1 h6 hknd hkeys hfresh2 htnd
  have htargets_old : ∀ e ∈ modelCollect old new, ∃ o ∈ old.models, o.name = e.2 := by
    intro e he
    obtain ⟨_, _, _, M0, hM0, hM0name, _⟩ := modelCollect_mem.1 he
    exact ⟨M0, (findModelDbName_spec hM0).1, hM0name⟩
  have hbadt : ∀ e ∈ modelCollect old new, e.2 ≠ X.name := by
    intro e he
    obtain ⟨o, ho, hon⟩ := htargets_old e he
    rw [← hon]
    exact hold5 o ho
  have h7d1 : ∀ m1 ∈ dm1.models, (m1.fields.map Field.name).Nodup := by
    intro m1 hm1
    obtain ⟨m, hm, hrel⟩ := forall2_mem_right hchar.1 m1 hm1
    have hfe : m1.fields = m.fields := by
      rcases hrel with ⟨rfl, _⟩ | ⟨e, _, _, rfl⟩
      · rfl
      · rfl
    rw [hfe]
    exact h7 m hm
  obtain ⟨m1, hm1, hrel⟩ := forall2_mem_left hchar.1 X hX
  have hm1fact : m1.name = M.name ∧ m1.database_name = some D := by
    rcases hrel with ⟨_, hnone⟩ | ⟨e, he, hkey, hren⟩
    · exact absurd rfl (hnone _ heX)
    · have heq : e = (X.name, M.name) :=
        List.inj_on_of_nodup_map hknd he heX (by rw [hkey])
      rw [heq] at hren
      constructor
      · rw [hren]
        rfl
      · rw [hren]
        show (if X.database_name.isNone then some (X.name, M.name).1
          else X.database_name) = some D
        rcases hdb : X.database_name with _ | d
        · have hD : D = X.name := by
            rw [← hXres]
            unfold Model.resolvedName
            rw [hdb]
            rfl
          simp [hdb, hD]
        · have hD : D = d := by
            rw [← hXres]
            unfold Model.resolvedName
            rw [hdb]
            rfl
          simp [hdb, hD]
  have hclear : noTargets X.name dm2 :=
    propagateModelRenames_clear h2 hchar.2 h7d1 hbadt ⟨(X.name, M.name), heX, rfl⟩
  have hMX : M.name ≠ X.name := hold5 M (findModelDbName_spec hM).1
  have hkt : ∀ e ∈ modelCollect old new, e.1 ≠ M.name := by
    intro e he
    obtain ⟨m, hm, hname⟩ := hkeys e he
    rw [← hname]
    exact findModel_none hfresh m hm
  have hflipprop : List.Forall₂ (MFields (FlipT X.name M.name)) dm1.models dm2.models :=
    (propagate_flip_one h2 hchar.2 h7d1 hknd heX hMX hkt).imp (fun a b hab => hab.2)
  have hEqf : List.Forall₂ (MFields Eq) new.models dm1.models := by
    refine hchar.1.imp ?_
    intro m m1 hr
    have hfe : m1.fields = m.fields := by
      rcases hr with ⟨rfl, _⟩ | ⟨e, _, _, rfl⟩
      · rfl
      · rfl
    unfold MFields
    rw [hfe]
    exact forall2_refl (fun f => rfl) m.fields
  have hflipall : List.Forall₂ (MFields (FlipT X.name M.name)) new.models dm2.models := by
    refine (MFields_comp hEqf hflipprop).imp ?_
    intro a c hac
    refine hac.imp ?_
    intro f f2 hf
    obtain ⟨g, hfg, hgf2⟩ := hf
    rw [hfg]
    exact hgf2
  have hprop := propagate_pres_model h2
  obtain ⟨m2, hm2, hm2f⟩ := forall2_mem_left hprop m1 hm1
  refine ⟨⟨m2, by rw [← hp]; exact hm2, ?_, ?_⟩, ?_, ?_⟩
  · rw [hm2f.1, hm1fact.1]
  · rw [hm2f.2, hm1fact.2]
  · rw [← hp]
    exact hclear
  · rw [← hp]
    exact hflipall

theorem Pres_noTargets {bad : String} {l l2 : List Model}
    (h2 : List.Forall₂ Pres l l2)
    (h : ∀ m ∈ l, ∀ r : RelationField, Field.relation r ∈ m.fields →
      r.relation_info.toModel ≠ bad) :
    ∀ m2 ∈ l2, ∀ r2 : RelationField, Field.relation r2 ∈ m2.fields →
      r2.relation_info.toModel ≠ bad := by
  intro m2 hm2 r2 hr2
  obtain ⟨m, hm, hrm⟩ := forall2_mem_right h2 m2 hm2
  obtain ⟨f, hf, hrf⟩ := forall2_mem_right hrm.2.2 (Field.relation r2) hr2
  rcases f with sf | rf
  · simp [FPres] at hrf
  · simp only [FPres] at hrf
    rw [hrf]
    exact h m hm rf hf

theorem Pres_exists_db {a : String} {b : Option String} {l l2 : List Model}
    (h2 : List.Forall₂ Pres l l2)
    (h : ∃ m ∈ l, m.name = a ∧ m.database_name = b) :
    ∃ m2 ∈ l2, m2.name = a ∧ m2.database_name = b := by
  obtain ⟨m, hm, h1, hdbe⟩ := h
  obtain ⟨m2, hm2, hrm⟩ := forall2_mem_left h2 m hm
  exact ⟨m2, hm2, hrm.1.trans h1, hrm.2.1.trans hdbe⟩

theorem FlipT_FPres {bad tgt : String} {a b c : Field}
    (h1 : FlipT bad tgt a b) (h2 : FPres b c) : FlipT bad tgt a c := by
  intro r har hto
  obtain ⟨r2, hb, hto2⟩ := h1 r har hto
  rcases c with sc | rc
  · rw [hb] at h2
    simp [FPres] at h2
  · rw [hb] at h2
    simp only [FPres] at h2
    exact ⟨rc, rfl, h2.trans hto2⟩

/-- Claim C1 (amended): with the match conditions strengthened so that no
new model at all (the matched one included) carries the old logical name,
no old model carries the matched model's pre-rename name, and model names,
resolved names and per-model field names are duplicate-free, `enrich`
adopts the old logical name together with a database mapping, leaves no
relation descriptor targeting the pre-rename name, and every relation
descriptor that targeted the pre-rename name now targets the adopted
logical name. -/
theorem claim_C1 {old new : Datamodel} {ctx : IntrospectionContext}
    {dm : Datamodel} {w : List Warning} {X M : Model} {D : String}
    (h : enrich old new ctx = some (dm, w))
    (hX : X ∈ new.models) (hXres : X.resolvedName = D)
    (hM : findModelDbName old D = some M)
    (hfresh : findModel new M.name = none)
    (hold5 : ∀ o ∈ old.models, o.name ≠ X.name)
    (h6 : (new.models.map Model.name).Nodup)
    (h7 : ∀ m ∈ new.models, (m.fields.map Field.name).Nodup)
    (h8 : (new.models.map Model.resolvedName).Nodup)
    (h9 : (old.models.map Model.name).Nodup) :
    (∃ m2 ∈ dm.models, m2.name = M.name ∧ m2.database_name = some D)
      ∧ (∀ m2 ∈ dm.models, ∀ r2 : RelationField, Field.relation r2 ∈ m2.fields →
          r2.relation_info.toModel ≠ X.name)
      ∧ (∀ m2 ∈ dm.models, ∃ m ∈ new.models,
          List.Forall₂ (FlipT X.name M.name) m.fields m2.fields) := by
  obtain ⟨s1, s2, s3, d4, d5, s6, s7, d8, s9, s10, d11, h1, h2, h3, h4, h5, hp6, hp7,
    hp8, hp9, hp10, hp11, hdm, _⟩ := enrich_decomp h
  rcases s2 with ⟨dmb, ch2a, ch2b⟩
  rcases s3 with ⟨dmc, ch3⟩
  rcases s6 with ⟨dmf, ch6⟩
  rcases s7 with ⟨dmg, ch7⟩
  rcases s9 with ⟨dmi, ch9a, ch9b, ch9c⟩
  rcases s10 with ⟨dmj, ch10a, ch10b⟩
  have hadopt := phaseModels_adopt h1 hX hXres hM hfresh hold5 h6 h7 h8 h9
  have hPres : List.Forall₂ Pres s1.1.models d11.models := by
    refine forall2_trans Pres_trans (phaseNamedConstraints_pres h2) ?_
    refine forall2_trans Pres_trans (phaseFields_pres h3) ?_
    refine forall2_trans Pres_trans (phaseRelFieldNames_pres h4) ?_
    refine forall2_trans Pres_trans (phaseRelNames_pres h5) ?_
    refine forall2_trans Pres_trans (phaseEnums_pres hp6) ?_
    refine forall2_trans Pres_trans (phaseEnumValues_pres hp7) ?_
    refine forall2_trans Pres_trans (phaseMysqlEnums_pres hp8) ?_
    refine forall2_trans Pres_trans (phasePrismaLevel_pres hp9) ?_
    exact forall2_trans Pres_trans (phaseIgnore_pres hp10) (phaseComments_pres hp11)
  have hperm : dm.models.Perm d11.models := by
    rw [hdm]
    exact sortPhase_models_perm old d11
  refine ⟨?_, ?_, ?_⟩
  · obtain ⟨m2, hm2, hf⟩ := Pres_exists_db hPres hadopt.1
    exact ⟨m2, hperm.symm.subset hm2, hf⟩
  · intro m2 hm2
    exact Pres_noTargets hPres hadopt.2.1 m2 (hperm.subset hm2)
  · have hMFp : List.Forall₂ (MFields FPres) s1.1.models d11.models :=
      hPres.imp (fun a b hab => hab.2.2)
    have hflip11 : List.Forall₂ (MFields (FlipT X.name M.name)) new.models d11.models := by
      refine (MFields_comp hadopt.2.2 hMFp).imp ?_
      intro a c hac
      refine hac.imp ?_
      intro f f2 hf
      obtain ⟨g, hfg, hgf2⟩ := hf
      exact FlipT_FPres hfg hgf2
    intro m2 hm2
    exact forall2_mem_right hflip11 m2 (hperm.subset hm2)

/-- Claim C1 is refuted on a self-carrying input: the old model `A`
(resolved database name `A`) is matched by the sole new model (resolved
database name `A`), and no other new model carries the old logical name
`A`; the new model had no explicit database-name mapping, yet after a
successful reconcile its mapping is still absent — the claimed mapping
`@@map("A")` is never added, because the freshness probe counts the
matched model itself. -/
theorem claim_C1_counterexample :
    (mkModel "A" none []).resolvedName = "A"
    ∧ c1Old.models = [mkModel "A" none []]
    ∧ c1New.models = [mkModel "A" none []]
    ∧ (∀ m ∈ c1New.models, m ≠ mkModel "A" none [] → m.name ≠ "A")
    ∧ enrich c1Old c1New ctxPlain =
        some ({ models := [mkModel "A" none []], enums := [] }, [])
    ∧ (mkModel "A" none []).database_name = none := by
  refine ⟨rfl, rfl, rfl, ?_, by decide, rfl⟩
  intro m hm hne
  rcases List.mem_cons.1 hm with rfl | hm
  · exact absurd rfl hne
  · exact absurd hm (List.not_mem_nil _)

theorem claim_C1_witness :
    enrich c1wOld c1wNew ctxPlain = some (c1wRes, [Warning.mapOnModel ["B"]])
    ∧ ((∃ m2 ∈ c1wRes.models, m2.name = "B" ∧ m2.database_name = some "D")
      ∧ (∀ m2 ∈ c1wRes.models, ∀ r2 : RelationField, Field.relation r2 ∈ m2.fields →
          r2.relation_info.toModel ≠ "D")
      ∧ (∀ m2 ∈ c1wRes.models, ∃ m ∈ c1wNew.models,
          List.Forall₂ (FlipT "D" "B") m.fields m2.fields)) := by
  refine ⟨by decide, ?_⟩
  exact @claim_C1 c1wOld c1wNew ctxPlain c1wRes [Warning.mapOnModel ["B"]]
    (mkModel "D" none
      [mkRel "r" { toModel := "D", fields := [], references := [], name := "rel" } .list])
    (mkModel "B" (some "D") []) "D"
    (by decide) (by decide) (by decide) (by decide) (by decide)
    (by decide) (by decide) (by decide) (by decide) (by decide)

end Reconcile

namespace Reconcile

theorem Pres_exists_name {a : String} {l l2 : List Model}
    (h2 : List.Forall₂ Pres l l2) (h : ∃ m ∈ l, m.name = a) :
    ∃ m2 ∈ l2, m2.name = a := by
  obtain ⟨m, hm, h1⟩ := h
  obtain ⟨m2, hm2, hrm⟩ := forall2_mem_left h2 m hm
  exact ⟨m2, hm2, hrm.1.trans h1⟩

/-- The pipeline after phase 1, packaged: a `Pres` chain to the pre-sort
tree and the final permutation. -/
theorem enrich_tail_pres {old new : Datamodel} {ctx : IntrospectionContext}
    {dm : Datamodel} {w : List Warning} (h : enrich old new ctx = some (dm, w)) :
    ∃ s1 : Datamodel × List (String × String), phaseModels old new = some s1
      ∧ ∃ pre : Datamodel, List.Forall₂ Pres s1.1.models pre.models
        ∧ dm.models.Perm pre.models := by
  obtain ⟨s1, s2, s3, d4, d5, s6, s7, d8, s9, s10, d11, h1, h2, h3, h4, h5, hp6, hp7,
    hp8, hp9, hp10, hp11, hdm, _⟩ := enrich_decomp h
  rcases s2 with ⟨dmb, ch2a, ch2b⟩
  rcases s3 with ⟨dmc, ch3⟩
  rcases s6 with ⟨dmf, ch6⟩
  rcases s7 with ⟨dmg, ch7⟩
  rcases s9 with ⟨dmi, ch9a, ch9b, ch9c⟩
  rcases s10 with ⟨dmj, ch10a, ch10b⟩
  refine ⟨s1, h1, d11, ?_, ?_⟩
  · refine forall2_trans Pres_trans (phaseNamedConstraints_pres h2) ?_
    refine forall2_trans Pres_trans (phaseFields_pres h3) ?_
    refine forall2_trans Pres_trans (phaseRelFieldNames_pres h4) ?_
    refine forall2_trans Pres_trans (phaseRelNames_pres h5) ?_
    refine forall2_trans Pres_trans (phaseEnums_pres hp6) ?_
    refine forall2_trans Pres_trans (phaseEnumValues_pres hp7) ?_
    refine forall2_trans Pres_trans (phaseMysqlEnums_pres hp8) ?_
    refine forall2_trans Pres_trans (phasePrismaLevel_pres hp9) ?_
    exact forall2_trans Pres_trans (phaseIgnore_pres hp10) (phaseComments_pres hp11)
  · rw [hdm]
    exact sortPhase_models_perm old d11

/-- Every output model descends from a new-tree model through `Pres1`. -/
theorem enrich_origin {old new : Datamodel} {ctx : IntrospectionContext}
    {dm : Datamodel} {w : List Warning} (h : enrich old new ctx = some (dm, w)) :
    ∀ m2 ∈ dm.models, ∃ m ∈ new.models, Pres1 m m2 := by
  obtain ⟨s1, hs1, pre, hpres, hperm⟩ := enrich_tail_pres h
  have q1 : List.Forall₂ Pres1 new.models s1.1.models := by
    rcases s1 with ⟨dmA, chA⟩
    exact phaseModels_pres1 hs1
  have hall : List.Forall₂ Pres1 new.models pre.models :=
    forall2_trans Pres1_trans q1 (hpres.imp Pres_to_Pres1)
  intro m2 hm2
  exact forall2_mem_right hall m2 (hperm.mem_iff.1 hm2)

/-- Every collected model rename is realized: the output tree contains a
model carrying the adopted name. -/
theorem enrich_rename_hit {old new : Datamodel} {ctx : IntrospectionContext}
    {dm : Datamodel} {w : List Warning} (h : enrich old new ctx = some (dm, w))
    (h6 : (new.models.map Model.name).Nodup)
    (h8 : (new.models.map Model.resolvedName).Nodup)
    (h9 : (old.models.map Model.name).Nodup) :
    ∀ e ∈ modelCollect old new, ∃ m2 ∈ dm.models, m2.name = e.2 := by
  obtain ⟨s1, hs1, pre, hpres, hperm⟩ := enrich_tail_pres h
  unfold phaseModels at hs1
  rw [Option.bind_eq_some] at hs1
  obtain ⟨dmA, hA, hs1⟩ := hs1
  rw [Option.map_eq_some'] at hs1
  obtain ⟨dmB, hB, hpair⟩ := hs1
  have hkeys : ∀ e ∈ modelCollect old new, ∃ m ∈ new.models, m.name = e.1 := by
    intro e he
    obtain ⟨m, hm, hname, _⟩ := modelCollect_mem.1 he
    exact ⟨m, hm, hname⟩
  have hfresh2 : ∀ e ∈ modelCollect old new, ∀ m ∈ new.models, m.name ≠ e.2 := by
    intro e he m hm
    obtain ⟨m0, _, _, M0, _, hM0name, hf0⟩ := modelCollect_mem.1 he
    rw [← hM0name]
    exact findModel_none hf0 m hm
  have hknd : ((modelCollect old new).map Prod.fst).Nodup :=
    modelCollect_keys_sublist.nodup h6
  have hchar := applyModelRenames_char hA h6 hknd hkeys hfresh2
    (modelCollect_targets_nodup h8 h9)
  intro e he
  obtain ⟨m, hm, hmn⟩ := hkeys e he
  obtain ⟨m1, hm1, hrel⟩ := forall2_mem_left hchar.1 m hm
  have hm1name : m1.name = e.2 := by
    rcases hrel with ⟨_, hnone⟩ | ⟨e2, he2, hkey, hren⟩
    · exact absurd hmn.symm (hnone e he)
    · have heq : e2 = e := by
        refine List.inj_on_of_nodup_map hknd he2 he ?_
        show e2.1 = e.1
        rw [hkey, hmn]
      rw [hren, heq]
      rfl
  obtain ⟨mB, hmB, hBf⟩ := forall2_mem_left (propagate_pres_model hB) m1 hm1
  have hmBmem : mB ∈ s1.1.models := by
    rw [← hpair]
    exact hmB
  obtain ⟨m2, hm2, hrel2⟩ := forall2_mem_left hpres mB hmBmem
  exact ⟨m2, hperm.mem_iff.2 hm2, hrel2.1.trans (hBf.1.trans hm1name)⟩

/-- Claim C7 is refuted on warnings: the ignore-carrying run converges on
the tree, but feeding the first run's output back in re-emits the same
non-empty warning list — the second run is not warning-free. -/
theorem claim_C7_counterexample :
    enrich c7Old c7New ctxPlain = some (c7Res, [Warning.modelsIgnored ["A"]])
    ∧ enrich c7Old c7Res ctxPlain = some (c7Res, [Warning.modelsIgnored ["A"]])
    ∧ ([Warning.modelsIgnored ["A"]] : List Warning) ≠ [] := by
  decide

/-- Claim C7 (amended): full idempotence fails (a second run can re-emit
carry-forward warnings), but model identity is stable: when no old logical
name occurs in the new tree and the new tree's model names, its resolved
database names and the old tree's model names are duplicate-free, a second
run against the first run's output collects no model renames, and its
model-identity phase returns the tree unchanged with an empty change
list — so the second run changes no model name and adds no model
mapping. -/
theorem claim_C7 {old new : Datamodel} {ctx : IntrospectionContext}
    {dm1 : Datamodel} {w1 : List Warning}
    (h : enrich old new ctx = some (dm1, w1))
    (h6 : (new.models.map Model.name).Nodup)
    (h8 : (new.models.map Model.resolvedName).Nodup)
    (h9 : (old.models.map Model.name).Nodup)
    (hfree : ∀ o ∈ old.models, findModel new o.name = none) :
    modelCollect old dm1 = [] ∧ phaseModels old dm1 = some (dm1, []) := by
  have hempty : modelCollect old dm1 = [] := by
    unfold modelCollect
    rw [List.filterMap_eq_nil_iff]
    intro m2 hm2
    rcases hMf : findModelDbName old m2.resolvedName with _ | M
    · rfl
    · show (if (findModel dm1 M.name).isNone = true
        then some (m2.name, M.name) else none) = none
      have hMo : M ∈ old.models := (findModelDbName_spec hMf).1
      obtain ⟨m, hm, hp1⟩ := enrich_origin h m2 hm2
      have hMf2 : findModelDbName old m.resolvedName = some M := by
        rw [← hp1.1]
        exact hMf
      have he : (m.name, M.name) ∈ modelCollect old new :=
        modelCollect_mem.2 ⟨m, hm, rfl, M, hMf2, rfl, hfree M hMo⟩
      obtain ⟨m2x, hm2x, hname⟩ := enrich_rename_hit h h6 h8 h9 _ he
      have hocc : (findModel dm1 M.name).isNone = false := by
        unfold findModel
        rcases hfind : dm1.models.find? (fun mm => mm.name == M.name) with _ | mm
        · exfalso
          have := List.find?_eq_none.1 hfind m2x hm2x
          simp at this
          exact this hname
        · rw [hfind]
          rfl
      rw [if_neg (by rw [hocc]; exact Bool.false_ne_true)]
  refine ⟨hempty, ?_⟩
  unfold phaseModels
  rw [hempty]
  rfl

/-- Witness for C7 at a concrete input: the renaming run succeeds and the
second run's model phase is quiescent on its output. -/
theorem claim_C7_witness :
    enrich c1wOld c1wNew ctxPlain = some (c1wRes, [Warning.mapOnModel ["B"]])
    ∧ (modelCollect c1wOld c1wRes = []
        ∧ phaseModels c1wOld c1wRes = some (c1wRes, [])) := by
  refine ⟨by decide, ?_⟩
  exact @claim_C7 c1wOld c1wNew ctxPlain c1wRes [Warning.mapOnModel ["B"]]
    (by decide) (by decide) (by decide) (by decide) (by decide)

end Reconcile

namespace Reconcile

theorem SF_refl (g : ScalarField → ScalarField) : ∀ f, SF g f f := by
  intro f
  cases f <;> simp [SF]

theorem SF_trans {g : ScalarField → ScalarField} (hgi : ∀ s, g (g s) = g s) :
    ∀ a b c, SF g a b → SF g b c → SF g a c := by
  intro a b c hab hbc
  rcases a with sa | ra <;> rcases b with sb | rb <;> simp [SF] at hab <;>
    rcases c with sc | rc <;> simp [SF] at hbc ⊢
  · rcases hab with hab | hab <;> rcases hbc with hbc | hbc
    · left; rw [hbc, hab]
    · right; rw [hbc, hab]
    · right; rw [hbc, hab]
    · right; rw [hbc, hab, hgi]
  · rw [hbc, hab]

theorem SModel_refl (g : ScalarField → ScalarField) : ∀ m, SModel g m m :=
  fun m => ⟨rfl, rfl, forall2_refl (SF_refl g) m.fields⟩

theorem SModel_trans {g : ScalarField → ScalarField} (hgi : ∀ s, g (g s) = g s) :
    ∀ a b c, SModel g a b → SModel g b c → SModel g a c := by
  intro a b c hab hbc
  exact ⟨hbc.1.trans hab.1, hbc.2.1.trans hab.2.1,
    forall2_trans (SF_trans hgi) hab.2.2 hbc.2.2⟩

theorem SF_name_eq {g : ScalarField → ScalarField} (hgn : ∀ s, (g s).name = s.name) :
    ∀ a b, SF g a b → Field.name b = Field.name a := by
  intro a b hab
  rcases a with sa | ra <;> rcases b with sb | rb <;> simp [SF] at hab <;>
    simp [Field.name]
  · rcases hab with hab | hab
    · rw [hab]
    · rw [hab, hgn]
  · rw [hab]

theorem SModel_nodup_facts {g : ScalarField → ScalarField}
    (hgn : ∀ s, (g s).name = s.name) {dm dm1 : Datamodel}
    (h2 : List.Forall₂ (SModel g) dm.models dm1.models)
    (hnn : (dm.models.map Model.name).Nodup)
    (hfn : ∀ m ∈ dm.models, (m.fields.map Field.name).Nodup) :
    (dm1.models.map Model.name).Nodup
      ∧ ∀ m1 ∈ dm1.models, (m1.fields.map Field.name).Nodup := by
  constructor
  · rw [forall2_map_eq (R := SModel g) (f := Model.name)
      (fun a b hab => hab.1) h2]
    exact hnn
  · intro m1 hm1
    obtain ⟨m, hm, hr⟩ := forall2_mem_right h2 m1 hm1
    rw [forall2_map_eq (R := SF g) (f := Field.name) (SF_name_eq hgn) hr.2.2]
    exact hfn m hm

theorem scalarStep_loose {g : ScalarField → ScalarField} {mn fn : String}
    {dm dm1 : Datamodel} (h : updateScalarField dm mn fn g = some dm1) :
    List.Forall₂ (SModel g) dm.models dm1.models := by
  refine (updateScalarField_forall2 (SF_refl g) ?_ h).imp ?_
  · intro s _
    exact Or.inr rfl
  · intro m m2 hm
    exact ⟨hm.1, hm.2.1, hm.2.2⟩

theorem scalarPass_loose {g : ScalarField → ScalarField}
    {st : (String × String) → Datamodel → Option Datamodel}
    (hst : ∀ e d, st e d = updateScalarField d e.1 e.2 g)
    (hgi : ∀ s, g (g s) = g s) :
    ∀ {es : List (String × String)} {dm dm2 : Datamodel},
      applyChain st es dm = some dm2 →
      List.Forall₂ (SModel g) dm.models dm2.models := by
  intro es dm dm2 h
  refine applyChain_forall2 (SModel_refl g) (SModel_trans hgi) ?_ h
  intro x d d2 hx
  rw [hst] at hx
  exact scalarStep_loose hx

/-- After one scalar update step, in the hit model any scalar field carrying
the hit name is an image of the update function. -/
theorem scalarStep_fact {g : ScalarField → ScalarField} {p : String × String}
    {dm dm1 : Datamodel}
    (hnn : (dm.models.map Model.name).Nodup)
    (hfn : ∀ m ∈ dm.models, (m.fields.map Field.name).Nodup)
    (h : updateScalarField dm p.1 p.2 g = some dm1) :
    ∀ m1 ∈ dm1.models, m1.name = p.1 → ∀ s1 : ScalarField,
      Field.scalar s1 ∈ m1.fields → s1.name = p.2 →
      ∃ s0, s1 = g s0 := by
  unfold updateScalarField updateModelM at h
  rw [Option.map_eq_some'] at h
  obtain ⟨ms, hup, hdm1⟩ := h
  obtain ⟨l1, m0, m2, l3, hl, hl2, hpm, hgm, hl1⟩ := updateFirstM_char hup
  have hm0name : m0.name = p.1 := by simpa using hpm
  rw [Option.map_eq_some'] at hgm
  obtain ⟨fs, hfup, hm2⟩ := hgm
  obtain ⟨fl1, f0, f2, fl3, hfl, hfl2, hpf, hgf, hfl1⟩ := updateFirstM_char hfup
  have hf0sc : f0.isScalar = true ∧ f0.name = p.2 := by
    have := hpf
    simp [Bool.and_eq_true] at this
    exact ⟨this.1, this.2⟩
  obtain ⟨s0, hs0⟩ : ∃ s0, f0 = Field.scalar s0 := by
    rcases f0 with s | r
    · exact ⟨s, rfl⟩
    · simp [Field.isScalar] at hf0sc
  subst hs0
  have hf2 : f2 = Field.scalar (g s0) := by
    simpa using hgf.symm
  have hm0mem : m0 ∈ dm.models := by
    rw [hl]
    simp
  have hfnod : (m0.fields.map Field.name).Nodup := hfn m0 hm0mem
  intro m1 hm1 hm1name s1 hs1 hs1name
  rw [← hdm1] at hm1
  simp only at hm1
  rw [hl2] at hm1
  rcases List.mem_append.1 hm1 with hin1 | hin23
  · exact absurd hm1name (ne_of_beq_false (hl1 m1 hin1))
  · rcases List.mem_cons.1 hin23 with rfl | hin3
    · rw [← hm2] at hs1
      simp only at hs1
      rw [hfl2] at hs1
      have hnodsplit := hfl ▸ hfnod
      rw [List.map_append, List.map_cons, List.nodup_append] at hnodsplit
      have hs0name : s0.name = p.2 := by simpa [Field.name] using hf0sc.2
      have hname_eq : s1.name = s0.name := by rw [hs1name, hs0name]
      have hnotin1 : s1.name ∉ List.map Field.name fl1 := by
        intro hmem
        refine hnodsplit.2.2 hmem ?_
        rw [hname_eq]
        exact List.mem_cons_self _ _
      have hnotin3 : s1.name ∉ List.map Field.name fl3 := by
        intro hmem
        have hni := (List.nodup_cons.1 hnodsplit.2.1).1
        rw [hname_eq] at hmem
        exact hni hmem
      rcases List.mem_append.1 hs1 with hin | hin
      · exact absurd (List.mem_map_of_mem Field.name hin) hnotin1
      · rcases List.mem_cons.1 hin with heq | hin
        · rw [hf2] at heq
          cases heq
          exact ⟨s0, rfl⟩
        · exact absurd (List.mem_map_of_mem Field.name hin) hnotin3
    · rw [hl] at hnn
      rw [List.map_append, List.map_cons, List.nodup_append] at hnn
      have hni := (List.nodup_cons.1 hnn.2.1).1
      have hmem : m1.name ∈ List.map Model.name l3 := List.mem_map_of_mem Model.name hin3
      rw [hm1name, ← hm0name] at hmem
      exact absurd hmem hni

/-- After a whole scalar-mutation pass, every listed (model, field) pair's
scalar field is an image of the update function. -/
theorem scalarChain_fact {g : ScalarField → ScalarField}
    {st : (String × String) → Datamodel → Option Datamodel}
    (hst : ∀ e d, st e d = updateScalarField d e.1 e.2 g)
    (hgn : ∀ s, (g s).name = s.name) (hgi : ∀ s, g (g s) = g s) :
    ∀ {es : List (String × String)} {dm dm2 : Datamodel},
      applyChain st es dm = some dm2 →
      (dm.models.map Model.name).Nodup →
      (∀ m ∈ dm.models, (m.fields.map Field.name).Nodup) →
      ∀ p ∈ es, ∀ m2 ∈ dm2.models, m2.name = p.1 →
        ∀ s2 : ScalarField, Field.scalar s2 ∈ m2.fields → s2.name = p.2 →
          ∃ s0, s2 = g s0 := by
  intro es
  induction es with
  | nil =>
      intro dm dm2 h _ _ p hp
      exact absurd hp (List.not_mem_nil _)
  | cons e0 rest ih =>
      intro dm dm2 h hnn hfn p hp m2 hm2 hm2n s2 hs2 hs2n
      unfold applyChain at h
      rw [Option.bind_eq_some] at h
      obtain ⟨dm1, hstep, hrest⟩ := h
      rw [hst] at hstep
      have hloose1 := scalarStep_loose hstep
      have hnod1 := SModel_nodup_facts hgn hloose1 hnn hfn
      rcases List.mem_cons.1 hp with rfl | hp
      · -- the step for `p` itself; the rest of the pass preserves g-images
        have hfact := scalarStep_fact hnn hfn hstep
        have hlooser := scalarPass_loose hst hgi hrest
        obtain ⟨m1, hm1, hrm⟩ := forall2_mem_right hlooser m2 hm2
        obtain ⟨f1, hf1, hrf⟩ := forall2_mem_right hrm.2.2 (Field.scalar s2) hs2
        rcases f1 with s1 | r1
        · simp only [SF] at hrf
          have hs1n : s1.name = p.2 := by
            rcases hrf with hrf | hrf
            · rw [← hs2n, hrf]
            · rw [← hs2n, hrf, hgn]
          obtain ⟨s0, hs0⟩ := hfact m1 hm1 (hrm.1.symm.trans hm2n) s1 hf1 hs1n
          rcases hrf with hrf | hrf
          · exact ⟨s0, by rw [hrf, hs0]⟩
          · exact ⟨s0, by rw [hrf, hs0, hgi]⟩
        · simp [SF] at hrf
      · exact ih hrest hnod1.1 hnod1.2 p hp m2 hm2 hm2n s2 hs2 hs2n

theorem mem_scalarFields {m : Model} {s : ScalarField} :
    s ∈ m.scalarFields ↔ Field.scalar s ∈ m.fields := by
  unfold Model.scalarFields
  rw [List.mem_filterMap]
  constructor
  · rintro ⟨f, hf, hfs⟩
    rcases f with s2 | r
    · simp only [Option.some.injEq] at hfs
      rw [← hfs]
      exact hf
    · simp at hfs
  · intro h
    exact ⟨Field.scalar s, h, rfl⟩

theorem SModel_exists_scalar {g : ScalarField → ScalarField}
    (hgn : ∀ s, (g s).name = s.name) {l l2 : List Model} {a b : String}
    (h2 : List.Forall₂ (SModel g) l l2)
    (h : ∃ m ∈ l, m.name = a
      ∧ ∃ s : ScalarField, Field.scalar s ∈ m.fields ∧ s.name = b) :
    ∃ m2 ∈ l2, m2.name = a
      ∧ ∃ s2 : ScalarField, Field.scalar s2 ∈ m2.fields ∧ s2.name = b := by
  obtain ⟨m, hm, hname, s, hs, hsname⟩ := h
  obtain ⟨m2, hm2, hrm⟩ := forall2_mem_left h2 m hm
  obtain ⟨f2, hf2, hrf⟩ := forall2_mem_left hrm.2.2 (Field.scalar s) hs
  rcases f2 with s2 | r2
  · simp only [SF] at hrf
    refine ⟨m2, hm2, hrm.1.trans hname, s2, hf2, ?_⟩
    rcases hrf with hrf | hrf
    · rw [hrf, hsname]
    · rw [hrf, hgn, hsname]
  · simp [SF] at hrf

theorem prismaLevelCollectWith_mem {cond : Model → ScalarField → Bool}
    {old dm : Datamodel} {p : String × String} :
    p ∈ prismaLevelCollectWith cond old dm ↔
      ∃ m ∈ dm.models, ∃ om, findModel old m.name = some om
        ∧ ∃ f ∈ m.scalarFields, cond om f = true ∧ p = (m.name, f.name) := by
  unfold prismaLevelCollectWith
  rw [List.mem_flatMap]
  constructor
  · rintro ⟨m, hm, hin⟩
    rcases hom : findModel old m.name with _ | om
    · rw [hom] at hin
      simp at hin
    · rw [hom] at hin
      obtain ⟨f, hf, hcond⟩ := List.mem_filterMap.1 hin
      by_cases hc : cond om f = true
      · rw [if_pos hc, Option.some.injEq] at hcond
        exact ⟨m, hm, om, hom, f, hf, hc, hcond.symm⟩
      · rw [if_neg hc] at hcond
        exact absurd hcond (by simp)
  · rintro ⟨m, hm, om, hom, f, hf, hc, hp⟩
    refine ⟨m, hm, ?_⟩
    rw [hom]
    exact List.mem_filterMap.2 ⟨f, hf, by rw [if_pos hc, hp]⟩

theorem cuidCond_iff {om : Model} {f : ScalarField} :
    cuidCond om f = true ↔
      ∃ g2, om.findScalarField f.name = some g2
        ∧ f.default_value = none ∧ f.field_type.is_string = true
        ∧ g2.default_value = some (DefaultValue.expression ValueGenerator.cuid) := by
  unfold cuidCond
  rcases h : om.findScalarField f.name with _ | g2
  · simp
  · simp [Bool.and_eq_true, Option.isNone_iff_eq_none, and_assoc]

theorem uuidCond_iff {om : Model} {f : ScalarField} :
    uuidCond om f = true ↔
      ∃ g2, om.findScalarField f.name = some g2
        ∧ f.default_value = none ∧ f.field_type.is_string = true
        ∧ g2.default_value = some (DefaultValue.expression ValueGenerator.uuid) := by
  unfold uuidCond
  rcases h : om.findScalarField f.name with _ | g2
  · simp
  · simp [Bool.and_eq_true, Option.isNone_iff_eq_none, and_assoc]

theorem updatedAtCond_iff {om : Model} {f : ScalarField} :
    updatedAtCond om f = true ↔
      ∃ g2, om.findScalarField f.name = some g2
        ∧ f.field_type.is_datetime = true ∧ g2.is_updated_at = true := by
  unfold updatedAtCond
  rcases h : om.findScalarField f.name with _ | g2
  · simp
  · simp [Bool.and_eq_true]

/-- Claim C6 (amended): the Prisma-level recovery phase collects cuid and
uuid recoveries exactly for matched string fields with no explicit default
whose old counterpart had the generator default; it collects the
auto-update flag for matched timestamp fields whose old counterpart had it
regardless of any explicit default on the new field, and restores the flag
on each collected field. -/
theorem claim_C6 {old dm : Datamodel}
    {res : Datamodel × List (String × String) × List (String × String)
      × List (String × String)}
    (h : phasePrismaLevel old dm = some res)
    (hnn : (dm.models.map Model.name).Nodup)
    (hfn : ∀ m ∈ dm.models, (m.fields.map Field.name).Nodup) :
    (∀ p, p ∈ res.2.1 ↔ ∃ m ∈ dm.models, ∃ om, findModel old m.name = some om
        ∧ ∃ f ∈ m.scalarFields, (∃ g2, om.findScalarField f.name = some g2
            ∧ f.default_value = none ∧ f.field_type.is_string = true
            ∧ g2.default_value = some (DefaultValue.expression ValueGenerator.cuid))
          ∧ p = (m.name, f.name))
    ∧ (∀ p, p ∈ res.2.2.1 ↔ ∃ m ∈ dm.models, ∃ om, findModel old m.name = some om
        ∧ ∃ f ∈ m.scalarFields, (∃ g2, om.findScalarField f.name = some g2
            ∧ f.default_value = none ∧ f.field_type.is_string = true
            ∧ g2.default_value = some (DefaultValue.expression ValueGenerator.uuid))
          ∧ p = (m.name, f.name))
    ∧ (∀ p, p ∈ res.2.2.2 ↔ ∃ m ∈ dm.models, ∃ om, findModel old m.name = some om
        ∧ ∃ f ∈ m.scalarFields, (∃ g2, om.findScalarField f.name = some g2
            ∧ f.field_type.is_datetime = true ∧ g2.is_updated_at = true)
          ∧ p = (m.name, f.name))
    ∧ (∀ p ∈ res.2.2.2, ∃ m3 ∈ res.1.models, m3.name = p.1
        ∧ ∃ s3 : ScalarField, Field.scalar s3 ∈ m3.fields ∧ s3.name = p.2
          ∧ s3.is_updated_at = true) := by
  unfold phasePrismaLevel at h
  rw [Option.bind_eq_some] at h
  obtain ⟨dmA, hA, h⟩ := h
  rw [Option.bind_eq_some] at h
  obtain ⟨dmB, hB2, h⟩ := h
  rw [Option.map_eq_some'] at h
  obtain ⟨dm3, hC, hres⟩ := h
  subst hres
  unfold applyDefaults at hA hB2
  unfold applyUpdatedAt at hC
  refine ⟨?_, ?_, ?_, ?_⟩
  · intro p
    rw [prismaLevelCollectWith_mem]
    constructor
    · rintro ⟨m, hm, om, hom, f, hf, hc, hp⟩
      exact ⟨m, hm, om, hom, f, hf, cuidCond_iff.1 hc, hp⟩
    · rintro ⟨m, hm, om, hom, f, hf, hc, hp⟩
      exact ⟨m, hm, om, hom, f, hf, cuidCond_iff.2 hc, hp⟩
  · intro p
    rw [prismaLevelCollectWith_mem]
    constructor
    · rintro ⟨m, hm, om, hom, f, hf, hc, hp⟩
      exact ⟨m, hm, om, hom, f, hf, uuidCond_iff.1 hc, hp⟩
    · rintro ⟨m, hm, om, hom, f, hf, hc, hp⟩
      exact ⟨m, hm, om, hom, f, hf, uuidCond_iff.2 hc, hp⟩
  · intro p
    rw [prismaLevelCollectWith_mem]
    constructor
    · rintro ⟨m, hm, om, hom, f, hf, hc, hp⟩
      exact ⟨m, hm, om, hom, f, hf, updatedAtCond_iff.1 hc, hp⟩
    · rintro ⟨m, hm, om, hom, f, hf, hc, hp⟩
      exact ⟨m, hm, om, hom, f, hf, updatedAtCond_iff.2 hc, hp⟩
  · intro p hp
    obtain ⟨m, hm, om, hom, f, hf, hc, hpe⟩ := prismaLevelCollectWith_mem.1 hp
    have h1 := scalarPass_loose
      (g := fun s =>
        { s with default_value := some (DefaultValue.expression ValueGenerator.cuid) })
      (fun e d => rfl) (fun s => rfl) hA
    have h2 := scalarPass_loose
      (g := fun s =>
        { s with default_value := some (DefaultValue.expression ValueGenerator.uuid) })
      (fun e d => rfl) (fun s => rfl) hB2
    have h3 := scalarPass_loose
      (g := fun s => { s with is_updated_at := true })
      (fun e d => rfl) (fun s => rfl) hC
    have hnodA := SModel_nodup_facts
      (g := fun s =>
        { s with default_value := some (DefaultValue.expression ValueGenerator.cuid) })
      (fun s => rfl) h1 hnn hfn
    have hnodB := SModel_nodup_facts
      (g := fun s =>
        { s with default_value := some (DefaultValue.expression ValueGenerator.uuid) })
      (fun s => rfl) h2 hnodA.1 hnodA.2
    have hex0 : ∃ m0 ∈ dm.models, m0.name = p.1
        ∧ ∃ s : ScalarField, Field.scalar s ∈ m0.fields ∧ s.name = p.2 :=
      ⟨m, hm, by rw [hpe], f, mem_scalarFields.1 hf, by rw [hpe]⟩
    have hex3 := SModel_exists_scalar
      (g := fun s => { s with is_updated_at := true }) (fun s => rfl) h3
      (SModel_exists_scalar
        (g := fun s =>
          { s with default_value := some (DefaultValue.expression ValueGenerator.uuid) })
        (fun s => rfl) h2
        (SModel_exists_scalar
          (g := fun s =>
            { s with default_value := some (DefaultValue.expression ValueGenerator.cuid) })
          (fun s => rfl) h1 hex0))
    obtain ⟨m3, hm3, hm3n, s3, hs3, hs3n⟩ := hex3
    obtain ⟨s0, hs0⟩ := scalarChain_fact
      (g := fun s => { s with is_updated_at := true })
      (fun e d => rfl) (fun s => rfl) (fun s => rfl)
      hC hnodB.1 hnodB.2 p hp m3 hm3 hm3n s3 hs3 hs3n
    exact ⟨m3, hm3, hm3n, s3, hs3, hs3n, by rw [hs0]⟩

/-- Claim C6 is refuted for the auto-update flag: the new timestamp field
carries an explicit default, yet reconcile restores the old field's
auto-update flag onto it — the "no explicit default" gate only exists for
the cuid/uuid recoveries. -/
theorem claim_C6_counterexample :
    enrich c6Old c6New ctxPlain = some (c6Res, [Warning.updatedAt [("A", "t")]])
    ∧ (∀ m ∈ c6New.models, ∀ s ∈ m.scalarFields, s.default_value ≠ none)
    ∧ (∃ m ∈ c6Res.models, ∃ s ∈ m.scalarFields,
        s.is_updated_at = true ∧ s.default_value ≠ none) := by
  decide

/-- Witness for C6 at a concrete input: the phase collects and restores the
auto-update flag for the matched timestamp field despite its explicit
default. -/
theorem claim_C6_witness :
    ∃ m3 ∈ c6Res.models, m3.name = "A"
      ∧ ∃ s3 : ScalarField, Field.scalar s3 ∈ m3.fields ∧ s3.name = "t"
        ∧ s3.is_updated_at = true :=
  (@claim_C6 c6Old c6New (c6Res, [], [], [("A", "t")])
    (by decide) (by decide) (by decide)).2.2.2 ("A", "t") (by decide)

end Reconcile

namespace Reconcile

/-- Soundness of the phase-4 inner loop: every collected entry names the
current model, and stems from an old candidate (with its counterpart) that
is not a self-referencing many-to-many pair on the old side. -/
theorem relFieldCollectOld_spec {old dm : Datamodel} {nm : String}
    {nf : RelationField} :
    ∀ {ofs : List RelationField} {here : List ((String × String) × String)},
      relFieldCollectOld old dm nm nf ofs = some here →
      ∀ e ∈ here, e.1.1 = nm
        ∧ ∃ og ∈ ofs, ∃ ore, findRelatedField old og = some ore
          ∧ ((og.is_list && ore.is_list) = false
              ∨ og.relation_info.toModel ≠ ore.relation_info.toModel) := by
  intro ofs
  induction ofs with
  | nil =>
      intro here h e he
      unfold relFieldCollectOld at h
      cases h
      exact absurd he (List.not_mem_nil _)
  | cons og rest ih =>
      intro here h e he
      unfold relFieldCollectOld at h
      rw [Option.bind_eq_some] at h
      obtain ⟨rest_entries, hrest, h⟩ := h
      rw [Option.bind_eq_some] at h
      obtain ⟨ore, hore, h⟩ := h
      rw [Option.map_eq_some'] at h
      obtain ⟨related, hrel, hhere⟩ := h
      by_cases hg : (riEq og.relation_info nf.relation_info
          && riEq ore.relation_info related.relation_info
          && (!(og.is_list && ore.is_list)
            || (og.relation_info.name == nf.relation_info.name
                && !(og.relation_info.toModel == ore.relation_info.toModel)))) = true
      · rw [if_pos (by simpa [Bool.and_assoc] using hg)] at hhere
        rw [← hhere] at he
        rcases List.mem_cons.1 he with rfl | he
        · refine ⟨rfl, og, List.mem_cons_self _ _, ore, hore, ?_⟩
          simp only [Bool.and_eq_true] at hg
          rcases hmm : (og.is_list && ore.is_list) with _ | _
          · exact Or.inl rfl
          · have := hg.2
            rw [hmm] at this
            simp only [Bool.not_true, Bool.false_or, Bool.and_eq_true] at this
            refine Or.inr ?_
            have hb := this.2
            simp only [Bool.not_eq_true', beq_eq_false_iff_ne] at hb
            exact hb
        · obtain ⟨h1, og2, hog2, hrest2⟩ := ih hrest e he
          exact ⟨h1, og2, List.mem_cons_of_mem _ hog2, hrest2⟩
      · rw [if_neg (by simpa [Bool.and_assoc] using hg)] at hhere
        rw [← hhere] at he
        obtain ⟨h1, og2, hog2, hrest2⟩ := ih hrest e he
        exact ⟨h1, og2, List.mem_cons_of_mem _ hog2, hrest2⟩

theorem relFieldCollectFields_spec {old dm : Datamodel} {nm : String} :
    ∀ {nfs : List RelationField} {here : List ((String × String) × String)},
      relFieldCollectFields old dm nm nfs = some here →
      ∀ e ∈ here, e.1.1 = nm
        ∧ ∃ om, findModel old nm = some om
          ∧ ∃ og ∈ om.relationFields, ∃ ore, findRelatedField old og = some ore
            ∧ ((og.is_list && ore.is_list) = false
                ∨ og.relation_info.toModel ≠ ore.relation_info.toModel) := by
  intro nfs
  induction nfs with
  | nil =>
      intro here h e he
      unfold relFieldCollectFields at h
      cases h
      exact absurd he (List.not_mem_nil _)
  | cons nf rest ih =>
      intro here h e he
      unfold relFieldCollectFields at h
      rw [Option.bind_eq_some] at h
      obtain ⟨rest_entries, hrest, h⟩ := h
      rcases hom : findModel old nm with _ | om
      · rw [hom] at h
        simp only [Option.some.injEq] at h
        rw [← h] at he
        have hres := ih hrest e he
        rwa [hom] at hres
      · rw [hom] at h
        rw [Option.map_eq_some'] at h
        obtain ⟨inner, hinner, hhere⟩ := h
        rw [← hhere] at he
        rcases List.mem_append.1 he with he | he
        · obtain ⟨h1, og, hog, hrest2⟩ := relFieldCollectOld_spec hinner e he
          exact ⟨h1, om, rfl, og, hog, hrest2⟩
        · have hres := ih hrest e he
          rwa [hom] at hres

theorem relFieldCollect_spec {old dm : Datamodel}
    {ch : List ((String × String) × String)}
    (h : relFieldCollect old dm = some ch) :
    ∀ e ∈ ch, ∃ om, findModel old e.1.1 = some om
      ∧ ∃ og ∈ om.relationFields, ∃ ore, findRelatedField old og = some ore
        ∧ ((og.is_list && ore.is_list) = false
            ∨ og.relation_info.toModel ≠ ore.relation_info.toModel) := by
  unfold relFieldCollect at h
  suffices hgen : ∀ (ms : List Model) (ch2 : List ((String × String) × String)),
      (ms.foldr (fun m acc =>
        acc.bind (fun acc2 =>
          (relFieldCollectFields old dm m.name m.relationFields).map
            (fun here => here ++ acc2))) (some [])) = some ch2 →
      ∀ e ∈ ch2, ∃ om, findModel old e.1.1 = some om
        ∧ ∃ og ∈ om.relationFields, ∃ ore, findRelatedField old og = some ore
          ∧ ((og.is_list && ore.is_list) = false
              ∨ og.relation_info.toModel ≠ ore.relation_info.toModel) by
    exact hgen dm.models ch h
  intro ms
  induction ms with
  | nil =>
      intro ch2 h2 e he
      simp only [List.foldr_nil, Option.some.injEq] at h2
      rw [← h2] at he
      exact absurd he (List.not_mem_nil _)
  | cons m rest ih =>
      intro ch2 h2 e he
      simp only [List.foldr_cons] at h2
      rw [Option.bind_eq_some] at h2
      obtain ⟨acc2, hacc, h2⟩ := h2
      rw [Option.map_eq_some'] at h2
      obtain ⟨here, hhere, hch2⟩ := h2
      rw [← hch2] at he
      rcases List.mem_append.1 he with he | he
      · obtain ⟨h1, om, hom, og, hog, hrest2⟩ := relFieldCollectFields_spec hhere e he
        rw [← h1] at hom
        exact ⟨om, hom, og, hog, hrest2⟩
      · exact ih acc2 hacc e he

/-- A relation-field mutation pass never touches a relation field that no
entry addresses: the field survives, in a model of the same name, entirely
unchanged. -/
theorem relPass_untouched {G : ((String × String) × String) → RelationField → RelationField}
    {st : ((String × String) × String) → Datamodel → Option Datamodel}
    (hst : ∀ e d, st e d = updateRelationField d e.1.1 e.1.2 (G e)) :
    ∀ {es : List ((String × String) × String)} {dm dm2 : Datamodel}
      {mn : String} {f : RelationField},
      applyChain st es dm = some dm2 →
      (∀ e ∈ es, e.1.1 = mn → e.1.2 ≠ f.name) →
      (∃ m ∈ dm.models, m.name = mn ∧ Field.relation f ∈ m.fields) →
      ∃ m2 ∈ dm2.models, m2.name = mn ∧ Field.relation f ∈ m2.fields := by
  intro es
  induction es with
  | nil =>
      intro dm dm2 mn f h _ hex
      unfold applyChain at h
      cases h
      exact hex
  | cons e0 rest ih =>
      intro dm dm2 mn f h hkeys hex
      unfold applyChain at h
      rw [Option.bind_eq_some] at h
      obtain ⟨dm1, hstep, hrest⟩ := h
      refine ih hrest (fun e he => hkeys e (List.mem_cons_of_mem _ he)) ?_
      obtain ⟨m, hm, hname, hf⟩ := hex
      rw [hst] at hstep
      unfold updateRelationField updateModelM at hstep
      rw [Option.map_eq_some'] at hstep
      obtain ⟨ms, hup, hdm1⟩ := hstep
      obtain ⟨l1, mA, mB, l3, hl, hl2, hpm, hgm, _⟩ := updateFirstM_char hup
      rw [hl] at hm
      rcases List.mem_append.1 hm with hin | hin
      · exact ⟨m, by rw [← hdm1]; simp only; rw [hl2]; exact List.mem_append_left _ hin,
          hname, hf⟩
      · rcases List.mem_cons.1 hin with rfl | hin
        · -- the step hits our model: our field is not the one replaced
          rw [Option.map_eq_some'] at hgm
          obtain ⟨fs, hfup, hmB⟩ := hgm
          obtain ⟨fl1, fA, fB, fl3, hfl, hfl2, hpf, hgf, _⟩ := updateFirstM_char hfup
          have hfA : fA.name = e0.1.2 := by
            have := hpf
            simp [Bool.and_eq_true] at this
            exact this.2
          have hmAname : m.name = e0.1.1 := by simpa using hpm
          have hkey := hkeys e0 (List.mem_cons_self _ _) (by rw [← hmAname, hname])
          have hfne : Field.relation f ≠ fA := by
            intro hcontra
            apply hkey
            rw [← hfA, ← hcontra]
            rfl
          refine ⟨mB, ?_, ?_, ?_⟩
          · rw [← hdm1]
            simp only
            rw [hl2]
            exact List.mem_append_right _ (List.mem_cons_self _ _)
          · rw [← hmB]
            simp only
            exact hname
          · rw [← hmB]
            simp only
            rw [hfl2]
            rw [hfl] at hf
            rcases List.mem_append.1 hf with hfin | hfin
            · exact List.mem_append_left _ hfin
            · rcases List.mem_cons.1 hfin with heq | hfin
              · exact absurd heq hfne
              · exact List.mem_append_right _ (List.mem_cons_of_mem _ hfin)
        · exact ⟨m, by
            rw [← hdm1]
            simp only
            rw [hl2]
            exact List.mem_append_right _ (List.mem_cons_of_mem _ hin), hname, hf⟩

/-- Claim C5 (amended): the self-referencing many-to-many protection is
keyed to the old candidates: when every relation-field candidate of the
matched old model forms, with its counterpart, a self-referencing
many-to-many pair (both old arities are lists and the old descriptor
targets its counterpart's target), the relation-field rename phase leaves
the given new relation field — display name included — unchanged. -/
theorem claim_C5 {old dm dm2 : Datamodel} {mn : String} {f : RelationField}
    (h : phaseRelFieldNames old dm = some dm2)
    (hex : ∃ m ∈ dm.models, m.name = mn ∧ Field.relation f ∈ m.fields)
    (hsafe : ∀ om, findModel old mn = some om →
      ∀ og ∈ om.relationFields, ∀ ore, findRelatedField old og = some ore →
        (og.is_list && ore.is_list) = true
          ∧ og.relation_info.toModel = ore.relation_info.toModel) :
    ∃ m2 ∈ dm2.models, m2.name = mn ∧ Field.relation f ∈ m2.fields := by
  unfold phaseRelFieldNames at h
  rw [Option.bind_eq_some] at h
  obtain ⟨ch, hch, happ⟩ := h
  unfold applyRelFieldRenames at happ
  have hspec := relFieldCollect_spec hch
  refine relPass_untouched (fun e d => rfl) happ ?_ hex
  intro e he hemn
  exfalso
  obtain ⟨om, hom, og, hog, ore, hore, hbad⟩ := hspec e he
  rw [hemn] at hom
  have hgood := hsafe om hom og hog ore hore
  rcases hbad with hb | hb
  · rw [hgood.1] at hb
    exact absurd hb (by simp)
  · exact hb hgood.2

/-- Claim C5 is refuted: the new field `x` belongs to a self-referencing
many-to-many relation (itself and its counterpart are lists targeting their
own model), yet reconcile replaces its display name with the old
candidate's name `ox` — the many-to-many/self-relation guard tests the
*old* candidate's arities, and the old candidates here are not lists. -/
theorem claim_C5_counterexample :
    c5x.is_list = true
    ∧ findRelatedField c5New c5x = some c5y
    ∧ c5y.is_list = true
    ∧ c5x.relation_info.toModel = "A"
    ∧ c5y.relation_info.toModel = "A"
    ∧ (∃ m ∈ c5New.models, m.name = "A" ∧ Field.relation c5x ∈ m.fields)
    ∧ enrich c5Old c5New ctxPlain = some (c5Res, [])
    ∧ (∀ m ∈ c5Res.models, ∀ rf ∈ m.relationFields, rf.name ≠ "x") := by
  decide

/-- Witness for C5 at a concrete input: with all old candidates
self-referencing many-to-many, the rename phase leaves the new field
untouched even though all descriptors agree exactly. -/
theorem claim_C5_witness :
    phaseRelFieldNames c5wOld c5wNew = some c5wNew
    ∧ (∃ m2 ∈ c5wNew.models, m2.name = "A"
        ∧ Field.relation { c5x with relation_info := c5ri0 } ∈ m2.fields) := by
  refine ⟨by decide, ?_⟩
  exact @claim_C5 c5wOld c5wNew c5wNew "A" { c5x with relation_info := c5ri0 }
    (by decide) (by decide) (by decide)

end Reconcile

namespace Reconcile

/-- After one relation-field update step, in the hit model any relation
field carrying the hit name is an image of the update function. -/
theorem relStep_fact {g : RelationField → RelationField} {p : String × String}
    {dm dm1 : Datamodel}
    (hnn : (dm.models.map Model.name).Nodup)
    (hfn : ∀ m ∈ dm.models, (m.fields.map Field.name).Nodup)
    (h : updateRelationField dm p.1 p.2 g = some dm1) :
    ∀ m1 ∈ dm1.models, m1.name = p.1 → ∀ r1 : RelationField,
      Field.relation r1 ∈ m1.fields → r1.name = p.2 →
      ∃ r0, r1 = g r0 := by
  unfold updateRelationField updateModelM at h
  rw [Option.map_eq_some'] at h
  obtain ⟨ms, hup, hdm1⟩ := h
  obtain ⟨l1, m0, m2, l3, hl, hl2, hpm, hgm, hl1⟩ := updateFirstM_char hup
  have hm0name : m0.name = p.1 := by simpa using hpm
  rw [Option.map_eq_some'] at hgm
  obtain ⟨fs, hfup, hm2⟩ := hgm
  obtain ⟨fl1, f0, f2, fl3, hfl, hfl2, hpf, hgf, hfl1⟩ := updateFirstM_char hfup
  have hf0rel : f0.isRelation = true ∧ f0.name = p.2 := by
    have := hpf
    simp [Bool.and_eq_true] at this
    exact ⟨this.1, this.2⟩
  obtain ⟨r0, hr0⟩ : ∃ r0, f0 = Field.relation r0 := by
    rcases f0 with s | r
    · simp [Field.isRelation] at hf0rel
    · exact ⟨r, rfl⟩
  subst hr0
  have hf2 : f2 = Field.relation (g r0) := by
    simpa using hgf.symm
  have hm0mem : m0 ∈ dm.models := by
    rw [hl]
    simp
  have hfnod : (m0.fields.map Field.name).Nodup := hfn m0 hm0mem
  intro m1 hm1 hm1name r1 hr1 hr1name
  rw [← hdm1] at hm1
  simp only at hm1
  rw [hl2] at hm1
  rcases List.mem_append.1 hm1 with hin1 | hin23
  · exact absurd hm1name (ne_of_beq_false (hl1 m1 hin1))
  · rcases List.mem_cons.1 hin23 with rfl | hin3
    · rw [← hm2] at hr1
      simp only at hr1
      rw [hfl2] at hr1
      have hnodsplit := hfl ▸ hfnod
      rw [List.map_append, List.map_cons, List.nodup_append] at hnodsplit
      have hr0name : r0.name = p.2 := by simpa [Field.name] using hf0rel.2
      have hname_eq : r1.name = r0.name := by rw [hr1name, hr0name]
      have hnotin1 : r1.name ∉ List.map Field.name fl1 := by
        intro hmem
        refine hnodsplit.2.2 hmem ?_
        rw [hname_eq]
        exact List.mem_cons_self _ _
      have hnotin3 : r1.name ∉ List.map Field.name fl3 := by
        intro hmem
        have hni := (List.nodup_cons.1 hnodsplit.2.1).1
        rw [hname_eq] at hmem
        exact hni hmem
      rcases List.mem_append.1 hr1 with hin | hin
      · exact absurd (List.mem_map_of_mem Field.name hin) hnotin1
      · rcases List.mem_cons.1 hin with heq | hin
        · rw [hf2] at heq
          cases heq
          exact ⟨r0, rfl⟩
        · exact absurd (List.mem_map_of_mem Field.name hin) hnotin3
    · rw [hl] at hnn
      rw [List.map_append, List.map_cons, List.nodup_append] at hnn
      have hni := (List.nodup_cons.1 hnn.2.1).1
      have hmem : m1.name ∈ List.map Model.name l3 := List.mem_map_of_mem Model.name hin3
      rw [hm1name, ← hm0name] at hmem
      exact absurd hmem hni

/-- A relation-field mutation pass whose updates keep field names preserves
model names and field-name lists pointwise. -/
theorem relPass_names {G : ((String × String) × String) → RelationField → RelationField}
    (hGn : ∀ e rf, (G e rf).name = rf.name)
    {st : ((String × String) × String) → Datamodel → Option Datamodel}
    (hst : ∀ e d, st e d = updateRelationField d e.1.1 e.1.2 (G e)) :
    ∀ {es : List ((String × String) × String)} {dm dm2 : Datamodel},
      applyChain st es dm = some dm2 →
      List.Forall₂ (fun m m2 => m2.name = m.name
        ∧ m2.fields.map Field.name = m.fields.map Field.name) dm.models dm2.models := by
  intro es dm dm2 h
  refine applyChain_forall2
    (R := fun m m2 => m2.name = m.name
      ∧ m2.fields.map Field.name = m.fields.map Field.name)
    (fun m => ⟨rfl, rfl⟩) ?_ ?_ h
  · intro a b c hab hbc
    exact ⟨hbc.1.trans hab.1, hbc.2.trans hab.2⟩
  · intro e d d2 hx
    rw [hst] at hx
    refine (updateRelationField_forall2
      (F := fun f f2 => Field.name f2 = Field.name f) (fun f => rfl) ?_ hx).imp ?_
    · intro r _
      exact hGn e r
    · intro m m2 hm
      refine ⟨hm.1, ?_⟩
      exact forall2_map_eq (R := fun f f2 => Field.name f2 = Field.name f)
        (f := Field.name) (fun a b hab => hab) hm.2.2

/-- Steps addressed at other keys do not disturb a property of the relation
fields at one (model name, field name) key. -/
theorem relPass_inv {G : ((String × String) × String) → RelationField → RelationField}
    (hGn : ∀ e rf, (G e rf).name = rf.name)
    {st : ((String × String) × String) → Datamodel → Option Datamodel}
    (hst : ∀ e d, st e d = updateRelationField d e.1.1 e.1.2 (G e))
    {p : String × String} {P : RelationField → Prop} :
    ∀ {es : List ((String × String) × String)} {dm dm2 : Datamodel},
      applyChain st es dm = some dm2 →
      (∀ e ∈ es, e.1 ≠ p) →
      (∀ m ∈ dm.models, m.name = p.1 → ∀ r : RelationField,
        Field.relation r ∈ m.fields → r.name = p.2 → P r) →
      ∀ m2 ∈ dm2.models, m2.name = p.1 → ∀ r2 : RelationField,
        Field.relation r2 ∈ m2.fields → r2.name = p.2 → P r2 := by
  intro es
  induction es with
  | nil =>
      intro dm dm2 h _ hinv
      unfold applyChain at h
      cases h
      exact hinv
  | cons e0 rest ih =>
      intro dm dm2 h hne hinv
      unfold applyChain at h
      rw [Option.bind_eq_some] at h
      obtain ⟨dm1, hstep, hrest⟩ := h
      refine ih hrest (fun e he => hne e (List.mem_cons_of_mem _ he)) ?_
      rw [hst] at hstep
      unfold updateRelationField updateModelM at hstep
      rw [Option.map_eq_some'] at hstep
      obtain ⟨ms, hup, hdm1⟩ := hstep
      obtain ⟨l1, mA, mB, l3, hl, hl2, hpm, hgm, _⟩ := updateFirstM_char hup
      have hmAname : mA.name = e0.1.1 := by simpa using hpm
      rw [Option.map_eq_some'] at hgm
      obtain ⟨fs, hfup, hmB⟩ := hgm
      obtain ⟨fl1, fA, fB, fl3, hfl, hfl2, hpf, hgf, _⟩ := updateFirstM_char hfup
      have hfAname : fA.name = e0.1.2 := by
        have := hpf
        simp [Bool.and_eq_true] at this
        exact this.2
      intro m1 hm1 hm1name r1 hr1 hr1name
      rw [← hdm1] at hm1
      simp only at hm1
      rw [hl2] at hm1
      rcases List.mem_append.1 hm1 with hin | hin
      · exact hinv m1 (by rw [hl]; exact List.mem_append_left _ hin) hm1name r1 hr1 hr1name
      · rcases List.mem_cons.1 hin with rfl | hin
        · -- the modified model: our key's fields live outside the modified slot
          have hmBn : m1.name = mA.name := by rw [← hmB]
          have hmAp : mA.name = p.1 := hmBn.symm.trans hm1name
          have hmAmem : mA ∈ dm.models := by
            rw [hl]
            simp
          have hmemA : ∀ r : RelationField, Field.relation r ∈ mA.fields →
              r.name = p.2 → P r :=
            fun r hr hrn => hinv mA hmAmem hmAp r hr hrn
          rw [← hmB] at hr1
          simp only at hr1
          rw [hfl2] at hr1
          rcases List.mem_append.1 hr1 with hfin | hfin
          · exact hmemA r1 (by rw [hfl]; exact List.mem_append_left _ hfin) hr1name
          · rcases List.mem_cons.1 hfin with heq | hfin
            · -- the modified field cannot carry our key's field name
              exfalso
              obtain ⟨rA, hrA⟩ : ∃ rA, fA = Field.relation rA := by
                have hrel := hpf
                simp [Bool.and_eq_true] at hrel
                rcases fA with sf | r
                · simp [Field.isRelation] at hrel
                · exact ⟨r, rfl⟩
              rw [hrA] at hgf
              have hfB : fB = Field.relation (G e0 rA) := by simpa using hgf.symm
              rw [hfB] at heq
              have hr1A : r1 = G e0 rA := by injection heq
              have hr1n : r1.name = e0.1.2 := by
                rw [hr1A, hGn]
                rw [hrA] at hfAname
                exact hfAname
              apply hne e0 (List.mem_cons_self _ _)
              have hp2 : e0.1.2 = p.2 := by rw [← hr1n, hr1name]
              have hp1 : e0.1.1 = p.1 := by
                rw [← hmAname]
                exact hmAp
              rw [Prod.ext_iff]
              exact ⟨hp1, hp2⟩
            · exact hmemA r1
                (by rw [hfl]; exact List.mem_append_right _ (List.mem_cons_of_mem _ hfin))
                hr1name
        · exact hinv m1
            (by rw [hl]; exact List.mem_append_right _ (List.mem_cons_of_mem _ hin))
            hm1name r1 hr1 hr1name

theorem relNames_nodup_facts {dm dm1 : Datamodel}
    (h2 : List.Forall₂ (fun m m2 => m2.name = m.name
      ∧ m2.fields.map Field.name = m.fields.map Field.name) dm.models dm1.models)
    (hnn : (dm.models.map Model.name).Nodup)
    (hfn : ∀ m ∈ dm.models, (m.fields.map Field.name).Nodup) :
    (dm1.models.map Model.name).Nodup
      ∧ ∀ m1 ∈ dm1.models, (m1.fields.map Field.name).Nodup := by
  constructor
  · rw [forall2_map_eq (R := fun m m2 => m2.name = m.name
      ∧ m2.fields.map Field.name = m.fields.map Field.name) (f := Model.name)
      (fun a b hab => hab.1) h2]
    exact hnn
  · intro m1 hm1
    obtain ⟨m, hm, hr⟩ := forall2_mem_right h2 m1 hm1
    rw [hr.2]
    exact hfn m hm

theorem lastAssign_cons {e0 : (String × String) × String}
    {rest : List ((String × String) × String)} {p : String × String} :
    lastAssign (e0 :: rest) p =
      match lastAssign rest p with
      | some v => some v
      | none => if e0.1 == p then some e0.2 else none := by
  unfold lastAssign
  rw [List.reverse_cons, List.find?_append]
  rcases h : rest.reverse.find? (fun e => e.1 == p) with _ | e
  · rw [h]
    rcases he : (e0.1 == p) with _ | _
    · simp [Option.or, List.find?, he]
    · simp [Option.or, List.find?, he]
  · rw [h]
    simp [Option.or]

/-- Sequential application of the relation-name assignments: for every key,
the value assigned last is the one that survives. -/
theorem relNamePass_last :
    ∀ {es : List ((String × String) × String)} {dm dm2 : Datamodel},
      applyChain relNameStep es dm = some dm2 →
      (dm.models.map Model.name).Nodup →
      (∀ m ∈ dm.models, (m.fields.map Field.name).Nodup) →
      ∀ (p : String × String) (v : String), lastAssign es p = some v →
        ∀ m2 ∈ dm2.models, m2.name = p.1 →
          ∀ r2 : RelationField, Field.relation r2 ∈ m2.fields → r2.name = p.2 →
            r2.relation_info.name = v := by
  intro es
  induction es with
  | nil =>
      intro dm dm2 h _ _ p v hv
      unfold lastAssign at hv
      simp at hv
  | cons e0 rest ih =>
      intro dm dm2 h hnn hfn p v hv
      unfold applyChain at h
      rw [Option.bind_eq_some] at h
      obtain ⟨dm1, hstep, hrest⟩ := h
      have hchain1 : applyChain relNameStep [e0] dm = some dm1 := by
        unfold applyChain
        rw [hstep]
        rfl
      have hnames := relPass_names (G := fun e rf =>
          { rf with relation_info := { rf.relation_info with name := e.2 } })
        (fun e rf => rfl) (fun e d => rfl) hchain1
      have hnod1 := relNames_nodup_facts hnames hnn hfn
      rw [lastAssign_cons] at hv
      rcases hr : lastAssign rest p with _ | v0
      · rw [hr] at hv
        simp only at hv
        by_cases he : (e0.1 == p) = true
        · rw [if_pos he, Option.some.injEq] at hv
          have hep : e0.1 = p := by simpa using he
          -- the step establishes the value; the rest never touches the key
          unfold relNameStep at hstep
          have hfact := relStep_fact hnn hfn (by rw [hep] at hstep; exact hstep)
          have hfind : rest.reverse.find? (fun e => e.1 == p) = none := by
            unfold lastAssign at hr
            exact Option.map_eq_none'.1 hr
          have hnokey : ∀ e ∈ rest, e.1 ≠ p := by
            intro e hemem
            have := List.find?_eq_none.1 hfind e (List.mem_reverse.2 hemem)
            simpa using this
          refine relPass_inv (G := fun e rf =>
              { rf with relation_info := { rf.relation_info with name := e.2 } })
            (fun e rf => rfl) (fun e d => rfl) hrest hnokey ?_
          intro m1 hm1 hm1n r1 hr1 hr1n
          obtain ⟨r0, hr0⟩ := hfact m1 hm1 hm1n r1 hr1 hr1n
          rw [hr0, ← hv]
        · rw [if_neg he] at hv
          exact absurd hv (by simp)
      · rw [hr] at hv
        simp only [Option.some.injEq] at hv
        rw [← hv]
        exact ih hrest hnod1.1 hnod1.2 p v0 hr

/-- Claim C8 (amended): in the relation-name recovery phase, sequential
application makes the LAST collected assignment for each (model, field) key
the surviving one: under duplicate-free names, every relation field carrying
a key's names ends up with the value of the key's last collected entry. -/
theorem claim_C8 {old dm dm2 : Datamodel}
    (h : phaseRelNames old dm = some dm2)
    (hnn : (dm.models.map Model.name).Nodup)
    (hfn : ∀ m ∈ dm.models, (m.fields.map Field.name).Nodup) :
    ∃ ch, relNameCollect old dm = some ch
      ∧ ∀ (p : String × String) (v : String), lastAssign ch p = some v →
        ∀ m2 ∈ dm2.models, m2.name = p.1 →
          ∀ r2 : RelationField, Field.relation r2 ∈ m2.fields → r2.name = p.2 →
            r2.relation_info.name = v := by
  unfold phaseRelNames at h
  rw [Option.bind_eq_some] at h
  obtain ⟨ch, hch, happ⟩ := h
  unfold applyRelNames at happ
  exact ⟨ch, hch, fun p v hv => relNamePass_last happ hnn hfn p v hv⟩

/-- Claim C8 is refuted: two old candidates match the new field `x`; the
first in iteration order carries relation name `r1` (and its entries are
collected first), yet the field ends up with the later candidate's `r2`:
sequential application makes the last write win, not the first. -/
theorem claim_C8_counterexample :
    relNameCollect c8Old c8New = some
      [(("A", "x"), "r1"), (("A", "y"), "r1"), (("A", "x"), "r2"), (("A", "y"), "r2"),
       (("A", "y"), "r1"), (("A", "x"), "r1"), (("A", "y"), "r2"), (("A", "x"), "r2")]
    ∧ phaseRelNames c8Old c8New = some c8Res
    ∧ (∃ m ∈ c8Old.models, ∃ rf ∈ m.relationFields,
        rf.name = "oa" ∧ rf.relation_info.name = "r1")
    ∧ (∃ m ∈ c8Res.models, ∃ rf ∈ m.relationFields,
        rf.name = "x" ∧ rf.relation_info.name = "r2")
    ∧ ("r1" : String) ≠ "r2" := by
  decide

/-- Witness for C8 at a concrete input: the last-write-wins characterization
holds on the two-candidate input. -/
theorem claim_C8_witness :
    phaseRelNames c8Old c8New = some c8Res
    ∧ (∃ ch, relNameCollect c8Old c8New = some ch
        ∧ ∀ (p : String × String) (v : String), lastAssign ch p = some v →
          ∀ m2 ∈ c8Res.models, m2.name = p.1 →
            ∀ r2 : RelationField, Field.relation r2 ∈ m2.fields → r2.name = p.2 →
              r2.relation_info.name = v) := by
  refine ⟨by decide, ?_⟩
  exact @claim_C8 c8Old c8New c8Res (by decide) (by decide) (by decide)

end Reconcile
